import Mathlib

/-!
Verification of the Alkaid share-conversion subsystem
(`libspu/mpc/alkaid/conversion.cc`, `value.cc`, `type.h`).

The three-party protocols are embedded as global simulations: a shared value
is represented by the map from party rank to that party's local slots, and
every communication step (`rotate`, `rotateR`, `bcast`, point-to-point
send/recv) is resolved by re-indexing that map.  The compile-time flags
`EQ_USE_OFFLINE` and `EQ_USE_PRG_STATE` are both undefined in the source, so
every `fillPrssPair` buffer that the conversion kernels subsequently
overwrite with zeroes is modelled as zero; randomness that stays live
(`B2AByPPA`, `eqz`) is modelled by explicit parameters carrying the pairwise
PRSS convention: party `i` receives the pair `(r i, r (i+1))`.
-/

namespace Alkaid

/-- A party rank in the three-party protocol. -/
abbrev Party := Fin 3

/-- Replicated secret sharing: party `i` holds the slot pair `(b_i, b_{i+1})`.
For Boolean shares the secret is the XOR of the three first slots, for
arithmetic shares it is their sum modulo `2^k`. -/
abbrev RssShare := Party → Nat × Nat

/-- Masked replicated sharing (`BShrTyMss`): party `i` holds `(D, d_i, d_{i+1})`
with the external value `D` common to all parties and `x = D ⊕ d_0 ⊕ d_1 ⊕ d_2`. -/
abbrev MssShare := Party → Nat × Nat × Nat

/-- Additive sharing: party `i` holds a single share; XOR of all three
reconstructs.  (The source stores ASS values in the first slot of an RSS
container; the second slot is never written by the producing kernels nor read
by the consuming ones, so it is omitted here.) -/
abbrev AssShare := Party → Nat

/-- XOR of the three parties' values. -/
def xor3 (f : Party → Nat) : Nat := f 0 ^^^ f 1 ^^^ f 2

/-- Reconstruction of a Boolean RSS sharing: XOR of the parties' first slots. -/
def recB (s : RssShare) : Nat := xor3 (fun i => (s i).1)

/-- Reconstruction of an ASS sharing. -/
def recAss (a : AssShare) : Nat := xor3 a

/-- Reconstruction of an arithmetic RSS sharing over `ℤ/2^k`. -/
def recA (k : Nat) (s : RssShare) : Nat :=
  ((s 0).1 + (s 1).1 + (s 2).1) % 2 ^ k

/-- Reconstruction of a Boolean MSS sharing: `D ⊕ d_0 ⊕ d_1 ⊕ d_2`. -/
def recMss (s : MssShare) : Nat :=
  (s 0).1 ^^^ xor3 (fun i => (s i).2.1)

/-- Well-formedness of an RSS sharing: the second slot of party `i` is the
first slot of party `i+1` (replication invariant from the data model). -/
def wfRss (s : RssShare) : Prop := ∀ i : Party, (s i).2 = (s (i + 1)).1

/-- Well-formedness of an MSS sharing: the external value agrees across
parties and the `d`-halves satisfy the RSS replication invariant. -/
def wfMss (s : MssShare) : Prop :=
  (∀ i : Party, (s i).1 = (s 0).1) ∧ ∀ i : Party, (s i).2.2 = (s (i + 1)).2.1

/-- `Communicator::rotate`: each party sends its buffer to the previous rank
and receives the next rank's buffer, so party `i` ends up with party `i+1`'s
value.  (This is the direction that makes `ResharingAss2Rss` produce the
`(b_i, b_{i+1})` replication layout used everywhere else in the protocol.) -/
def rotate (f : Party → Nat) : Party → Nat := fun i => f (i + 1)

/-- `Communicator::rotateR`: the opposite direction, party `i` receives
party `i-1`'s value. -/
def rotateR (f : Party → Nat) : Party → Nat := fun i => f (i + 2)

/-! ## `value.cc`: back-storage type computation -/

/-- `calcBShareBacktype`: the unsigned back-storage width for an `nbits`-wide
Boolean share; `SPU_THROW` for `nbits > 128` is modelled as `none`. -/
def calcBShareBacktype (nbits : Nat) : Option Nat :=
  if nbits ≤ 8 then some 8
  else if nbits ≤ 16 then some 16
  else if nbits ≤ 32 then some 32
  else if nbits ≤ 64 then some 64
  else if nbits ≤ 128 then some 128
  else none

/-! ## Boolean gates (`AssXor2`, `RssXor2`, `MssXor2`, the AND family) -/

/-- `AssXor2`: XOR gate for ASS, element-wise on the single live slot. -/
def AssXor2 (lhs rhs : AssShare) : AssShare := fun i => lhs i ^^^ rhs i

/-- `RssXor2`: XOR gate for RSS, element-wise on both slots. -/
def RssXor2 (lhs rhs : RssShare) : RssShare := fun i =>
  ((lhs i).1 ^^^ (rhs i).1, (lhs i).2 ^^^ (rhs i).2)

/-- `MssXor2`: XOR gate for MSS, element-wise on all three slots. -/
def MssXor2 (lhs rhs : MssShare) : MssShare := fun i =>
  ((lhs i).1 ^^^ (rhs i).1, (lhs i).2.1 ^^^ (rhs i).2.1, (lhs i).2.2 ^^^ (rhs i).2.2)

/-- `RssAnd2NoComm`: AND gate RSS × RSS → ASS with no communication.  Party
`i` computes `(l0 & r0) ^ (l0 & r1) ^ (l1 & r0) ^ (ρ_i ^ ρ_{i+1})` where
`(ρ_i, ρ_{i+1})` is the party's `fillPrssPair` output.  In the source the
pair is overwritten with zeroes because `EQ_USE_PRG_STATE` is undefined; the
mask map `ρ` is kept as a parameter and instantiated with `0` at every call
site inside the conversion kernels. -/
def RssAnd2NoComm (ρ : Party → Nat) (lhs rhs : RssShare) : AssShare := fun i =>
  ((lhs i).1 &&& (rhs i).1) ^^^ ((lhs i).1 &&& (rhs i).2) ^^^
    ((lhs i).2 &&& (rhs i).1) ^^^ (ρ i ^^^ ρ (i + 1))

/-- The all-zero PRSS mask map actually used by the compiled source
(`EQ_USE_PRG_STATE` undefined zeroes every pair). -/
def zeroMask : Party → Nat := fun _ => 0

/-- `MssAnd2NoComm`: AND gate MSS × MSS → RSS with no communication.  With
`EQ_USE_OFFLINE` undefined the correlated `dxy` triple `(r0, r1)` is zero, so
party `i` outputs
`((l0&r0)^(l0&r1)^(l1&r0), (l0&r0)^(l0&r2)^(l2&r0))`. -/
def MssAnd2NoComm (lhs rhs : MssShare) : RssShare := fun i =>
  (((lhs i).1 &&& (rhs i).1) ^^^ ((lhs i).1 &&& (rhs i).2.1) ^^^
      ((lhs i).2.1 &&& (rhs i).1),
    ((lhs i).1 &&& (rhs i).1) ^^^ ((lhs i).1 &&& (rhs i).2.2) ^^^
      ((lhs i).2.2 &&& (rhs i).1))

/-! ## Resharing operators -/

/-- `ResharingMss2Rss` (purely local): `(D ⊕ d_i, D ⊕ d_{i+1})`. -/
def ResharingMss2Rss (s : MssShare) : RssShare := fun i =>
  ((s i).1 ^^^ (s i).2.1, (s i).1 ^^^ (s i).2.2)

/-- `ResharingRss2Ass` (purely local): every party keeps its first RSS half
and zeroes the second slot. -/
def ResharingRss2Ass (s : RssShare) : AssShare := fun i => (s i).1

/-- `ResharingAss2Rss`: party `i` sends `a_i ⊕ r_i ⊕ r_{i+1}` (masks zero
with `EQ_USE_PRG_STATE` undefined) through `rotate`, ending with the pair
`(a_i, a_{i+1})`. -/
def ResharingAss2Rss (a : AssShare) : RssShare := fun i => (a i, rotate a i)

/-- `ResharingAss2Mss`: with zero masks party `i` sets `d`-slots to `0`,
sends `a_i` both ways (`rotateR` then `rotate`) and computes
`D = a_i ⊕ a_{i-1} ⊕ a_{i+1}`. -/
def ResharingAss2Mss (a : AssShare) : MssShare := fun i =>
  (a i ^^^ rotateR a i ^^^ rotate a i, 0, 0)

/-- `ResharingRss2Mss`: with zero masks party `i` sets `d`-slots to `0`,
sends `b_i` through `rotateR` and computes `D = b_i ⊕ b_{i+1} ⊕ b_{i-1}`. -/
def ResharingRss2Mss (s : RssShare) : MssShare := fun i =>
  ((s i).1 ^^^ (s i).2 ^^^ rotateR (fun j => (s j).1) i, 0, 0)

/-- `MssAnd3NoComm`: 3-input AND tree, result in ASS. -/
def MssAnd3NoComm (op1 op2 op3 : MssShare) : AssShare :=
  RssAnd2NoComm zeroMask (MssAnd2NoComm op1 op2) (ResharingMss2Rss op3)

/-- `MssAnd4NoComm`: 4-input AND tree, result in ASS. -/
def MssAnd4NoComm (op1 op2 op3 op4 : MssShare) : AssShare :=
  RssAnd2NoComm zeroMask (MssAnd2NoComm op1 op2) (MssAnd2NoComm op3 op4)

/-! ## Packing (`pack_2_bitvec_*`, `unpack_2_bitvec_*`)

The inactive release-build `assert`s on the share widths are not modelled as
failures, but the `SPU_THROW` inside `calcBShareBacktype` (packed width
above 128) and the undefined `int` shifts of the unpack masks are. -/

/-- `pack_2_bitvec_ass`: OR of `lo` with `hi` shifted by `lo`'s bit width.
The output backtype is `calcBShareBacktype(2 * nbits)`, which throws for
`2 * nbits > 128`. -/
def pack_2_bitvec_ass (n : Nat) (lo hi : AssShare) : Option AssShare :=
  match calcBShareBacktype (n + n) with
  | some _ => some (fun i => lo i ||| (hi i <<< n))
  | none => none

/-- `pack_2_bitvec_rss`. -/
def pack_2_bitvec_rss (n : Nat) (lo hi : RssShare) : Option RssShare :=
  match calcBShareBacktype (n + n) with
  | some _ => some (fun i =>
      ((lo i).1 ||| ((hi i).1 <<< n), (lo i).2 ||| ((hi i).2 <<< n)))
  | none => none

/-- `pack_2_bitvec_mss`. -/
def pack_2_bitvec_mss (n : Nat) (lo hi : MssShare) : Option MssShare :=
  match calcBShareBacktype (n + n) with
  | some _ => some (fun i =>
      ((lo i).1 ||| ((hi i).1 <<< n),
        (lo i).2.1 ||| ((hi i).2.1 <<< n),
        (lo i).2.2 ||| ((hi i).2.2 <<< n)))
  | none => none

/-- `unpack_2_bitvec_ass` on an `n2`-bit input: returns `(hi, lo)` via
mask-and-shift with `lo_nbits = n2 / 2`.  The masks `(1 << lo_nbits) - 1`
and `(1 << hi_nbits) - 1` are built in `int` arithmetic, so a shift count
of 31 or more is undefined behaviour, modelled as failure. -/
def unpack_2_bitvec_ass (n2 : Nat) (s : AssShare) :
    Option (AssShare × AssShare) :=
  let lo_nbits := n2 / 2
  let hi_nbits := n2 - lo_nbits
  if 31 ≤ lo_nbits ∨ 31 ≤ hi_nbits then none
  else
    some (fun i => (s i >>> lo_nbits) &&& ((1 <<< hi_nbits) - 1),
      fun i => s i &&& ((1 <<< lo_nbits) - 1))

/-- `unpack_2_bitvec_rss`: same undefined `int` mask shifts as the ASS
variant. -/
def unpack_2_bitvec_rss (n2 : Nat) (s : RssShare) :
    Option (RssShare × RssShare) :=
  let lo_nbits := n2 / 2
  let hi_nbits := n2 - lo_nbits
  if 31 ≤ lo_nbits ∨ 31 ≤ hi_nbits then none
  else
    some (fun i => (((s i).1 >>> lo_nbits) &&& ((1 <<< hi_nbits) - 1),
        ((s i).2 >>> lo_nbits) &&& ((1 <<< hi_nbits) - 1)),
      fun i => ((s i).1 &&& ((1 <<< lo_nbits) - 1),
        (s i).2 &&& ((1 <<< lo_nbits) - 1)))

/-- `unpack_2_bitvec_mss`: same undefined `int` mask shifts as the ASS
variant. -/
def unpack_2_bitvec_mss (n2 : Nat) (s : MssShare) :
    Option (MssShare × MssShare) :=
  let lo_nbits := n2 / 2
  let hi_nbits := n2 - lo_nbits
  if 31 ≤ lo_nbits ∨ 31 ≤ hi_nbits then none
  else
    some (fun i => (((s i).1 >>> lo_nbits) &&& ((1 <<< hi_nbits) - 1),
        ((s i).2.1 >>> lo_nbits) &&& ((1 <<< hi_nbits) - 1),
        ((s i).2.2 >>> lo_nbits) &&& ((1 <<< hi_nbits) - 1)),
      fun i => ((s i).1 &&& ((1 <<< lo_nbits) - 1),
        (s i).2.1 &&& ((1 <<< lo_nbits) - 1),
        (s i).2.2 &&& ((1 <<< lo_nbits) - 1)))

/-! ## Bit split -/

/-- Floor of `log₂` with explicit fuel; structural recursion on the fuel
keeps the definition kernel-reducible on concrete inputs. -/
def log2Fuel : Nat → Nat → Nat
  | 0, _ => 0
  | fuel + 1, n => if n ≤ 1 then 0 else log2Fuel fuel (n / 2) + 1

/-- `Log2Ceil` from the spu prelude: `⌈log₂ n⌉`. -/
def Log2Ceil (n : Nat) : Nat := if n ≤ 1 then 0 else log2Fuel n (n - 1) + 1

/-- Extract the bits of `x` at the listed positions into consecutive low bits
(position `ps[j]` becomes result bit `j`). -/
def pextList (x : Nat) : List Nat → Nat
  | [] => 0
  | p :: ps => ((x >>> p) &&& 1) + 2 * pextList x ps

/-- The positions of the set bits of a 64-bit mask, in increasing order. -/
def maskPositions (mask : Nat) : List Nat :=
  (List.range 64).filter fun i => mask.testBit i

/-- `yacl::pext_u64`: parallel bit extract on 64-bit words.  Both arguments
are `uint64_t`, so wider C++ values are truncated modulo `2^64` at the call. -/
def pext_u64 (x mask : Nat) : Nat :=
  pextList (x % 2 ^ 64) (maskPositions (mask % 2 ^ 64))

/-- `bit_split` (RSS variant).  `SPU_ENFORCE` rejects zero or odd `nbits`.
Since a `BShrTy` always has `nbits ≤ 128`, the output backtype is at most 64
bits wide and the PEXT branch is always taken; the butterfly branch of this
function is dead code.  The low-half mask `M = (out_el_t(1) << nbits/2) - 1`
shifts the output container type (promoted to at least `int` width); a
shift count equal to the promoted width — `nbits = 64` with a 32-bit
container, `nbits = 128` with a 64-bit one — is undefined behaviour and is
modelled as failure, as is the `calcBShareBacktype` throw above 128 output
bits.  Returns `(hi, lo)`. -/
def bit_split (in_nbits : Nat) (s : RssShare) : Option (RssShare × RssShare) :=
  if in_nbits = 0 ∨ in_nbits % 2 ≠ 0 then none
  else if max ((calcBShareBacktype (in_nbits / 2)).getD 0) 32 ≤ in_nbits / 2
    then none
  else
    let S : Nat := 0x5555555555555555
    let notS : Nat := 0xAAAAAAAAAAAAAAAA
    let M := (1 <<< (in_nbits / 2)) - 1
    some
      (fun i => (pext_u64 (s i).1 notS &&& M, pext_u64 (s i).2 notS &&& M),
        fun i => (pext_u64 (s i).1 S &&& M, pext_u64 (s i).2 S &&& M))

/-- The `kSwapMasks` table (each entry a 128-bit constant built by
`yacl::MakeUint128(hi, lo)`). -/
def kSwapMasks : List Nat :=
  [0x22222222222222222222222222222222,
   0x0C0C0C0C0C0C0C0C0C0C0C0C0C0C0C0C,
   0x00F000F000F000F000F000F000F000F0,
   0x0000FF000000FF000000FF000000FF00,
   0x00000000FFFF000000000000FFFF0000,
   0x0000000000000000FFFFFFFF00000000]

/-- The `kKeepMasks` table. -/
def kKeepMasks : List Nat :=
  [0x99999999999999999999999999999999,
   0xC3C3C3C3C3C3C3C3C3C3C3C3C3C3C3C3,
   0xF00FF00FF00FF00FF00FF00FF00FF00F,
   0xFF0000FFFF0000FFFF0000FFFF0000FF,
   0xFFFF00000000FFFFFFFF00000000FFFF,
   0xFFFFFFFF0000000000000000FFFFFFFF]

/-- One butterfly pass at stride `2^j` on a `cw`-bit container: the masks are
cast (`static_cast<in_el_t>`) to the container width and the up-shift wraps
in the container. -/
def butterflyPass (cw j r : Nat) : Nat :=
  let keep := kKeepMasks.getD j 0 % 2 ^ cw
  let move := kSwapMasks.getD j 0 % 2 ^ cw
  let shift := 2 ^ j
  (r &&& keep) ^^^ ((r >>> shift) &&& move) ^^^ (((r &&& move) <<< shift) % 2 ^ cw)

/-- The butterfly loop of `bit_split_mss`: passes `j = 0, …, ⌈log₂ nbits⌉ - 2`. -/
def butterflyWord (cw in_nbits r : Nat) : Nat :=
  (List.range (Log2Ceil in_nbits - 1)).foldl (fun acc j => butterflyPass cw j acc) r

/-- `bit_split_mss`: the MSS variant always runs the butterfly network (its
PEXT branch is commented out in the source).  Returns `(hi, lo)`. -/
def bit_split_mss (in_nbits : Nat) (s : MssShare) : Option (MssShare × MssShare) :=
  if in_nbits = 0 ∨ in_nbits % 2 ≠ 0 then none
  else
    let cw := (calcBShareBacktype in_nbits).getD 0
    let mask := (1 <<< (in_nbits / 2)) - 1
    let f := fun v => butterflyWord cw in_nbits v
    some
      (fun i => ((f (s i).1 >>> (in_nbits / 2)) &&& mask,
          (f (s i).2.1 >>> (in_nbits / 2)) &&& mask,
          (f (s i).2.2 >>> (in_nbits / 2)) &&& mask),
        fun i => (f (s i).1 &&& mask, f (s i).2.1 &&& mask, f (s i).2.2 &&& mask))

/-! ## 64-bit helpers of the PPA (`lshift`, `rshift`, `select`,
`SelectAndRotate`).  All four take `uint64_t` arguments and return
`uint64_t`, so wider ring values are truncated modulo `2^64` on entry and
the shifts wrap modulo `2^64`. -/

/-- `lshift(uint64_t x, size_t shift)`. -/
def lshift (x shift : Nat) : Nat := ((x % 2 ^ 64) <<< shift) % 2 ^ 64

/-- `rshift(uint64_t x, size_t shift)`. -/
def rshift (x shift : Nat) : Nat := (x % 2 ^ 64) >>> shift

/-- `select(uint64_t x, mask, offset, idx) = (x & (mask << (idx*offset))) << ((3-idx)*offset)`. -/
def select (x mask offset idx : Nat) : Nat :=
  (((x % 2 ^ 64) &&& (((mask % 2 ^ 64) <<< (idx * offset)) % 2 ^ 64)) <<<
      ((3 - idx) * offset)) % 2 ^ 64

/-- `SelectAndRotate(uint64_t x, mask, stride) = (x & mask) << stride`. -/
def SelectAndRotate (x mask stride : Nat) : Nat :=
  (((x % 2 ^ 64) &&& (mask % 2 ^ 64)) <<< stride) % 2 ^ 64

/-! ## The black cells of the 4-ary PPA -/

/-- `PGCell_4FanIn4Out` over a `2^k` ring.  The `idx][1` lines of the final
XOR-combine operate on the uninitialized second slot of the ASS containers
(which no consumer reads) and reuse the `[0]` slots of `g3/g2/g1`; only the
live first slot is modelled.  The accumulating XOR assigns back into the
`el_t` element, hence the reduction modulo `2^k`. -/
def PGCell_4FanIn4Out (k : Nat) (p0 p1 p2 p3 g0 g1 g2 g3 : MssShare) :
    MssShare × MssShare :=
  let p3_rss := ResharingMss2Rss p3
  let p2_rss := ResharingMss2Rss p2
  let g2_rss := ResharingMss2Rss g2
  let g1_rss := ResharingMss2Rss g1
  let p01_rss := MssAnd2NoComm p0 p1
  let p23_rss := MssAnd2NoComm p2 p3
  let g0p1_rss := MssAnd2NoComm g0 p1
  let p0123_ass := RssAnd2NoComm zeroMask p01_rss p23_rss
  let p012_ass := RssAnd2NoComm zeroMask p01_rss p2_rss
  let g2p3_ass := RssAnd2NoComm zeroMask g2_rss p3_rss
  let g1p23_ass := RssAnd2NoComm zeroMask g1_rss p23_rss
  let g0p123_ass := RssAnd2NoComm zeroMask g0p1_rss p23_rss
  let g1p2_ass := RssAnd2NoComm zeroMask g1_rss p2_rss
  let g0p12_ass := RssAnd2NoComm zeroMask g0p1_rss p2_rss
  let gr3_ass := AssXor2 g2p3_ass (AssXor2 g1p23_ass g0p123_ass)
  let gr2_ass := AssXor2 g1p2_ass g0p12_ass
  let gr1_ass := ResharingRss2Ass g0p1_rss
  let gr0_ass := ResharingRss2Ass (ResharingMss2Rss g0)
  let pr3_ass := p0123_ass
  let pr2_ass := p012_ass
  let pr1_ass := ResharingRss2Ass p01_rss
  let pr0_ass := ResharingRss2Ass (ResharingMss2Rss p0)
  let g3_ass := ResharingRss2Ass (ResharingMss2Rss g3)
  let g2_ass := ResharingRss2Ass g2_rss
  let g1_ass := ResharingRss2Ass g1_rss
  let gr3' : AssShare := fun i =>
    (gr3_ass i ^^^ rshift (gr2_ass i) 1 ^^^ rshift (gr1_ass i) 2 ^^^
        rshift (gr0_ass i) 3 ^^^ g3_ass i ^^^ rshift (g2_ass i) 1 ^^^
        rshift (g1_ass i) 2) % 2 ^ k
  let pr3' : AssShare := fun i =>
    (pr3_ass i ^^^ rshift (pr2_ass i) 1 ^^^ rshift (pr1_ass i) 2 ^^^
        rshift (pr0_ass i) 3) % 2 ^ k
  (ResharingAss2Mss gr3', ResharingAss2Mss pr3')

/-- `PGCell_4FanIn1Out`. -/
def PGCell_4FanIn1Out (p0 p1 p2 p3 g0 g1 g2 g3 : MssShare) :
    MssShare × MssShare :=
  let p3_rss := ResharingMss2Rss p3
  let g2_rss := ResharingMss2Rss g2
  let g1_rss := ResharingMss2Rss g1
  let p01_rss := MssAnd2NoComm p0 p1
  let p23_rss := MssAnd2NoComm p2 p3
  let g0p1_rss := MssAnd2NoComm g0 p1
  let p0123_ass := RssAnd2NoComm zeroMask p01_rss p23_rss
  let g2p3_ass := RssAnd2NoComm zeroMask g2_rss p3_rss
  let g1p23_ass := RssAnd2NoComm zeroMask g1_rss p23_rss
  let g0p123_ass := RssAnd2NoComm zeroMask g0p1_rss p23_rss
  let g3_ass := ResharingRss2Ass (ResharingMss2Rss g3)
  let gr3_ass := AssXor2 (AssXor2 g3_ass g2p3_ass) (AssXor2 g1p23_ass g0p123_ass)
  let pr3_ass := p0123_ass
  (ResharingAss2Mss gr3_ass, ResharingAss2Mss pr3_ass)

/-! ## `MsbA2BMultiFanIn` and `A2BMultiFanIn` -/

/-- Phase 1 of `MsbA2BMultiFanIn`/`A2BMultiFanIn` with `start_rank = 0` (the
broadcast root is the hard-coded rank 0, which forces the default): the
arithmetic RSS input is turned into Boolean MSS operands `m`, `n` with
`m + n ≡ x₀ + x₁ + x₂ (mod 2^k)`.  All PRSS masks are zero
(`EQ_USE_PRG_STATE` undefined), so the `d`-slots all end up zero. -/
def constructMN (k : Nat) (x : RssShare) : MssShare × MssShare :=
  -- local phase: each rank's branch of the first `pforeach`
  let r1After : Party → Nat := fun i =>
    if i = 0 then ((x i).1 + (x i).2) % 2 ^ k   -- Dm = (x0 + x1) ^ dm0 ^ dm1
    else if i = 1 then (x i).2                  -- Dn = x2 ^ dn2
    else 0
  let mPre : MssShare := fun i => if i = 0 then (r1After 0, 0, 0) else (0, 0, 0)
  let nPre : MssShare := fun i =>
    if i = 0 then (0, 0, 0)
    else if i = 1 then (r1After 1, 0, 0)
    else ((x i).1 ^^^ 0, 0, 0)
  -- `bcast` of rank 0's `r1` (= Dm) plus the rank-1 → rank-0 send of Dn
  let Dm := r1After 0
  let Dn := r1After 1
  (fun i => if i = 0 then mPre i else (Dm, (mPre i).2),
    fun i => if i = 0 then (Dn, (nPre i).2) else nPre i)

/-- The loop of `MsbA2BMultiFanIn`: 4-ary reduction of the `(p, g)` signal
words.  `k` is the loop counter (initially `SizeOf(field)*8 - 1`) and `w`
the current bit width of `g` and `p` (initially `SizeOf(field)*8`); the
widths flow through the share types in the source.  The `k ≤ 1` fallback is
unreachable for the dispatched fields. -/
def msbLoopFuel : Nat → Nat → Nat → MssShare → MssShare → RssShare
  | 0, _, _, g, _ => ResharingMss2Rss g
  | fuel + 1, k, w, g, p =>
  if k ≤ 1 then ResharingMss2Rss g
  else
    let gs := (bit_split_mss w g).getD (g, g)
    let gh := (bit_split_mss (w / 2) gs.1).getD (gs.1, gs.1)
    let gl := (bit_split_mss (w / 2) gs.2).getD (gs.2, gs.2)
    let ps := (bit_split_mss w p).getD (p, p)
    let ph := (bit_split_mss (w / 2) ps.1).getD (ps.1, ps.1)
    let pl := (bit_split_mss (w / 2) ps.2).getD (ps.2, ps.2)
    let gops3 := gh.1
    let gops1 := gh.2
    let gops2 := gl.1
    let gops0 := gl.2
    let pops3 := ph.1
    let pops1 := ph.2
    let pops2 := pl.1
    let pops0 := pl.2
    let p_res := MssAnd4NoComm pops0 pops1 pops2 pops3
    let g_res_3 := ResharingRss2Ass (ResharingMss2Rss gops3)
    let g_res_2 := ResharingRss2Ass (MssAnd2NoComm gops2 pops3)
    let g_res_1 := MssAnd3NoComm gops1 pops3 pops2
    let g_res_0 := MssAnd4NoComm gops0 pops3 pops2 pops1
    let g_combined := AssXor2 (AssXor2 g_res_0 g_res_1) (AssXor2 g_res_2 g_res_3)
    if 1 < k / 4 then
      let pg := (pack_2_bitvec_ass (w / 4) p_res g_combined).getD (fun _ => 0)
      let pgm := ResharingAss2Mss pg
      let up := (unpack_2_bitvec_mss (w / 2) pgm).getD
        (fun _ => (0, 0, 0), fun _ => (0, 0, 0))
      msbLoopFuel fuel (k / 4) (w / 4) up.1 up.2
    else
      let pg := (pack_2_bitvec_ass (w / 4) p_res g_combined).getD (fun _ => 0)
      let pgr := ResharingAss2Rss pg
      let up := (unpack_2_bitvec_rss (w / 2) pgr).getD
        (fun _ => (0, 0), fun _ => (0, 0))
      up.1

/-- The loop entered with fuel `k`: the counter strictly decreases
(`k / 4 < k`), so `k` units of fuel always suffice. -/
def msbLoop (k w : Nat) (g p : MssShare) : RssShare := msbLoopFuel k k w g p

/-- `MsbA2BMultiFanIn` over the `2^k` ring (`k = SizeOf(field) * 8`).  The
`1ull << nbits` forcing of the top bit is modelled ideally as `2^(k-1)`
(for `k = 128` the 64-bit C++ shift is undefined behaviour). -/
def MsbA2BMultiFanIn (k : Nat) (x : RssShare) : RssShare :=
  let mn := constructMN k x
  let m := mn.1
  let n := mn.2
  let sig_g_rss := MssAnd2NoComm m n
  let sig_g_mss := ResharingAss2Mss (ResharingRss2Ass sig_g_rss)
  let p := MssXor2 m n
  let g := sig_g_mss
  let nbits := k - 1
  let out0 : RssShare := fun i =>
    (((p i).1 ^^^ (p i).2.1) >>> nbits, ((p i).1 ^^^ (p i).2.2) >>> nbits)
  let pF : MssShare := fun i =>
    ((1 <<< nbits) ||| (p i).1,
      ((1 <<< nbits) - 1) &&& (p i).2.1,
      ((1 <<< nbits) - 1) &&& (p i).2.2)
  let gF : MssShare := fun i =>
    (((1 <<< nbits) - 1) &&& (g i).1,
      ((1 <<< nbits) - 1) &&& (g i).2.1,
      ((1 <<< nbits) - 1) &&& (g i).2.2)
  let gfin := msbLoop nbits k gF pF
  fun i => ((out0 i).1 ^^^ (gfin i).1, (out0 i).2 ^^^ (gfin i).2)

/-- `MsbA2B::proc`. -/
def MsbA2B_proc (k : Nat) (x : RssShare) : RssShare := MsbA2BMultiFanIn k x

/-- Apply `select` to the three MSS slots of a word, with the result stored
back into `el_t` elements (reduction modulo `2^k`). -/
def selectMss (k : Nat) (w : MssShare) (mask offset idx : Nat) : MssShare :=
  fun j => (select (w j).1 mask offset idx % 2 ^ k,
    select (w j).2.1 mask offset idx % 2 ^ k,
    select (w j).2.2 mask offset idx % 2 ^ k)

/-- Apply `SelectAndRotate` to the three MSS slots of a word. -/
def selRotMss (k : Nat) (w : MssShare) (mask stride : Nat) : MssShare :=
  fun j => (SelectAndRotate (w j).1 mask stride % 2 ^ k,
    SelectAndRotate (w j).2.1 mask stride % 2 ^ k,
    SelectAndRotate (w j).2.2 mask stride % 2 ^ k)

/-- The level-1/level-2 merge
`x := (x & 0x7777777777777777) ^ cell` of `A2BMultiFanIn`, slot-wise; the
64-bit literal truncates wider rings; the XOR of two in-range values needs
no further reduction at the store. -/
def mergeTop (_k : Nat) (x cell : MssShare) : MssShare :=
  fun j => (((x j).1 &&& 0x7777777777777777) ^^^ (cell j).1,
    (((x j).2.1 &&& 0x7777777777777777) ^^^ (cell j).2.1),
    (((x j).2.2 &&& 0x7777777777777777) ^^^ (cell j).2.2))

/-- `A2BMultiFanIn` over the `2^k` ring: four fixed levels of the 4-ary
parallel-prefix carry network on 64-bit lanes followed by the final
`out ^= c << 1`. -/
def A2BMultiFanIn (k : Nat) (x : RssShare) : RssShare :=
  let mn := constructMN k x
  let m := mn.1
  let n := mn.2
  let sig_g_rss := MssAnd2NoComm m n
  let sig_g_mss := ResharingAss2Mss (ResharingRss2Ass sig_g_rss)
  let p0w := MssXor2 m n
  let g0w := sig_g_mss
  let out0 : RssShare := fun i =>
    ((p0w i).1 ^^^ (p0w i).2.1, (p0w i).1 ^^^ (p0w i).2.2)
  -- Level 0: 4-fan-in 4-output cell at stride 1
  let l0 := PGCell_4FanIn4Out k
    (selectMss k p0w 0x1111111111111111 1 0) (selectMss k p0w 0x1111111111111111 1 1)
    (selectMss k p0w 0x1111111111111111 1 2) (selectMss k p0w 0x1111111111111111 1 3)
    (selectMss k g0w 0x1111111111111111 1 0) (selectMss k g0w 0x1111111111111111 1 1)
    (selectMss k g0w 0x1111111111111111 1 2) (selectMss k g0w 0x1111111111111111 1 3)
  let g1w := l0.1
  let p1w := l0.2
  -- Level 1: 4-fan-in 1-output cell at stride 4
  let l1 := PGCell_4FanIn1Out
    (selRotMss k p1w 0x8888888888888888 (4 * 3)) (selRotMss k p1w 0x8888888888888888 (4 * 2))
    (selRotMss k p1w 0x8888888888888888 (4 * 1)) (selRotMss k p1w 0x8888888888888888 (4 * 0))
    (selRotMss k g1w 0x8888888888888888 (4 * 3)) (selRotMss k g1w 0x8888888888888888 (4 * 2))
    (selRotMss k g1w 0x8888888888888888 (4 * 1)) (selRotMss k g1w 0x8888888888888888 (4 * 0))
  let g2w := mergeTop k g1w l1.1
  let p2w := mergeTop k p1w l1.2
  -- Level 2: 4-fan-in 1-output cell at stride 16
  let l2 := PGCell_4FanIn1Out
    (selRotMss k p2w 0x8888888888888888 (16 * 3)) (selRotMss k p2w 0x8888888888888888 (16 * 2))
    (selRotMss k p2w 0x8888888888888888 (16 * 1)) (selRotMss k p2w 0x8888888888888888 (16 * 0))
    (selRotMss k g2w 0x8888888888888888 (16 * 3)) (selRotMss k g2w 0x8888888888888888 (16 * 2))
    (selRotMss k g2w 0x8888888888888888 (16 * 1)) (selRotMss k g2w 0x8888888888888888 (16 * 0))
  let g3w := mergeTop k g2w l2.1
  let p3w := mergeTop k p2w l2.2
  -- Level 3: terminal 2-input cell, c = g ⊕ (spread(g) & (p & 0x7777…))
  let gops0 : MssShare := fun j =>
    ((SelectAndRotate (g3w j).1 0x8888888888888888 1 ^^^
        SelectAndRotate (g3w j).1 0x8888888888888888 2 ^^^
        SelectAndRotate (g3w j).1 0x8888888888888888 3) % 2 ^ k,
      (SelectAndRotate (g3w j).2.1 0x8888888888888888 1 ^^^
        SelectAndRotate (g3w j).2.1 0x8888888888888888 2 ^^^
        SelectAndRotate (g3w j).2.1 0x8888888888888888 3) % 2 ^ k,
      (SelectAndRotate (g3w j).2.2 0x8888888888888888 1 ^^^
        SelectAndRotate (g3w j).2.2 0x8888888888888888 2 ^^^
        SelectAndRotate (g3w j).2.2 0x8888888888888888 3) % 2 ^ k)
  let gops1 := g3w
  let popsF := selRotMss k p3w 0x7777777777777777 0
  let c := RssXor2 (ResharingMss2Rss gops1) (MssAnd2NoComm gops0 popsF)
  fun i => (((out0 i).1 ^^^ lshift ((c i).1) 1) % 2 ^ k,
    ((out0 i).2 ^^^ lshift ((c i).2) 1) % 2 ^ k)

/-- `A2B::proc`. -/
def A2B_proc (k : Nat) (x : RssShare) : RssShare := A2BMultiFanIn k x

/-! ## B→A conversions -/

/-- The communication tags issued by one kernel invocation, in program order. -/
abbrev CommTrace := List String

/-- Negation in the `2^k` ring. -/
def negMod (k a : Nat) : Nat := (2 ^ k - a % 2 ^ k) % 2 ^ k

/-- Subtraction in the `2^k` ring. -/
def subMod (k a b : Nat) : Nat := (a + negMod k b) % 2 ^ k

/-- Modelled from the spec: `add_bb` (the Boolean parallel-prefix adder of
the surrounding `ab_api`, reused by `B2AByPPA` through `wrap_add_bb`) is not
part of the sources.  Following §4.6 and §6 of the spec it returns a
well-formed B/RSS sharing of `(x + r) mod 2^k`; the concrete output shares
are protocol-internal, so the canonical sharing `(sum, 0, 0)` is used. -/
def add_bb (k : Nat) (x r : RssShare) : RssShare :=
  let v := (recB x + recB r) % 2 ^ k
  fun i => (if i = 0 then v else 0, if i = 2 then v else 0)

/-- `B2AByPPA::proc` over the `2^k` ring on an `nbits`-wide Boolean input.
`α` and `β` are the two live `fillPrssPair` outputs (party `i` receives the
pair `(α i, α (i+1))`, resp. `β`); they are not zeroed in this kernel.  The
`nbits = 0` special case returns the all-zero arithmetic sharing without any
communication.  Returns the output sharing and the trace of communication
tags. -/
def B2AByPPA_proc (k nbits : Nat) (α β : Party → Nat) (x : RssShare) :
    RssShare × CommTrace :=
  if nbits = 0 then (fun _ => (0, 0), [])
  else
    -- P1 folds the arithmetic value of the future mask into its Boolean share
    let rb0 : Party → Nat := fun i =>
      let zb := β i ^^^ β (i + 1)
      if i = 1 then zb ^^^ ((α i + α (i + 1)) % 2 ^ k) else zb
    let rb1 := rotate rb0
    let r : RssShare := fun i => (rb0 i, rb1 i)
    -- the input is first widened to k bits, which preserves its value
    let x_plus_r := add_bb k x r
    -- reveal x + r to P0 (P2 sends its first slot)
    let x_plus_r_2 := (x_plus_r 2).1
    let ra0 : Party → Nat := fun i =>
      if i = 0 then (x_plus_r 0).1 ^^^ (x_plus_r 0).2 ^^^ x_plus_r_2
      else negMod k (α i)
    let ra1 := rotate ra0
    (fun i => (ra0 i, ra1 i),
      ["b2a.rand", "add_bb", "reveal.x_plus_r.to.P0", "b2a.rotate"])

/-- `bitDecompose` of one element (the per-bit Booleans `(v >> bit) & 1`). -/
def bitDecompose (nbits v : Nat) : List Bool :=
  (List.range nbits).map fun b => v.testBit b

/-- `bitCompose` over the `2^k` ring: `out += in[bit] << bit`. -/
def bitCompose (k : Nat) (xs : List Nat) : Nat :=
  (List.range xs.length).foldl (fun acc b => (acc + (xs.getD b 0 <<< b)) % 2 ^ k) 0

/-- `B2AByOT::proc` over the `2^k` ring on an `nbits`-wide Boolean input
(one element).  `pivot` is the publicly shared randomness choosing the
roles (`P0 = pivot` the helper, `P1` the receiver, `P2` the sender);
`pair i b` is bit `b` of the live PRSS pair value shared between parties
`i` and `i+1` for the first fill, and `μ0 b`, `μ1 b` are the two helper/
sender mask pairs.  The `nbits = 0` special case returns the all-zero
sharing with no communication (it precedes even the `fillPubl` of the
pivot). -/
def B2AByOT_proc (k nbits : Nat) (pivot : Party) (pair : Party → Nat → Nat)
    (μ0 μ1 : Nat → Nat) (x : RssShare) : RssShare × CommTrace :=
  if nbits = 0 then (fun _ => (0, 0), [])
  else
    let P0 := pivot
    let P1 := pivot + 1
    let P2 := pivot + 2
    -- first fillPrssPair: party i holds r0 = pair (i+2) ·, r1 = pair i ·
    let c1 := bitCompose k ((List.range nbits).map fun b => pair (P0 + 2) b)
    let c3 := bitCompose k ((List.range nbits).map fun b => pair (P1) b)
    -- the sender P2 defines m_i := (i ^ b1 ^ b3) − c1 − c3 per bit and masks
    -- them with the pairs shared with the helper
    let xx := (x P2).1 ^^^ (x P2).2
    let m0 : Nat → Nat := fun b =>
      (μ0 b ^^^ ((if xx.testBit b then 1 else 0) +
        negMod k ((pair (P1) b + pair (P0 + 2) b) % 2 ^ k)) % 2 ^ k)
    let m1 : Nat → Nat := fun b =>
      (μ1 b ^^^ ((if xx.testBit b then 0 else 1) +
        negMod k ((pair (P1) b + pair (P0 + 2) b) % 2 ^ k)) % 2 ^ k)
    -- the helper P0 sends the mask selected by b2, the receiver P1 unmasks
    let b2 : Nat → Bool := fun b => ((x P0).2).testBit b
    let mc : Nat → Nat := fun b => if b2 b then μ1 b else μ0 b
    let b2recv : Nat → Bool := fun b => ((x P1).1).testBit b
    let mcUnmasked : Nat → Nat := fun b =>
      if b2recv b then m1 b ^^^ mc b else m0 b ^^^ mc b
    let c2 := bitCompose k ((List.range nbits).map mcUnmasked)
    (fun i =>
      if i = P0 then (c1, c2)
      else if i = P1 then (c2, c3)
      else (c3, c1),
      ["mc", "m0", "m1", "c2"])

/-- The dispatch decision of `B2ASelector::proc`. -/
inductive B2AVariant where
  | ot : B2AVariant
  | ppa : B2AVariant
deriving DecidableEq

/-- `B2ASelector::proc` picks the OT variant iff the input `nbits ≤ 8`. -/
def B2ASelector_choice (in_nbits : Nat) : B2AVariant :=
  if in_nbits ≤ 8 then B2AVariant.ot else B2AVariant.ppa

/-- `B2ASelector::proc` as a kernel: dispatches on the input `nbits`. -/
def B2ASelector_proc (k nbits : Nat) (pivot : Party) (pair : Party → Nat → Nat)
    (μ0 μ1 : Nat → Nat) (α β : Party → Nat) (x : RssShare) :
    RssShare × CommTrace :=
  if nbits ≤ 8 then B2AByOT_proc k nbits pivot pair μ0 μ1 x
  else B2AByPPA_proc k nbits α β x

/-! ## Equality to zero -/

/-- Bitwise NOT in a `k`-bit container. -/
def notK (k v : Nat) : Nat := (2 ^ k - 1) ^^^ v

/-- One round of the bit-wise AND tree of `eqz`: the RSS × RSS → ASS AND
with the round's PRSS mask pair `χ`, followed by the `rotate` that rebuilds
an RSS sharing. -/
def andRoundRss (χ : Party → Nat) (l r : RssShare) : RssShare :=
  let z : Party → Nat := fun i =>
    ((l i).1 &&& (r i).1) ^^^ ((l i).1 &&& (r i).2) ^^^
      ((l i).2 &&& (r i).1) ^^^ (χ i ^^^ χ (i + 1))
  fun i => (z i, rotate z i)

/-- The halving loop of `eqz` (one element): while more than one bit
remains, split each share into halves and AND them together.  Above one
byte the split moves the low half of the little-endian byte vector into the
left operand and the high half into the right; at one byte the left operand
is the right-shifted byte and the right operand is the byte itself.  The
masks of round `t` are `χ t`, truncated to the bytes actually filled. -/
def eqzFoldTreeFuel (χ : Nat → Party → Nat) :
    Nat → Nat → Nat → RssShare → RssShare
  | 0, _, _, s => s
  | fuel + 1, round, bits, s =>
  if bits ≤ 1 then s
  else
    let h := bits / 2
    let mw := if 8 < bits then h else 8
    let x : RssShare :=
      if 8 < bits then fun i => ((s i).1 % 2 ^ h, (s i).2 % 2 ^ h)
      else fun i => ((s i).1 >>> h, (s i).2 >>> h)
    let y : RssShare :=
      if 8 < bits then fun i => ((s i).1 >>> h, (s i).2 >>> h)
      else s
    let χ' : Party → Nat := fun i => χ round i % 2 ^ mw
    eqzFoldTreeFuel χ fuel (round + 1) h (andRoundRss χ' x y)

/-- The halving loop entered with fuel `bits`: the width strictly decreases
(`bits / 2 < bits`), so `bits` units of fuel always suffice. -/
def eqzFoldTree (χ : Nat → Party → Nat) (round bits : Nat) (s : RssShare) :
    RssShare :=
  eqzFoldTreeFuel χ bits round bits s

/-- `eqz` over the `2^k` ring (one element).  `pivot` is the public
randomness choosing the dealer; `rr` is the dealer's private ring mask;
`ra`, `rb`, `rz` are the three live PRSS pair values shared between the
dealer `P0` and `P1` (in fill order: the arithmetic mask share, the Boolean
mask share, the rebalancing mask); `χ` holds the AND-tree round masks.
Returns the 8-bit B/RSS result. -/
def eqz (k : Nat) (pivot : Party) (rr ra rb rz : Nat) (χ : Nat → Party → Nat)
    (x : RssShare) : RssShare :=
  let P1 := pivot + 1
  let P2 := pivot + 2
  -- the dealer deals [r]^A = (ra, rr - ra) and [r]^B = (rb, rr ^ rb)
  let r_arith_1 := subMod k rr ra
  let r_bool_1 := rr ^^^ rb
  -- P1 and P2 treat the operand as additive shares, add r and reveal to P1
  let a_s1 := ((x P1).1 + (x P1).2) % 2 ^ k
  let a_s2 := (x P2).2
  let c_s1 := (ra + a_s1) % 2 ^ k
  let c_s2 := (r_arith_1 + a_s2) % 2 ^ k
  let c_p := (c_s2 + c_s1) % 2 ^ k
  -- P1 builds the balanced flag share and sends the other half to P2
  let flag2pc := notK k (c_p ^^^ rb) ^^^ rz
  let zf : RssShare := fun i =>
    if i = pivot then (r_bool_1, rz)
    else if i = P1 then (rz, flag2pc)
    else (flag2pc, r_bool_1)
  -- fold the k-bit flag down to one bit, returned as an 8-bit share
  let t := eqzFoldTree χ 0 k zf
  fun i => ((t i).1 % 2 ^ 8, (t i).2 % 2 ^ 8)

/-- `EqualAA::proc`: slot-wise difference of the two arithmetic sharings,
then `eqz`. -/
def EqualAA_proc (k : Nat) (pivot : Party) (rr ra rb rz : Nat)
    (χ : Nat → Party → Nat) (lhs rhs : RssShare) : RssShare :=
  let diff : RssShare := fun i =>
    (subMod k (lhs i).1 (rhs i).1, subMod k (lhs i).2 (rhs i).2)
  eqz k pivot rr ra rb rz χ diff

/-- `EqualAP::proc`: rank 0 subtracts the public constant from its second
slot, rank 1 from its first, then `eqz`. -/
def EqualAP_proc (k : Nat) (pivot : Party) (rr ra rb rz : Nat)
    (χ : Nat → Party → Nat) (lhs : RssShare) (rhs : Nat) : RssShare :=
  let diff : RssShare := fun i =>
    if i = 0 then ((lhs i).1, subMod k (lhs i).2 rhs)
    else if i = 1 then (subMod k (lhs i).1 rhs, (lhs i).2)
    else ((lhs i).1, (lhs i).2)
  eqz k pivot rr ra rb rz χ diff

/-! ## Value-level views used in the proofs

With every PRSS mask zeroed, all shares inside the conversion kernels
collapse to degenerate sharings in which the three parties hold identical
slots; the proofs track the single carried value through the protocol. -/

/-- Degenerate MSS sharing: every party holds `(v, 0, 0)`. -/
def degM (v : Nat) : MssShare := fun _ => (v, 0, 0)

/-- Degenerate RSS sharing: every party holds `(v, v)`. -/
def degR (v : Nat) : RssShare := fun _ => (v, v)

/-- Degenerate ASS sharing: every party holds `v`. -/
def degA (v : Nat) : AssShare := fun _ => v

/-- The bit permutation performed by one butterfly pass at stride `s`:
output bit `i` of the pass reads input bit `sigmaPass s i`. -/
def sigmaPass (s i : Nat) : Nat :=
  if (i / s) % 4 = 1 then i + s else if (i / s) % 4 = 2 then i - s else i

/-- The low output value of `bit_split_mss` at width `w` (all three slots
of a degenerate share are mapped by this function). -/
def splitLoVal (w v : Nat) : Nat :=
  butterflyWord ((calcBShareBacktype w).getD 0) w v &&& ((1 <<< (w / 2)) - 1)

/-- The high output value of `bit_split_mss` at width `w`. -/
def splitHiVal (w v : Nat) : Nat :=
  (butterflyWord ((calcBShareBacktype w).getD 0) w v >>> (w / 2)) &&&
    ((1 <<< (w / 2)) - 1)

/-- The four 4-ary substreams produced by the double `bit_split_mss` of one
`msbLoop` round at width `w`: `blkVal w r v` holds the bits of `v` whose
position is `≡ r (mod 4)`. -/
def blkVal (w r v : Nat) : Nat :=
  match r with
  | 0 => splitLoVal (w / 2) (splitLoVal w v)
  | 1 => splitLoVal (w / 2) (splitHiVal w v)
  | 2 => splitHiVal (w / 2) (splitLoVal w v)
  | _ => splitHiVal (w / 2) (splitHiVal w v)

/-- The value carried by the degenerate `p_res` share of one `msbLoop`
round at width `w` (grouping as in `MssAnd4NoComm`). -/
def pRoundVal (w pv : Nat) : Nat :=
  (blkVal w 0 pv &&& blkVal w 1 pv) &&& (blkVal w 2 pv &&& blkVal w 3 pv)

/-- The value carried by the degenerate `g_combined` share of one
`msbLoop` round at width `w` (grouping as in the `g_res` XOR tree). -/
def gRoundVal (w gv pv : Nat) : Nat :=
  ((blkVal w 0 gv &&& blkVal w 3 pv) &&& (blkVal w 2 pv &&& blkVal w 1 pv)) ^^^
    ((blkVal w 1 gv &&& blkVal w 3 pv) &&& blkVal w 2 pv) ^^^
    ((blkVal w 2 gv &&& blkVal w 3 pv) ^^^ blkVal w 3 gv)

/-- Generate signal of the bit segment `[a, a + len)` of a carry chain with
propagate `P` and generate `G`. -/
def genSeg (P G : Nat → Bool) : Nat → Nat → Bool
  | _, 0 => false
  | a, len + 1 => Bool.xor (G (a + len)) (P (a + len) && genSeg P G a len)

/-- Propagate signal of the bit segment `[a, a + len)`. -/
def propSeg (P : Nat → Bool) : Nat → Nat → Bool
  | _, 0 => true
  | a, len + 1 => P (a + len) && propSeg P a len

/-- Bitwise propagate signal of the addition `a + b`. -/
def pBit (a b i : Nat) : Bool := Bool.xor (a.testBit i) (b.testBit i)

/-- Bitwise generate signal of the addition `a + b`. -/
def gBit (a b i : Nat) : Bool := a.testBit i && b.testBit i

/-- The carry into bit `i` of the addition `a + b`. -/
def carryOut (a b i : Nat) : Bool := genSeg (pBit a b) (gBit a b) 0 i

/-- Value mirror of the `eqz` halving loop. -/
def foldValFuel : Nat → Nat → Nat → Nat
  | 0, _, v => v
  | f + 1, bits, v =>
    if bits ≤ 1 then v
    else
      let h := bits / 2
      if 8 < bits then foldValFuel f h ((v % 2 ^ h) &&& (v >>> h))
      else foldValFuel f h ((v >>> h) &&& v)

/-- Value mirror of one level-0 `select` stream. -/
def ppaSelVal (k v idx : Nat) : Nat :=
  select v 0x1111111111111111 1 idx % 2 ^ k

/-- Value mirror of one level-1/2 `SelectAndRotate` stream. -/
def srVal (k v s : Nat) : Nat :=
  SelectAndRotate v 0x8888888888888888 s % 2 ^ k

/-- Value mirror of the generate output of `PGCell_4FanIn4Out`. -/
def cell44gVal (k pv gv : Nat) : Nat :=
  (ppaSelVal k gv 2 &&& ppaSelVal k pv 3 ^^^
      (ppaSelVal k gv 1 &&& (ppaSelVal k pv 2 &&& ppaSelVal k pv 3) ^^^
        (ppaSelVal k gv 0 &&& ppaSelVal k pv 1) &&&
          (ppaSelVal k pv 2 &&& ppaSelVal k pv 3)) ^^^
    rshift (ppaSelVal k gv 1 &&& ppaSelVal k pv 2 ^^^
      (ppaSelVal k gv 0 &&& ppaSelVal k pv 1) &&& ppaSelVal k pv 2) 1 ^^^
    rshift (ppaSelVal k gv 0 &&& ppaSelVal k pv 1) 2 ^^^
    rshift (ppaSelVal k gv 0) 3 ^^^
    ppaSelVal k gv 3 ^^^
    rshift (ppaSelVal k gv 2) 1 ^^^
    rshift (ppaSelVal k gv 1) 2) % 2 ^ k

/-- Value mirror of the propagate output of `PGCell_4FanIn4Out`. -/
def cell44pVal (k pv : Nat) : Nat :=
  ((ppaSelVal k pv 0 &&& ppaSelVal k pv 1) &&&
      (ppaSelVal k pv 2 &&& ppaSelVal k pv 3) ^^^
    rshift ((ppaSelVal k pv 0 &&& ppaSelVal k pv 1) &&& ppaSelVal k pv 2) 1 ^^^
    rshift (ppaSelVal k pv 0 &&& ppaSelVal k pv 1) 2 ^^^
    rshift (ppaSelVal k pv 0) 3) % 2 ^ k

/-- Value mirror of the generate output of `PGCell_4FanIn1Out` at stride `s`. -/
def cell41gVal (k s gw pw : Nat) : Nat :=
  (srVal k gw (s * 0) ^^^ srVal k gw (s * 1) &&& srVal k pw (s * 0)) ^^^
    (srVal k gw (s * 2) &&& (srVal k pw (s * 1) &&& srVal k pw (s * 0)) ^^^
      (srVal k gw (s * 3) &&& srVal k pw (s * 2)) &&&
        (srVal k pw (s * 1) &&& srVal k pw (s * 0)))

/-- Value mirror of the propagate output of `PGCell_4FanIn1Out` at stride `s`. -/
def cell41pVal (k s pw : Nat) : Nat :=
  (srVal k pw (s * 3) &&& srVal k pw (s * 2)) &&&
    (srVal k pw (s * 1) &&& srVal k pw (s * 0))

/-- Value mirror of the level-1/level-2 merge. -/
def merge7 (u w : Nat) : Nat := (u &&& 0x7777777777777777) ^^^ w

/-- Value mirror of the final spread of the block carries. -/
def spread3Val (k v : Nat) : Nat :=
  (SelectAndRotate v 0x8888888888888888 1 ^^^
      SelectAndRotate v 0x8888888888888888 2 ^^^
      SelectAndRotate v 0x8888888888888888 3) % 2 ^ k

/-- Value mirror of the intra-block propagate selection. -/
def sel7Val (k v : Nat) : Nat :=
  SelectAndRotate v 0x7777777777777777 0 % 2 ^ k

/-- The value computed by the degenerate `A2BMultiFanIn` from the two
operand values `a` and `b`. -/
def A2BVal (k a b : Nat) : Nat :=
  let pv := a ^^^ b
  let gv := a &&& b
  let g1 := cell44gVal k pv gv
  let p1 := cell44pVal k pv
  let g2 := merge7 g1 (cell41gVal k 4 g1 p1)
  let p2 := merge7 p1 (cell41pVal k 4 p1)
  let g3 := merge7 g2 (cell41gVal k 16 g2 p2)
  let p3 := merge7 p2 (cell41pVal k 16 p2)
  let c := g3 ^^^ (spread3Val k g3 &&& sel7Val k p3)
  (pv ^^^ lshift c 1) % 2 ^ k

/-! ## Decidability of the well-formedness predicates -/

instance (s : RssShare) : Decidable (wfRss s) := by unfold wfRss; infer_instance

instance (s : MssShare) : Decidable (wfMss s) := by unfold wfMss; infer_instance

/-! ## Shared helper lemmas -/

theorem xor_left_commN (a b c : Nat) : a ^^^ (b ^^^ c) = b ^^^ (a ^^^ c) := by
  rw [← Nat.xor_assoc, Nat.xor_comm a b, Nat.xor_assoc]

theorem xor_cancelN (a b : Nat) : a ^^^ (a ^^^ b) = b := by
  rw [← Nat.xor_assoc, Nat.xor_self, Nat.zero_xor]

theorem testBit_ge_of_lt (x n i : Nat) (hx : x < 2 ^ n) (hi : n ≤ i) :
    x.testBit i = false :=
  Nat.testBit_lt_two_pow
    (lt_of_lt_of_le hx (Nat.pow_le_pow_right (by norm_num) hi))

theorem calc_backtype_some (m : Nat) (h : m ≤ 128) :
    ∃ w, calcBShareBacktype m = some w := by
  unfold calcBShareBacktype
  split_ifs <;>
    first
      | exact ⟨8, rfl⟩
      | exact ⟨16, rfl⟩
      | exact ⟨32, rfl⟩
      | exact ⟨64, rfl⟩
      | exact ⟨128, rfl⟩
      | exact absurd h (by assumption)

/-- XOR/AND expansion behind the reconstruction of the RSS AND gate. -/
theorem and_xor_nine (b0 b1 b2 c0 c1 c2 r0 r1 r2 : Nat) :
    b0 &&& c0 ^^^ b0 &&& c1 ^^^ b1 &&& c0 ^^^ (r0 ^^^ r1) ^^^
      (b1 &&& c1 ^^^ b1 &&& c2 ^^^ b2 &&& c1 ^^^ (r1 ^^^ r2)) ^^^
      (b2 &&& c2 ^^^ b2 &&& c0 ^^^ b0 &&& c2 ^^^ (r2 ^^^ r0)) =
    (b0 ^^^ b1 ^^^ b2) &&& (c0 ^^^ c1 ^^^ c2) := by
  simp only [Nat.and_xor_distrib_left, Nat.and_xor_distrib_right]
  simp [Nat.xor_assoc, Nat.xor_comm, xor_left_commN, Nat.xor_self,
    Nat.xor_zero, xor_cancelN]

/-- Low half of a pack round trip. -/
theorem pack_mask_lo (n l h : Nat) (hl : l < 2 ^ n) :
    (l ||| h <<< n) &&& ((1 <<< n) - 1) = l := by
  apply Nat.eq_of_testBit_eq
  intro i
  rw [Nat.one_shiftLeft]
  simp only [Nat.testBit_and, Nat.testBit_or, Nat.testBit_shiftLeft,
    Nat.testBit_two_pow_sub_one]
  by_cases hi : i < n
  · simp [hi, show ¬ n ≤ i by omega]
  · simp [hi, testBit_ge_of_lt l n i hl (by omega)]

/-- High half of a pack round trip. -/
theorem pack_mask_hi (n l h : Nat) (hl : l < 2 ^ n) (hh : h < 2 ^ n) :
    ((l ||| h <<< n) >>> n) &&& ((1 <<< n) - 1) = h := by
  apply Nat.eq_of_testBit_eq
  intro i
  rw [Nat.one_shiftLeft]
  simp only [Nat.testBit_and, Nat.testBit_shiftRight, Nat.testBit_or,
    Nat.testBit_shiftLeft, Nat.testBit_two_pow_sub_one]
  by_cases hi : i < n
  · simp [hi, show n ≤ n + i by omega, show n + i - n = i by omega,
      testBit_ge_of_lt l n (n + i) hl (by omega)]
  · simp [hi, testBit_ge_of_lt h n i hh (by omega)]

/-! ## Claim theorems: simple kernels -/

/-- C9: for every `nbits ≤ 128`, `calcBShareBacktype` returns the smallest
width in {8, 16, 32, 64, 128} that is at least `nbits`, and it fails
(`SPU_THROW`) for every `nbits > 128`. -/
theorem calcBShareBacktype_smallest (n : Nat) :
    (n ≤ 128 → ∃ w, calcBShareBacktype n = some w ∧
      w ∈ ([8, 16, 32, 64, 128] : List Nat) ∧ n ≤ w ∧
      ∀ w', w' ∈ ([8, 16, 32, 64, 128] : List Nat) → n ≤ w' → w ≤ w') ∧
    (128 < n → calcBShareBacktype n = none) := by
  constructor
  · intro hle
    unfold calcBShareBacktype
    split_ifs with h1 h2 h3 h4
    · exact ⟨8, rfl, by simp, by omega, fun w' hw' hnw' => by simp at hw'; omega⟩
    · exact ⟨16, rfl, by simp, by omega, fun w' hw' hnw' => by simp at hw'; omega⟩
    · exact ⟨32, rfl, by simp, by omega, fun w' hw' hnw' => by simp at hw'; omega⟩
    · exact ⟨64, rfl, by simp, by omega, fun w' hw' hnw' => by simp at hw'; omega⟩
    · exact ⟨128, rfl, by simp, by omega, fun w' hw' hnw' => by simp at hw'; omega⟩
  · intro hgt
    unfold calcBShareBacktype
    split_ifs <;> first | omega | rfl

/-- Witness for C9 at `nbits = 100` and `nbits = 200`. -/
theorem calcBShareBacktype_smallest_witness :
    (∃ w, calcBShareBacktype 100 = some w ∧
      w ∈ ([8, 16, 32, 64, 128] : List Nat) ∧ 100 ≤ w ∧
      ∀ w', w' ∈ ([8, 16, 32, 64, 128] : List Nat) → 100 ≤ w' → w ≤ w') ∧
    calcBShareBacktype 200 = none :=
  ⟨(calcBShareBacktype_smallest 100).1 (by decide),
    (calcBShareBacktype_smallest 200).2 (by decide)⟩

/-- C4: `B2ASelector::proc` dispatches to the OT variant exactly when the
input `nbits` is at most 8 and to the PPA variant exactly when it
exceeds 8. -/
theorem B2ASelector_dispatch (k nbits : Nat) (pivot : Party)
    (pair : Party → Nat → Nat) (μ0 μ1 : Nat → Nat) (α β : Party → Nat)
    (x : RssShare) :
    (B2ASelector_choice nbits = B2AVariant.ot ↔ nbits ≤ 8) ∧
    (B2ASelector_choice nbits = B2AVariant.ppa ↔ 8 < nbits) ∧
    (nbits ≤ 8 → B2ASelector_proc k nbits pivot pair μ0 μ1 α β x =
      B2AByOT_proc k nbits pivot pair μ0 μ1 x) ∧
    (8 < nbits → B2ASelector_proc k nbits pivot pair μ0 μ1 α β x =
      B2AByPPA_proc k nbits α β x) := by
  unfold B2ASelector_choice B2ASelector_proc
  split_ifs with h
  · exact ⟨by simp [h], by simp; omega, fun _ => rfl, fun h' => by omega⟩
  · exact ⟨by simp [h], by simp; omega, fun h' => by omega, fun _ => rfl⟩

/-- Witness for C4 at `nbits = 5` and `nbits = 9`. -/
theorem B2ASelector_dispatch_witness :
    B2ASelector_proc 64 5 0 (fun _ _ => 0) (fun _ => 0) (fun _ => 0)
        (fun _ => 0) (fun _ => 0) (fun _ => (0, 0)) =
      B2AByOT_proc 64 5 0 (fun _ _ => 0) (fun _ => 0) (fun _ => 0)
        (fun _ => (0, 0)) ∧
    B2ASelector_proc 64 9 0 (fun _ _ => 0) (fun _ => 0) (fun _ => 0)
        (fun _ => 0) (fun _ => 0) (fun _ => (0, 0)) =
      B2AByPPA_proc 64 9 (fun _ => 0) (fun _ => 0) (fun _ => (0, 0)) :=
  ⟨(B2ASelector_dispatch 64 5 0 (fun _ _ => 0) (fun _ => 0) (fun _ => 0)
      (fun _ => 0) (fun _ => 0) (fun _ => (0, 0))).2.2.1 (by decide),
    (B2ASelector_dispatch 64 9 0 (fun _ _ => 0) (fun _ => 0) (fun _ => 0)
      (fun _ => 0) (fun _ => 0) (fun _ => (0, 0))).2.2.2 (by decide)⟩

/-- C6 counterexample: on the well-formed B/RSS sharing in which every party
holds `(1, 1)`, party 1's output ASS share is its first RSS half `1`, not
`0` as the claim states. -/
theorem ResharingRss2Ass_claim_false :
    wfRss (fun _ => ((1 : Nat), (1 : Nat))) ∧
    ¬ ResharingRss2Ass (fun _ => ((1 : Nat), (1 : Nat))) 1 = 0 := by decide

/-- C6 amended: `ResharingRss2Ass` is purely local (party `i`'s output
depends only on party `i`'s input slice), every party (not just party 0)
outputs its first RSS half with zero in the second slot, and the XOR of the
three ASS outputs reconstructs the shared secret. -/
theorem ResharingRss2Ass_local_firstHalf :
    (∀ (s t : RssShare) (i : Party), s i = t i →
      ResharingRss2Ass s i = ResharingRss2Ass t i) ∧
    ∀ s : RssShare, wfRss s →
      (∀ i, ResharingRss2Ass s i = (s i).1) ∧
      recAss (ResharingRss2Ass s) = recB s :=
  ⟨fun s t i h => by simp [ResharingRss2Ass, h],
    fun s _ => ⟨fun _ => rfl, rfl⟩⟩

/-- Witness for the amended C6 on a concrete well-formed sharing. -/
theorem ResharingRss2Ass_local_firstHalf_witness :
    (∀ i, ResharingRss2Ass (fun j => (j.val + 1, (j.val + 1) % 3 + 1)) i =
      ((fun (j : Party) => (j.val + 1, (j.val + 1) % 3 + 1)) i).1) ∧
    recAss (ResharingRss2Ass (fun j => (j.val + 1, (j.val + 1) % 3 + 1))) =
      recB (fun j => (j.val + 1, (j.val + 1) % 3 + 1)) :=
  ResharingRss2Ass_local_firstHalf.2
    (fun j => (j.val + 1, (j.val + 1) % 3 + 1)) (by decide)

/-- C5: the no-communication RSS × RSS AND gate.  Party `i` outputs
`(l_{i,0} ∧ r_{i,0}) ⊕ (l_{i,0} ∧ r_{i,1}) ⊕ (l_{i,1} ∧ r_{i,0}) ⊕ (ρ_i ⊕ ρ_{i+1})`
for the pairwise PRSS mask pair `(ρ_i, ρ_{i+1})`, the masks cancel across
the three parties, and for well-formed inputs the XOR of the three ASS
outputs is the bitwise AND of the two reconstructed secrets. -/
theorem RssAnd2NoComm_spec (ρ : Party → Nat) (l r : RssShare)
    (hl : wfRss l) (hr : wfRss r) :
    (∀ i : Party, RssAnd2NoComm ρ l r i =
      ((l i).1 &&& (r i).1) ^^^ ((l i).1 &&& (r i).2) ^^^
        ((l i).2 &&& (r i).1) ^^^ (ρ i ^^^ ρ (i + 1))) ∧
    xor3 (fun i => ρ i ^^^ ρ (i + 1)) = 0 ∧
    recAss (RssAnd2NoComm ρ l r) = recB l &&& recB r := by
  refine ⟨fun i => rfl, ?_, ?_⟩
  · show (ρ 0 ^^^ ρ (0 + 1)) ^^^ (ρ 1 ^^^ ρ (1 + 1)) ^^^ (ρ 2 ^^^ ρ (2 + 1)) = 0
    have e0 : (0 : Party) + 1 = 1 := rfl
    have e1 : (1 : Party) + 1 = 2 := rfl
    have e2 : (2 : Party) + 1 = 0 := rfl
    rw [e0, e1, e2]
    simp [Nat.xor_assoc, Nat.xor_comm, xor_left_commN, Nat.xor_self,
      Nat.xor_zero, xor_cancelN]
  · have hl0 := hl 0
    have hl1 := hl 1
    have hl2 := hl 2
    have hr0 := hr 0
    have hr1 := hr 1
    have hr2 := hr 2
    show (RssAnd2NoComm ρ l r 0 ^^^ RssAnd2NoComm ρ l r 1) ^^^
        RssAnd2NoComm ρ l r 2 =
      (((l 0).1 ^^^ (l 1).1) ^^^ (l 2).1) &&& (((r 0).1 ^^^ (r 1).1) ^^^ (r 2).1)
    unfold RssAnd2NoComm
    simp only [show ((0 : Party) + 1) = 1 from rfl, show ((1 : Party) + 1) = 2 from rfl,
      show ((2 : Party) + 1) = 0 from rfl] at hl0 hl1 hl2 hr0 hr1 hr2 ⊢
    rw [hl0, hl1, hl2, hr0, hr1, hr2]
    exact and_xor_nine (l 0).1 (l 1).1 (l 2).1 (r 0).1 (r 1).1 (r 2).1
      (ρ 0) (ρ 1) (ρ 2)

/-- Witness for C5 on concrete well-formed sharings and masks. -/
theorem RssAnd2NoComm_spec_witness :
    (∀ i : Party, RssAnd2NoComm (fun j => j.val * 7 + 2)
      (fun j => (j.val + 3, (j.val + 1) % 3 + 3))
      (fun j => (5 * j.val + 1, 5 * ((j.val + 1) % 3) + 1)) i =
      (((fun (j : Party) => (j.val + 3, (j.val + 1) % 3 + 3)) i).1 &&&
        ((fun (j : Party) => (5 * j.val + 1, 5 * ((j.val + 1) % 3) + 1)) i).1) ^^^
        (((fun (j : Party) => (j.val + 3, (j.val + 1) % 3 + 3)) i).1 &&&
          ((fun (j : Party) => (5 * j.val + 1, 5 * ((j.val + 1) % 3) + 1)) i).2) ^^^
        (((fun (j : Party) => (j.val + 3, (j.val + 1) % 3 + 3)) i).2 &&&
          ((fun (j : Party) => (5 * j.val + 1, 5 * ((j.val + 1) % 3) + 1)) i).1) ^^^
        ((fun (j : Party) => j.val * 7 + 2) i ^^^
          (fun (j : Party) => j.val * 7 + 2) (i + 1))) ∧
    xor3 (fun i => (fun (j : Party) => j.val * 7 + 2) i ^^^
      (fun (j : Party) => j.val * 7 + 2) (i + 1)) = 0 ∧
    recAss (RssAnd2NoComm (fun j => j.val * 7 + 2)
      (fun j => (j.val + 3, (j.val + 1) % 3 + 3))
      (fun j => (5 * j.val + 1, 5 * ((j.val + 1) % 3) + 1))) =
      recB (fun j => (j.val + 3, (j.val + 1) % 3 + 3)) &&&
        recB (fun j => (5 * j.val + 1, 5 * ((j.val + 1) % 3) + 1)) :=
  RssAnd2NoComm_spec (fun j => j.val * 7 + 2)
    (fun j => (j.val + 3, (j.val + 1) % 3 + 3))
    (fun j => (5 * j.val + 1, 5 * ((j.val + 1) % 3) + 1))
    (by decide) (by decide)

/-- C8: `pack` concatenates two equal-width Boolean shares by OR-ing `lo`
with `hi` shifted left by `nbits`, and `unpack` inverts it slot-wise, for
the ASS, RSS, and MSS variants (shares obey the `nbits` bound of their
type). -/
theorem pack_unpack_roundTrip (n : Nat) (hn : n ≤ 30)
    (la ha : AssShare) (lr hr : RssShare) (lm hm : MssShare)
    (hla : ∀ i, la i < 2 ^ n) (hha : ∀ i, ha i < 2 ^ n)
    (hlr : ∀ i, (lr i).1 < 2 ^ n ∧ (lr i).2 < 2 ^ n)
    (hhr : ∀ i, (hr i).1 < 2 ^ n ∧ (hr i).2 < 2 ^ n)
    (hlm : ∀ i, (lm i).1 < 2 ^ n ∧ (lm i).2.1 < 2 ^ n ∧ (lm i).2.2 < 2 ^ n)
    (hhm : ∀ i, (hm i).1 < 2 ^ n ∧ (hm i).2.1 < 2 ^ n ∧ (hm i).2.2 < 2 ^ n) :
    (pack_2_bitvec_ass n la ha).bind (unpack_2_bitvec_ass (2 * n)) =
      some (ha, la) ∧
    (pack_2_bitvec_rss n lr hr).bind (unpack_2_bitvec_rss (2 * n)) =
      some (hr, lr) ∧
    (pack_2_bitvec_mss n lm hm).bind (unpack_2_bitvec_mss (2 * n)) =
      some (hm, lm) := by
  obtain ⟨w, hw⟩ := calc_backtype_some (n + n) (by omega)
  have hdiv : 2 * n / 2 = n := by omega
  have hsub : 2 * n - 2 * n / 2 = n := by omega
  have hsub' : 2 * n - n = n := by omega
  have hg : ¬ (31 ≤ 2 * n / 2 ∨ 31 ≤ 2 * n - 2 * n / 2) := by omega
  refine ⟨?_, ?_, ?_⟩ <;>
    simp only [pack_2_bitvec_ass, pack_2_bitvec_rss, pack_2_bitvec_mss, hw,
      Option.some_bind, unpack_2_bitvec_ass, unpack_2_bitvec_rss,
      unpack_2_bitvec_mss] <;>
    rw [if_neg hg] <;>
    simp only [Option.some.injEq, hdiv, hsub, hsub'] <;>
    refine Prod.ext ?_ ?_ <;> funext i
  · exact pack_mask_hi n _ _ (hla i) (hha i)
  · exact pack_mask_lo n _ _ (hla i)
  · exact Prod.ext (pack_mask_hi n _ _ (hlr i).1 (hhr i).1)
      (pack_mask_hi n _ _ (hlr i).2 (hhr i).2)
  · exact Prod.ext (pack_mask_lo n _ _ (hlr i).1)
      (pack_mask_lo n _ _ (hlr i).2)
  · exact Prod.ext (pack_mask_hi n _ _ (hlm i).1 (hhm i).1)
      (Prod.ext (pack_mask_hi n _ _ (hlm i).2.1 (hhm i).2.1)
        (pack_mask_hi n _ _ (hlm i).2.2 (hhm i).2.2))
  · exact Prod.ext (pack_mask_lo n _ _ (hlm i).1)
      (Prod.ext (pack_mask_lo n _ _ (hlm i).2.1)
        (pack_mask_lo n _ _ (hlm i).2.2))

/-- Witness for C8 at `nbits = 4` on concrete shares. -/
theorem pack_unpack_roundTrip_witness :
    (pack_2_bitvec_ass 4 (fun j => j.val + 3)
        (fun j => j.val + 9)).bind (unpack_2_bitvec_ass (2 * 4)) =
      some (fun j => j.val + 9, fun j => j.val + 3) ∧
    (pack_2_bitvec_rss 4 (fun j => (j.val + 1, j.val + 2))
        (fun j => (j.val + 11, j.val + 12))).bind
          (unpack_2_bitvec_rss (2 * 4)) =
      some (fun j => (j.val + 11, j.val + 12),
        fun j => (j.val + 1, j.val + 2)) ∧
    (pack_2_bitvec_mss 4 (fun j => (j.val, j.val + 1, j.val + 2))
        (fun j => (j.val + 8, j.val + 9, j.val + 10))).bind
          (unpack_2_bitvec_mss (2 * 4)) =
      some (fun j => (j.val + 8, j.val + 9, j.val + 10),
        fun j => (j.val, j.val + 1, j.val + 2)) :=
  pack_unpack_roundTrip 4 (by norm_num) (fun j => j.val + 3)
    (fun j => j.val + 9)
    (fun j => (j.val + 1, j.val + 2)) (fun j => (j.val + 11, j.val + 12))
    (fun j => (j.val, j.val + 1, j.val + 2))
    (fun j => (j.val + 8, j.val + 9, j.val + 10))
    (by decide) (by decide) (by decide) (by decide) (by decide) (by decide)

/-- C8 counterexample: the round trip is not universal over share widths.
At `nbits = 32` (the width the FM128 `MsbA2B` path packs) unpacking the
64-bit packed share hits the undefined `int` shift `1 << 32` and fails, and
at `nbits = 80` pack itself throws inside `calcBShareBacktype(160)`. -/
theorem pack_unpack_claim_false :
    (pack_2_bitvec_ass 32 (fun _ => 1) (fun _ => 1)).bind
        (unpack_2_bitvec_ass (2 * 32)) = none ∧
    (pack_2_bitvec_ass 80 (fun _ => 1) (fun _ => 1)).bind
        (unpack_2_bitvec_ass (2 * 80)) = none :=
  ⟨rfl, rfl⟩

/-! ## C7: bit_split -/

/-- Bit `j` of a parallel bit extract is the source bit at the `j`-th listed
position. -/
theorem pextList_testBit (x : Nat) (ps : List Nat) (j : Nat) :
    (pextList x ps).testBit j =
      (decide (j < ps.length) && x.testBit (ps.getD j 0)) := by
  induction ps generalizing j with
  | nil => simp [pextList, Nat.zero_testBit]
  | cons p ps ih =>
    cases j with
    | zero =>
      have hb : (x >>> p) &&& 1 = (x >>> p) % 2 := Nat.and_one_is_mod _
      simp only [pextList, Nat.testBit_zero, List.getD_cons_zero,
        List.length_cons]
      rw [hb]
      have h2 : ((x >>> p) % 2 + 2 * pextList x ps) % 2 = (x >>> p) % 2 := by
        omega
      rw [h2, Nat.shiftRight_eq_div_pow]
      simp [Nat.testBit_to_div_mod]
    | succ j =>
      have hb : (x >>> p) &&& 1 ≤ 1 := by rw [Nat.and_one_is_mod]; omega
      simp only [pextList, Nat.testBit_succ, List.getD_cons_succ,
        List.length_cons]
      have hdiv : (((x >>> p) &&& 1) + 2 * pextList x ps) / 2 =
          pextList x ps := by
        rcases (by omega : (x >>> p) &&& 1 = 0 ∨ (x >>> p) &&& 1 = 1) with
          ht | ht <;> rw [ht] <;> omega
      rw [hdiv, ih]
      simp [Nat.succ_lt_succ_iff]

theorem maskEven_len : (maskPositions (0x5555555555555555 % 2 ^ 64)).length = 32 := by
  decide

theorem maskEven_getD :
    ∀ j, j < 32 → (maskPositions (0x5555555555555555 % 2 ^ 64)).getD j 0 = 2 * j := by
  decide

theorem maskOdd_len : (maskPositions (0xAAAAAAAAAAAAAAAA % 2 ^ 64)).length = 32 := by
  decide

theorem maskOdd_getD :
    ∀ j, j < 32 → (maskPositions (0xAAAAAAAAAAAAAAAA % 2 ^ 64)).getD j 0 = 2 * j + 1 := by
  decide

/-- Even-position extraction of `pext_u64` with the `0x5555…` mask. -/
theorem pext_u64_even (x j : Nat) (hx : x < 2 ^ 64) (hj : j < 32) :
    (pext_u64 x 0x5555555555555555).testBit j = x.testBit (2 * j) := by
  unfold pext_u64
  rw [pextList_testBit, Nat.mod_eq_of_lt hx, maskEven_len, maskEven_getD j hj]
  simp [hj]

/-- Odd-position extraction of `pext_u64` with the `~0x5555…` mask. -/
theorem pext_u64_odd (x j : Nat) (hx : x < 2 ^ 64) (hj : j < 32) :
    (pext_u64 x 0xAAAAAAAAAAAAAAAA).testBit j = x.testBit (2 * j + 1) := by
  unfold pext_u64
  rw [pextList_testBit, Nat.mod_eq_of_lt hx, maskOdd_len, maskOdd_getD j hj]
  simp [hj]

/-- The masked low output slot of `bit_split`, bitwise. -/
theorem bit_split_lo_bit (n x j : Nat) (hx : x < 2 ^ n) (hle : n ≤ 64)
    (hj : j < n / 2) :
    (pext_u64 x 0x5555555555555555 &&& ((1 <<< (n / 2)) - 1)).testBit j =
      x.testBit (2 * j) := by
  rw [Nat.one_shiftLeft]
  simp only [Nat.testBit_and, Nat.testBit_two_pow_sub_one]
  rw [pext_u64_even x j (lt_of_lt_of_le hx (Nat.pow_le_pow_right (by norm_num) hle))
    (by omega)]
  simp [hj]

/-- The masked high output slot of `bit_split`, bitwise. -/
theorem bit_split_hi_bit (n x j : Nat) (hx : x < 2 ^ n) (hle : n ≤ 64)
    (hj : j < n / 2) :
    (pext_u64 x 0xAAAAAAAAAAAAAAAA &&& ((1 <<< (n / 2)) - 1)).testBit j =
      x.testBit (2 * j + 1) := by
  rw [Nat.one_shiftLeft]
  simp only [Nat.testBit_and, Nat.testBit_two_pow_sub_one]
  rw [pext_u64_odd x j (lt_of_lt_of_le hx (Nat.pow_le_pow_right (by norm_num) hle))
    (by omega)]
  simp [hj]

/-- Masked values stay below the half-width bound. -/
theorem and_mask_lt (v m : Nat) : v &&& ((1 <<< m) - 1) < 2 ^ m := by
  rw [Nat.one_shiftLeft]
  have h1 : v &&& (2 ^ m - 1) ≤ 2 ^ m - 1 := Nat.and_le_right
  have h2 : 0 < 2 ^ m := Nat.pos_pow_of_pos m (by norm_num)
  omega

/-- C7 counterexample: at `nbits = 80` (even, nonzero, a legal `BShrTy`
width) on the share whose slots are `2^64`, the claim predicts
`lo.testBit 32 = input.testBit 64 = true`, but `bit_split` truncates its
input to 64 bits at the `pext_u64` call and returns `false`. -/
theorem bit_split_claim_false_at80 :
    (bit_split 80 (fun _ => ((2 ^ 64 : Nat), 2 ^ 64))).map
        (fun pr => (pr.2 0).1.testBit 32) = some false ∧
      ((2 ^ 64 : Nat)).testBit (2 * 32) = true ∧
      (80 : Nat) % 2 = 0 ∧ (80 : Nat) ≠ 0 ∧ (2 ^ 64 : Nat) < 2 ^ 80 := by
  refine ⟨by decide, by decide, by decide, by decide, by norm_num⟩

/-- C7 amended: for every even nonzero `nbits ≤ 62`, `bit_split` returns
two shares of `nbits/2` bits whose slots hold, per slot, the even-indexed
respectively odd-indexed bits of the input; every input with odd or zero
`nbits` fails, and so do `nbits = 64` and `nbits = 128`, whose low-half
mask shifts the output container by its full promoted width (undefined
behaviour).  Beyond 64 the `pext_u64` truncation loses the upper bits. -/
theorem bit_split_even_odd (n : Nat) (s : RssShare) (hn : n ≠ 0)
    (he : n % 2 = 0) (hle : n ≤ 62)
    (hb : ∀ i : Party, (s i).1 < 2 ^ n ∧ (s i).2 < 2 ^ n) :
    (∃ hi lo, bit_split n s = some (hi, lo) ∧
      (∀ i : Party, (hi i).1 < 2 ^ (n / 2) ∧ (hi i).2 < 2 ^ (n / 2) ∧
        (lo i).1 < 2 ^ (n / 2) ∧ (lo i).2 < 2 ^ (n / 2)) ∧
      ∀ i : Party, ∀ j, j < n / 2 →
        (lo i).1.testBit j = (s i).1.testBit (2 * j) ∧
        (lo i).2.testBit j = (s i).2.testBit (2 * j) ∧
        (hi i).1.testBit j = (s i).1.testBit (2 * j + 1) ∧
        (hi i).2.testBit j = (s i).2.testBit (2 * j + 1)) ∧
    (∀ m : Nat, m = 0 ∨ m % 2 = 1 → bit_split m s = none) ∧
    bit_split 64 s = none ∧ bit_split 128 s = none := by
  refine ⟨?_, ?_, rfl, rfl⟩
  · refine ⟨fun i => (pext_u64 (s i).1 0xAAAAAAAAAAAAAAAA &&& ((1 <<< (n / 2)) - 1),
        pext_u64 (s i).2 0xAAAAAAAAAAAAAAAA &&& ((1 <<< (n / 2)) - 1)),
      fun i => (pext_u64 (s i).1 0x5555555555555555 &&& ((1 <<< (n / 2)) - 1),
        pext_u64 (s i).2 0x5555555555555555 &&& ((1 <<< (n / 2)) - 1)), ?_, ?_, ?_⟩
    · unfold bit_split
      rw [if_neg (by omega), if_neg (by omega)]
    · intro i
      exact ⟨and_mask_lt _ _, and_mask_lt _ _, and_mask_lt _ _, and_mask_lt _ _⟩
    · intro i j hj
      exact ⟨bit_split_lo_bit n (s i).1 j (hb i).1 (le_trans hle (by norm_num)) hj,
        bit_split_lo_bit n (s i).2 j (hb i).2 (le_trans hle (by norm_num)) hj,
        bit_split_hi_bit n (s i).1 j (hb i).1 (le_trans hle (by norm_num)) hj,
        bit_split_hi_bit n (s i).2 j (hb i).2 (le_trans hle (by norm_num)) hj⟩
  · intro m hm
    unfold bit_split
    rw [if_pos (by omega)]

/-- Witness for the amended C7 at `nbits = 6` on a concrete sharing. -/
theorem bit_split_even_odd_witness :
    (∃ hi lo, bit_split 6 (fun j => (j.val + 9, j.val + 21)) = some (hi, lo) ∧
      (∀ i : Party, (hi i).1 < 2 ^ (6 / 2) ∧ (hi i).2 < 2 ^ (6 / 2) ∧
        (lo i).1 < 2 ^ (6 / 2) ∧ (lo i).2 < 2 ^ (6 / 2)) ∧
      ∀ i : Party, ∀ j, j < 6 / 2 →
        (lo i).1.testBit j = ((fun (j : Party) => (j.val + 9, j.val + 21)) i).1.testBit (2 * j) ∧
        (lo i).2.testBit j = ((fun (j : Party) => (j.val + 9, j.val + 21)) i).2.testBit (2 * j) ∧
        (hi i).1.testBit j = ((fun (j : Party) => (j.val + 9, j.val + 21)) i).1.testBit (2 * j + 1) ∧
        (hi i).2.testBit j = ((fun (j : Party) => (j.val + 9, j.val + 21)) i).2.testBit (2 * j + 1)) ∧
    (∀ m : Nat, m = 0 ∨ m % 2 = 1 →
      bit_split m (fun j => (j.val + 9, j.val + 21)) = none) ∧
    bit_split 64 (fun j => (j.val + 9, j.val + 21)) = none ∧
    bit_split 128 (fun j => (j.val + 9, j.val + 21)) = none :=
  bit_split_even_odd 6 (fun j => (j.val + 9, j.val + 21)) (by decide) (by decide)
    (by decide) (by decide)

/-- C10: on an `nbits = 0` input both `B2AByPPA` and `B2AByOT` return the
all-zero arithmetic sharing and issue no communication at all. -/
theorem B2A_nbitsZero_local (k : Nat) (α β : Party → Nat) (pivot : Party)
    (pair : Party → Nat → Nat) (μ0 μ1 : Nat → Nat) (x : RssShare) :
    B2AByPPA_proc k 0 α β x = (fun _ => (0, 0), ([] : CommTrace)) ∧
    B2AByOT_proc k 0 pivot pair μ0 μ1 x = (fun _ => (0, 0), ([] : CommTrace)) :=
  ⟨rfl, rfl⟩

/-! ## C1 support: degenerate collapse of the share operations

With all PRSS masks zeroed the kernels only ever produce sharings in which
the three parties hold identical slots; these lemmas collapse every gate and
resharing to its carried value. -/

theorem xor3_const (v : Nat) : xor3 (fun _ => v) = v := by
  simp [xor3, Nat.xor_self, Nat.zero_xor]

theorem MssXor2_deg (a b : Nat) : MssXor2 (degM a) (degM b) = degM (a ^^^ b) := by
  funext i
  simp [MssXor2, degM]

theorem MssAnd2_deg (a b : Nat) :
    MssAnd2NoComm (degM a) (degM b) = degR (a &&& b) := by
  funext i
  simp [MssAnd2NoComm, degM, degR]

theorem RssAnd2_deg (a b : Nat) :
    RssAnd2NoComm zeroMask (degR a) (degR b) = degA (a &&& b) := by
  funext i
  simp [RssAnd2NoComm, degR, degA, zeroMask, Nat.xor_self, Nat.xor_zero]

theorem Mss2Rss_deg (v : Nat) : ResharingMss2Rss (degM v) = degR v := by
  funext i
  simp [ResharingMss2Rss, degM, degR]

theorem Rss2Ass_deg (v : Nat) : ResharingRss2Ass (degR v) = degA v := rfl

theorem Ass2Rss_deg (v : Nat) : ResharingAss2Rss (degA v) = degR v := rfl

theorem Ass2Mss_deg (v : Nat) : ResharingAss2Mss (degA v) = degM v := by
  funext i
  simp [ResharingAss2Mss, degA, degM, rotate, rotateR, Nat.xor_self, Nat.xor_zero]

theorem MssAnd3_deg (a b c : Nat) :
    MssAnd3NoComm (degM a) (degM b) (degM c) = degA ((a &&& b) &&& c) := by
  rw [MssAnd3NoComm, MssAnd2_deg, Mss2Rss_deg, RssAnd2_deg]

theorem MssAnd4_deg (a b c d : Nat) :
    MssAnd4NoComm (degM a) (degM b) (degM c) (degM d) =
      degA ((a &&& b) &&& (c &&& d)) := by
  rw [MssAnd4NoComm, MssAnd2_deg, MssAnd2_deg, RssAnd2_deg]

theorem AssXor2_deg (u v : Nat) : AssXor2 (degA u) (degA v) = degA (u ^^^ v) := rfl

theorem pack_ass_deg (n u v : Nat) (h : n + n ≤ 128) :
    (pack_2_bitvec_ass n (degA u) (degA v)).getD (fun _ => 0) =
      degA (u ||| v <<< n) := by
  obtain ⟨w, hw⟩ := calc_backtype_some (n + n) h
  unfold pack_2_bitvec_ass
  rw [hw]
  rfl

theorem unpack_mss_deg (n2 v : Nat) (h : n2 ≤ 60) :
    (unpack_2_bitvec_mss n2 (degM v)).getD
        (fun _ => (0, 0, 0), fun _ => (0, 0, 0)) =
      (degM ((v >>> (n2 / 2)) &&& ((1 <<< (n2 - n2 / 2)) - 1)),
        degM (v &&& ((1 <<< (n2 / 2)) - 1))) := by
  simp only [unpack_2_bitvec_mss]
  rw [if_neg (by omega), Option.getD_some]
  refine Prod.ext ?_ ?_ <;> funext i <;> simp [degM]

theorem unpack_rss_deg (n2 v : Nat) (h : n2 ≤ 60) :
    (unpack_2_bitvec_rss n2 (degR v)).getD (fun _ => (0, 0), fun _ => (0, 0)) =
      (degR ((v >>> (n2 / 2)) &&& ((1 <<< (n2 - n2 / 2)) - 1)),
        degR (v &&& ((1 <<< (n2 / 2)) - 1))) := by
  simp only [unpack_2_bitvec_rss]
  rw [if_neg (by omega), Option.getD_some]
  rfl

theorem butterflyPass_zero (cw j : Nat) : butterflyPass cw j 0 = 0 := by
  simp [butterflyPass]

theorem butterflyWord_zero (cw n : Nat) : butterflyWord cw n 0 = 0 := by
  unfold butterflyWord
  generalize List.range (Log2Ceil n - 1) = l
  induction l with
  | nil => rfl
  | cons j t ih =>
    show List.foldl _ (butterflyPass cw j 0) t = 0
    rw [butterflyPass_zero]
    exact ih

theorem bit_split_mss_deg (w v : Nat) (h : ¬(w = 0 ∨ w % 2 ≠ 0)) :
    bit_split_mss w (degM v) =
      some (degM (splitHiVal w v), degM (splitLoVal w v)) := by
  rw [bit_split_mss, if_neg h]
  refine congrArg some (Prod.ext ?_ ?_) <;> funext i <;>
    simp [degM, splitHiVal, splitLoVal, butterflyWord_zero]

theorem bsm_deg64 (v : Nat) :
    bit_split_mss 64 (degM v) =
      some (degM (splitHiVal 64 v), degM (splitLoVal 64 v)) :=
  bit_split_mss_deg 64 v (by norm_num)

theorem bsm_deg32 (v : Nat) :
    bit_split_mss 32 (degM v) =
      some (degM (splitHiVal 32 v), degM (splitLoVal 32 v)) :=
  bit_split_mss_deg 32 v (by norm_num)

theorem bsm_deg16 (v : Nat) :
    bit_split_mss 16 (degM v) =
      some (degM (splitHiVal 16 v), degM (splitLoVal 16 v)) :=
  bit_split_mss_deg 16 v (by norm_num)

theorem bsm_deg8 (v : Nat) :
    bit_split_mss 8 (degM v) =
      some (degM (splitHiVal 8 v), degM (splitLoVal 8 v)) :=
  bit_split_mss_deg 8 v (by norm_num)

theorem bsm_deg4 (v : Nat) :
    bit_split_mss 4 (degM v) =
      some (degM (splitHiVal 4 v), degM (splitLoVal 4 v)) :=
  bit_split_mss_deg 4 v (by norm_num)

theorem bsm_deg2 (v : Nat) :
    bit_split_mss 2 (degM v) =
      some (degM (splitHiVal 2 v), degM (splitLoVal 2 v)) :=
  bit_split_mss_deg 2 v (by norm_num)

theorem splitLoVal_lt (w v : Nat) : splitLoVal w v < 2 ^ (w / 2) := by
  simp only [splitLoVal]
  exact and_mask_lt _ _

theorem splitHiVal_lt (w v : Nat) : splitHiVal w v < 2 ^ (w / 2) := by
  simp only [splitHiVal]
  exact and_mask_lt _ _

theorem blkVal_lt (w r v : Nat) : blkVal w r v < 2 ^ (w / 2 / 2) := by
  rcases r with _ | _ | _ | r <;> simp only [blkVal] <;>
    first
    | exact splitLoVal_lt (w / 2) _
    | exact splitHiVal_lt (w / 2) _

theorem pRoundVal_lt (w pv : Nat) : pRoundVal w pv < 2 ^ (w / 2 / 2) := by
  simp only [pRoundVal]
  exact lt_of_le_of_lt (le_trans Nat.and_le_left Nat.and_le_left) (blkVal_lt w 0 pv)

theorem gRoundVal_lt (w gv pv : Nat) : gRoundVal w gv pv < 2 ^ (w / 2 / 2) := by
  simp only [gRoundVal]
  refine Nat.xor_lt_two_pow (Nat.xor_lt_two_pow ?_ ?_) (Nat.xor_lt_two_pow ?_ ?_)
  · exact lt_of_le_of_lt (le_trans Nat.and_le_left Nat.and_le_left) (blkVal_lt w 0 gv)
  · exact lt_of_le_of_lt (le_trans Nat.and_le_left Nat.and_le_left) (blkVal_lt w 1 gv)
  · exact lt_of_le_of_lt (le_trans Nat.and_le_left le_rfl) (blkVal_lt w 2 gv)
  · exact blkVal_lt w 3 gv

theorem msbLoopFuel_step64 (f gv pv : Nat) :
    msbLoopFuel (f + 1) 63 64 (degM gv) (degM pv) =
      msbLoopFuel f 15 16 (degM (gRoundVal 64 gv pv)) (degM (pRoundVal 64 pv)) := by
  have hp := pRoundVal_lt 64 pv
  have hg := gRoundVal_lt 64 gv pv
  have hpk := fun u v => pack_ass_deg 16 u v (by norm_num)
  have hupm := fun v => unpack_mss_deg 32 v (by norm_num)
  simp only [pRoundVal, gRoundVal, blkVal, Nat.reduceDiv] at hp hg ⊢
  simp only [msbLoopFuel, reduceIte, Nat.reduceDiv, bsm_deg64, bsm_deg32,
    Option.getD_some, MssAnd4NoComm, MssAnd3NoComm, MssAnd2_deg, Mss2Rss_deg,
    RssAnd2_deg, Rss2Ass_deg, AssXor2_deg, hpk, Ass2Mss_deg,
    hupm, Nat.reduceSub]
  rw [pack_mask_hi 16 _ _ hp hg, pack_mask_lo 16 _ _ hp,
    if_neg (by norm_num : ¬(63:Nat) ≤ 1), if_pos (by norm_num : (1:Nat) < 15)]

theorem msbLoopFuel_step16 (f gv pv : Nat) :
    msbLoopFuel (f + 1) 15 16 (degM gv) (degM pv) =
      msbLoopFuel f 3 4 (degM (gRoundVal 16 gv pv)) (degM (pRoundVal 16 pv)) := by
  have hp := pRoundVal_lt 16 pv
  have hg := gRoundVal_lt 16 gv pv
  have hpk := fun u v => pack_ass_deg 4 u v (by norm_num)
  have hupm := fun v => unpack_mss_deg 8 v (by norm_num)
  simp only [pRoundVal, gRoundVal, blkVal, Nat.reduceDiv] at hp hg ⊢
  simp only [msbLoopFuel, Nat.reduceDiv, bsm_deg16, bsm_deg8,
    Option.getD_some, MssAnd4NoComm, MssAnd3NoComm, MssAnd2_deg, Mss2Rss_deg,
    RssAnd2_deg, Rss2Ass_deg, AssXor2_deg, hpk, Ass2Mss_deg,
    hupm, Nat.reduceSub]
  rw [pack_mask_hi 4 _ _ hp hg, pack_mask_lo 4 _ _ hp,
    if_neg (by norm_num : ¬(15:Nat) ≤ 1), if_pos (by norm_num : (1:Nat) < 3)]

theorem msbLoopFuel_final4 (f gv pv : Nat) :
    msbLoopFuel (f + 1) 3 4 (degM gv) (degM pv) = degR (gRoundVal 4 gv pv) := by
  have hp := pRoundVal_lt 4 pv
  have hg := gRoundVal_lt 4 gv pv
  have hpk := fun u v => pack_ass_deg 1 u v (by norm_num)
  have hupr := fun v => unpack_rss_deg 2 v (by norm_num)
  simp only [pRoundVal, gRoundVal, blkVal, Nat.reduceDiv] at hp hg ⊢
  simp only [msbLoopFuel, Nat.reduceDiv, bsm_deg4, bsm_deg2,
    Option.getD_some, MssAnd4NoComm, MssAnd3NoComm, MssAnd2_deg, Mss2Rss_deg,
    RssAnd2_deg, Rss2Ass_deg, AssXor2_deg, hpk, Ass2Rss_deg,
    hupr, Nat.reduceSub]
  rw [pack_mask_hi 1 _ _ hp hg,
    if_neg (by norm_num : ¬(3:Nat) ≤ 1), if_neg (by norm_num : ¬(1:Nat) < 0)]

/-- The full degenerate `msbLoop` run for `FM64`: three 4-ary rounds. -/
theorem msbLoop_deg64 (gv pv : Nat) :
    msbLoop 63 64 (degM gv) (degM pv) =
      degR (gRoundVal 4 (gRoundVal 16 (gRoundVal 64 gv pv) (pRoundVal 64 pv))
        (pRoundVal 16 (pRoundVal 64 pv))) := by
  show msbLoopFuel (62 + 1) 63 64 (degM gv) (degM pv) = _
  rw [msbLoopFuel_step64]
  show msbLoopFuel (61 + 1) 15 16 _ _ = _
  rw [msbLoopFuel_step16]
  show msbLoopFuel (60 + 1) 3 4 _ _ = _
  rw [msbLoopFuel_final4]

/-! ## C1 support: carry segments of binary addition -/

theorem genSeg_one (P G : Nat → Bool) (a : Nat) : genSeg P G a 1 = G a := by
  simp [genSeg]

theorem propSeg_one (P : Nat → Bool) (a : Nat) : propSeg P a 1 = P a := by
  simp [propSeg]

theorem genSeg_append (P G : Nat → Bool) (a l1 l2 : Nat) :
    genSeg P G a (l1 + l2) =
      Bool.xor (genSeg P G (a + l1) l2)
        (propSeg P (a + l1) l2 && genSeg P G a l1) := by
  induction l2 with
  | zero => simp [genSeg, propSeg]
  | succ l2 ih =>
    show genSeg P G a (l1 + l2 + 1) = _
    simp only [genSeg, propSeg, ih, show a + (l1 + l2) = a + l1 + l2 from by omega]
    cases G (a + l1 + l2) <;> cases P (a + l1 + l2) <;>
      cases genSeg P G (a + l1) l2 <;> cases propSeg P (a + l1) l2 <;>
      cases genSeg P G a l1 <;> rfl

theorem propSeg_append (P : Nat → Bool) (a l1 l2 : Nat) :
    propSeg P a (l1 + l2) = (propSeg P (a + l1) l2 && propSeg P a l1) := by
  induction l2 with
  | zero => simp [propSeg]
  | succ l2 ih =>
    show propSeg P a (l1 + l2 + 1) = _
    simp only [propSeg, ih, show a + (l1 + l2) = a + l1 + l2 from by omega]
    cases P (a + l1 + l2) <;> cases propSeg P (a + l1) l2 <;>
      cases propSeg P a l1 <;> rfl

theorem genSeg_congr (P G Q H : Nat → Bool) (a len : Nat)
    (hP : ∀ t, a ≤ t → t < a + len → P t = Q t)
    (hG : ∀ t, a ≤ t → t < a + len → G t = H t) :
    genSeg P G a len = genSeg Q H a len := by
  induction len with
  | zero => rfl
  | succ l ih =>
    show Bool.xor (G (a + l)) (P (a + l) && genSeg P G a l) = _
    rw [hP (a + l) (by omega) (by omega), hG (a + l) (by omega) (by omega),
      ih (fun t h1 h2 => hP t h1 (by omega)) (fun t h1 h2 => hG t h1 (by omega))]
    rfl

/-- The Boolean identity behind one 4-fan-in generate cell. -/
theorem bool_cell_g (g0 g1 g2 g3 p1 p2 p3 : Bool) :
    Bool.xor g3 (p3 && Bool.xor g2 (p2 && Bool.xor g1 (p1 && g0))) =
      Bool.xor (Bool.xor ((g0 && p3) && (p2 && p1)) ((g1 && p3) && p2))
        (Bool.xor (g2 && p3) g3) := by
  revert g0 g1 g2 g3 p1 p2 p3
  decide

/-- The Boolean identity behind one 4-fan-in propagate cell. -/
theorem bool_cell_p (p0 p1 p2 p3 : Bool) :
    (p3 && (p2 && (p1 && p0))) = ((p0 && p1) && (p2 && p3)) := by
  revert p0 p1 p2 p3
  decide

theorem genSeg_combine4 (P G : Nat → Bool) (a L : Nat) :
    genSeg P G a (4 * L) =
      Bool.xor
        (Bool.xor ((genSeg P G a L && propSeg P (a + 3 * L) L) &&
            (propSeg P (a + 2 * L) L && propSeg P (a + L) L))
          ((genSeg P G (a + L) L && propSeg P (a + 3 * L) L) &&
            propSeg P (a + 2 * L) L))
        (Bool.xor (genSeg P G (a + 2 * L) L && propSeg P (a + 3 * L) L)
          (genSeg P G (a + 3 * L) L)) := by
  have e1 : genSeg P G a (4 * L) =
      Bool.xor (genSeg P G (a + 3 * L) L)
        (propSeg P (a + 3 * L) L && genSeg P G a (3 * L)) := by
    rw [show 4 * L = 3 * L + L by ring]
    exact genSeg_append P G a (3 * L) L
  have e2 : genSeg P G a (3 * L) =
      Bool.xor (genSeg P G (a + 2 * L) L)
        (propSeg P (a + 2 * L) L && genSeg P G a (2 * L)) := by
    rw [show 3 * L = 2 * L + L by ring]
    exact genSeg_append P G a (2 * L) L
  have e3 : genSeg P G a (2 * L) =
      Bool.xor (genSeg P G (a + L) L)
        (propSeg P (a + L) L && genSeg P G a L) := by
    rw [show 2 * L = L + L by ring]
    exact genSeg_append P G a L L
  rw [e1, e2, e3]
  exact bool_cell_g (genSeg P G a L) (genSeg P G (a + L) L)
    (genSeg P G (a + 2 * L) L) (genSeg P G (a + 3 * L) L)
    (propSeg P (a + L) L) (propSeg P (a + 2 * L) L) (propSeg P (a + 3 * L) L)

theorem propSeg_combine4 (P : Nat → Bool) (a L : Nat) :
    propSeg P a (4 * L) =
      ((propSeg P a L && propSeg P (a + L) L) &&
        (propSeg P (a + 2 * L) L && propSeg P (a + 3 * L) L)) := by
  have e1 : propSeg P a (4 * L) =
      (propSeg P (a + 3 * L) L && propSeg P a (3 * L)) := by
    rw [show 4 * L = 3 * L + L by ring]
    exact propSeg_append P a (3 * L) L
  have e2 : propSeg P a (3 * L) =
      (propSeg P (a + 2 * L) L && propSeg P a (2 * L)) := by
    rw [show 3 * L = 2 * L + L by ring]
    exact propSeg_append P a (2 * L) L
  have e3 : propSeg P a (2 * L) =
      (propSeg P (a + L) L && propSeg P a L) := by
    rw [show 2 * L = L + L by ring]
    exact propSeg_append P a L L
  rw [e1, e2, e3]
  exact bool_cell_p (propSeg P a L) (propSeg P (a + L) L)
    (propSeg P (a + 2 * L) L) (propSeg P (a + 3 * L) L)

theorem carryOut_eq (a b : Nat) :
    ∀ i, carryOut a b i = decide (2 ^ i ≤ a % 2 ^ i + b % 2 ^ i) := by
  intro i
  induction i with
  | zero => simp [carryOut, genSeg, Nat.mod_one]
  | succ i ih =>
    have hsp : (2 : Nat) ^ (i + 1) = 2 ^ i + 2 ^ i := by ring
    have hma : a % 2 ^ (i + 1) = a % 2 ^ i + 2 ^ i * (a / 2 ^ i % 2) :=
      Nat.mod_pow_succ
    have hmb : b % 2 ^ (i + 1) = b % 2 ^ i + 2 ^ i * (b / 2 ^ i % 2) :=
      Nat.mod_pow_succ
    have hxa : a % 2 ^ i < 2 ^ i := Nat.mod_lt _ (Nat.pos_pow_of_pos i (by norm_num))
    have hxb : b % 2 ^ i < 2 ^ i := Nat.mod_lt _ (Nat.pos_pow_of_pos i (by norm_num))
    have hc : carryOut a b (i + 1) =
        Bool.xor (gBit a b i) (pBit a b i && carryOut a b i) := by
      simp [carryOut, genSeg]
    rw [hc, ih]
    unfold gBit pBit
    simp only [Nat.testBit_to_div_mod]
    rw [hma, hmb, hsp]
    rcases Nat.mod_two_eq_zero_or_one (a / 2 ^ i) with h1 | h1 <;>
      rcases Nat.mod_two_eq_zero_or_one (b / 2 ^ i) with h2 | h2 <;>
      rw [h1, h2] <;>
      by_cases hxy : 2 ^ i ≤ a % 2 ^ i + b % 2 ^ i <;>
      simp [hxy] <;> omega

theorem div_add_split (m a b : Nat) (hm : 0 < m) :
    (a + b) / m = a / m + b / m + (a % m + b % m) / m := by
  conv_lhs => rw [← Nat.div_add_mod a m, ← Nat.div_add_mod b m]
  rw [show m * (a / m) + a % m + (m * (b / m) + b % m) =
      m * (a / m + b / m) + (a % m + b % m) by ring]
  rw [Nat.mul_add_div hm]

theorem half_carry_div (m ra rb : Nat) (hm : 0 < m) (ha : ra < m) (hb : rb < m) :
    (ra + rb) / m = if m ≤ ra + rb then 1 else 0 := by
  split_ifs with h
  · rw [show ra + rb = (ra + rb - m) + m by omega, Nat.add_div_right _ hm,
      Nat.div_eq_of_lt (by omega)]
  · exact Nat.div_eq_of_lt (by omega)

theorem add_testBit (a b i : Nat) :
    (a + b).testBit i = Bool.xor (pBit a b i) (carryOut a b i) := by
  have hm : (0 : Nat) < 2 ^ i := Nat.pos_pow_of_pos i (by norm_num)
  rw [carryOut_eq]
  unfold pBit
  simp only [Nat.testBit_to_div_mod]
  rw [div_add_split (2 ^ i) a b hm,
    half_carry_div (2 ^ i) (a % 2 ^ i) (b % 2 ^ i) hm (Nat.mod_lt _ hm)
      (Nat.mod_lt _ hm)]
  rcases Nat.mod_two_eq_zero_or_one (a / 2 ^ i) with h1 | h1 <;>
    rcases Nat.mod_two_eq_zero_or_one (b / 2 ^ i) with h2 | h2 <;>
    by_cases hxy : 2 ^ i ≤ a % 2 ^ i + b % 2 ^ i <;>
    simp [hxy, h1, h2] <;> omega

/-! ## C1 support: the bit permutation of the butterfly network -/

theorem sub_div_self (i s : Nat) (hs : 0 < s) (h : s ≤ i) :
    (i - s) / s = i / s - 1 := by
  have hd := Nat.div_add_mod i s
  have hr : i % s < s := Nat.mod_lt _ hs
  have hq : 1 ≤ i / s := (Nat.one_le_div_iff hs).mpr h
  have e1 : s * (i / s) = s * (i / s - 1) + s := by
    conv_lhs => rw [show i / s = (i / s - 1) + 1 by omega]
    rw [Nat.mul_succ]
  have e2 : i - s = s * (i / s - 1) + i % s := by omega
  rw [e2, Nat.mul_add_div hs, Nat.div_eq_of_lt hr]
  omega

theorem ge_two_mul_of_div (i s : Nat) (h : 2 ≤ i / s) : 2 * s ≤ i := by
  have h1 : s * 2 ≤ s * (i / s) := Nat.mul_le_mul_left s h
  have h2 : i / s * s ≤ i := Nat.div_mul_le_self i s
  have h3 : i / s * s = s * (i / s) := Nat.mul_comm _ _
  omega

theorem pass_bit_generic (cw s keep move x i : Nat) (hs : 0 < s) (hi : i < cw)
    (hkeep : ∀ t, t < cw → keep.testBit t =
      decide ((t / s) % 4 = 0 ∨ (t / s) % 4 = 3))
    (hmove : ∀ t, t < cw → move.testBit t = decide ((t / s) % 4 = 1)) :
    ((x &&& keep) ^^^ ((x >>> s) &&& move) ^^^
        (((x &&& move) <<< s) % 2 ^ cw)).testBit i =
      x.testBit (sigmaPass s i) := by
  simp only [Nat.testBit_xor, Nat.testBit_and, Nat.testBit_shiftRight,
    Nat.testBit_mod_two_pow, Nat.testBit_shiftLeft]
  rcases (by omega : (i / s) % 4 = 0 ∨ (i / s) % 4 = 1 ∨ (i / s) % 4 = 2 ∨
    (i / s) % 4 = 3) with hr | hr | hr | hr
  · rw [hkeep i hi, hmove i hi, sigmaPass]
    by_cases hsi : s ≤ i
    · rw [hmove (i - s) (by omega), sub_div_self i s hs hsi]
      have hne : (i / s - 1) % 4 ≠ 1 := by omega
      simp [hr, hi, hsi, hne]
    · simp [hr, hi, hsi]
  · rw [hkeep i hi, hmove i hi, sigmaPass]
    by_cases hsi : s ≤ i
    · rw [hmove (i - s) (by omega), sub_div_self i s hs hsi]
      obtain ⟨a, ha⟩ : ∃ a, i / s = 4 * a + 1 := ⟨i / s / 4, by omega⟩
      have hne : (i / s - 1) % 4 ≠ 1 := by rw [ha]; omega
      simp [hr, hi, hsi, hne, Nat.add_comm s i]
    · simp [hr, hi, hsi, Nat.add_comm s i]
  · obtain ⟨a, ha⟩ : ∃ a, i / s = 4 * a + 2 := ⟨i / s / 4, by omega⟩
    have hsi : s ≤ i := by
      have := ge_two_mul_of_div i s (by rw [ha]; omega)
      omega
    rw [hkeep i hi, hmove i hi, hmove (i - s) (by omega),
      sub_div_self i s hs hsi, sigmaPass]
    have heq : (i / s - 1) % 4 = 1 := by rw [ha]; omega
    simp [hr, hi, hsi, heq]
  · rw [hkeep i hi, hmove i hi, sigmaPass]
    by_cases hsi : s ≤ i
    · rw [hmove (i - s) (by omega), sub_div_self i s hs hsi]
      have hne : (i / s - 1) % 4 ≠ 1 := by omega
      simp [hr, hi, hsi, hne]
    · simp [hr, hi, hsi]

theorem butterflyPass_bit (cw j s x i : Nat) (hjs : 2 ^ j = s) (hi : i < cw)
    (hkeep : ∀ t, t < cw → (kKeepMasks.getD j 0 % 2 ^ cw).testBit t =
      decide ((t / s) % 4 = 0 ∨ (t / s) % 4 = 3))
    (hmove : ∀ t, t < cw → (kSwapMasks.getD j 0 % 2 ^ cw).testBit t =
      decide ((t / s) % 4 = 1)) :
    (butterflyPass cw j x).testBit i = x.testBit (sigmaPass s i) := by
  simp only [butterflyPass, hjs]
  exact pass_bit_generic cw s _ _ x i
    (hjs ▸ Nat.pos_pow_of_pos j (by norm_num)) hi hkeep hmove

/-! ## C1 support: per-width butterfly characterization -/

theorem butterflyWord_bit64 (x i : Nat) (hi : i < 64) :
    (butterflyWord 64 64 x).testBit i =
      x.testBit (sigmaPass 1 (sigmaPass 2 (sigmaPass 4 (sigmaPass 8
        (sigmaPass 16 i))))) := by
  have hb16 : ∀ t, t < 64 → sigmaPass 16 t < 64 := by decide
  have hb8 : ∀ t, t < 64 → sigmaPass 8 t < 64 := by decide
  have hb4 : ∀ t, t < 64 → sigmaPass 4 t < 64 := by decide
  have hb2 : ∀ t, t < 64 → sigmaPass 2 t < 64 := by decide
  have e : butterflyWord 64 64 x =
      butterflyPass 64 4 (butterflyPass 64 3 (butterflyPass 64 2
        (butterflyPass 64 1 (butterflyPass 64 0 x)))) := rfl
  rw [e,
    butterflyPass_bit 64 4 16 _ i rfl hi (by decide) (by decide),
    butterflyPass_bit 64 3 8 _ _ rfl (hb16 i hi) (by decide) (by decide),
    butterflyPass_bit 64 2 4 _ _ rfl (hb8 _ (hb16 i hi)) (by decide) (by decide),
    butterflyPass_bit 64 1 2 _ _ rfl (hb4 _ (hb8 _ (hb16 i hi))) (by decide)
      (by decide),
    butterflyPass_bit 64 0 1 _ _ rfl (hb2 _ (hb4 _ (hb8 _ (hb16 i hi))))
      (by decide) (by decide)]

theorem butterflyWord_bit32 (x i : Nat) (hi : i < 32) :
    (butterflyWord 32 32 x).testBit i =
      x.testBit (sigmaPass 1 (sigmaPass 2 (sigmaPass 4 (sigmaPass 8 i)))) := by
  have hb8 : ∀ t, t < 32 → sigmaPass 8 t < 32 := by decide
  have hb4 : ∀ t, t < 32 → sigmaPass 4 t < 32 := by decide
  have hb2 : ∀ t, t < 32 → sigmaPass 2 t < 32 := by decide
  have e : butterflyWord 32 32 x =
      butterflyPass 32 3 (butterflyPass 32 2 (butterflyPass 32 1
        (butterflyPass 32 0 x))) := rfl
  rw [e,
    butterflyPass_bit 32 3 8 _ i rfl hi (by decide) (by decide),
    butterflyPass_bit 32 2 4 _ _ rfl (hb8 i hi) (by decide) (by decide),
    butterflyPass_bit 32 1 2 _ _ rfl (hb4 _ (hb8 i hi)) (by decide) (by decide),
    butterflyPass_bit 32 0 1 _ _ rfl (hb2 _ (hb4 _ (hb8 i hi))) (by decide)
      (by decide)]

theorem butterflyWord_bit16 (x i : Nat) (hi : i < 16) :
    (butterflyWord 16 16 x).testBit i =
      x.testBit (sigmaPass 1 (sigmaPass 2 (sigmaPass 4 i))) := by
  have hb4 : ∀ t, t < 16 → sigmaPass 4 t < 16 := by decide
  have hb2 : ∀ t, t < 16 → sigmaPass 2 t < 16 := by decide
  have e : butterflyWord 16 16 x =
      butterflyPass 16 2 (butterflyPass 16 1 (butterflyPass 16 0 x)) := rfl
  rw [e,
    butterflyPass_bit 16 2 4 _ i rfl hi (by decide) (by decide),
    butterflyPass_bit 16 1 2 _ _ rfl (hb4 i hi) (by decide) (by decide),
    butterflyPass_bit 16 0 1 _ _ rfl (hb2 _ (hb4 i hi)) (by decide) (by decide)]

theorem butterflyWord_bit8 (x i : Nat) (hi : i < 8) :
    (butterflyWord 8 8 x).testBit i =
      x.testBit (sigmaPass 1 (sigmaPass 2 i)) := by
  have hb2 : ∀ t, t < 8 → sigmaPass 2 t < 8 := by decide
  have e : butterflyWord 8 8 x =
      butterflyPass 8 1 (butterflyPass 8 0 x) := rfl
  rw [e,
    butterflyPass_bit 8 1 2 _ i rfl hi (by decide) (by decide),
    butterflyPass_bit 8 0 1 _ _ rfl (hb2 i hi) (by decide) (by decide)]

theorem butterflyWord_bit4 (x i : Nat) (hi : i < 8) :
    (butterflyWord 8 4 x).testBit i = x.testBit (sigmaPass 1 i) := by
  have e : butterflyWord 8 4 x = butterflyPass 8 0 x := rfl
  rw [e, butterflyPass_bit 8 0 1 _ i rfl hi (by decide) (by decide)]

/-! ## C1 support: the even/odd split of `bit_split_mss` at each width -/

theorem splitLo_bit64 (v j : Nat) (hj : j < 32) :
    (splitLoVal 64 v).testBit j = v.testBit (2 * j) := by
  have hchain : ∀ t, t < 32 →
      sigmaPass 1 (sigmaPass 2 (sigmaPass 4 (sigmaPass 8 (sigmaPass 16 t)))) =
        2 * t := by decide
  show (butterflyWord 64 64 v &&& ((1 <<< 32) - 1)).testBit j = _
  rw [Nat.one_shiftLeft, Nat.testBit_and, Nat.testBit_two_pow_sub_one,
    butterflyWord_bit64 v j (by omega), hchain j hj]
  simp [hj]

theorem splitHi_bit64 (v j : Nat) (hj : j < 32) :
    (splitHiVal 64 v).testBit j = v.testBit (2 * j + 1) := by
  have hchain : ∀ t, t < 32 →
      sigmaPass 1 (sigmaPass 2 (sigmaPass 4 (sigmaPass 8
        (sigmaPass 16 (32 + t))))) = 2 * t + 1 := by decide
  show ((butterflyWord 64 64 v >>> 32) &&& ((1 <<< 32) - 1)).testBit j = _
  rw [Nat.one_shiftLeft, Nat.testBit_and, Nat.testBit_two_pow_sub_one,
    Nat.testBit_shiftRight, butterflyWord_bit64 v (32 + j) (by omega),
    hchain j hj]
  simp [hj]

theorem splitLo_bit32 (v j : Nat) (hj : j < 16) :
    (splitLoVal 32 v).testBit j = v.testBit (2 * j) := by
  have hchain : ∀ t, t < 16 →
      sigmaPass 1 (sigmaPass 2 (sigmaPass 4 (sigmaPass 8 t))) = 2 * t := by
    decide
  show (butterflyWord 32 32 v &&& ((1 <<< 16) - 1)).testBit j = _
  rw [Nat.one_shiftLeft, Nat.testBit_and, Nat.testBit_two_pow_sub_one,
    butterflyWord_bit32 v j (by omega), hchain j hj]
  simp [hj]

theorem splitHi_bit32 (v j : Nat) (hj : j < 16) :
    (splitHiVal 32 v).testBit j = v.testBit (2 * j + 1) := by
  have hchain : ∀ t, t < 16 →
      sigmaPass 1 (sigmaPass 2 (sigmaPass 4 (sigmaPass 8 (16 + t)))) =
        2 * t + 1 := by decide
  show ((butterflyWord 32 32 v >>> 16) &&& ((1 <<< 16) - 1)).testBit j = _
  rw [Nat.one_shiftLeft, Nat.testBit_and, Nat.testBit_two_pow_sub_one,
    Nat.testBit_shiftRight, butterflyWord_bit32 v (16 + j) (by omega),
    hchain j hj]
  simp [hj]

theorem splitLo_bit16 (v j : Nat) (hj : j < 8) :
    (splitLoVal 16 v).testBit j = v.testBit (2 * j) := by
  have hchain : ∀ t, t < 8 →
      sigmaPass 1 (sigmaPass 2 (sigmaPass 4 t)) = 2 * t := by decide
  show (butterflyWord 16 16 v &&& ((1 <<< 8) - 1)).testBit j = _
  rw [Nat.one_shiftLeft, Nat.testBit_and, Nat.testBit_two_pow_sub_one,
    butterflyWord_bit16 v j (by omega), hchain j hj]
  simp [hj]

theorem splitHi_bit16 (v j : Nat) (hj : j < 8) :
    (splitHiVal 16 v).testBit j = v.testBit (2 * j + 1) := by
  have hchain : ∀ t, t < 8 →
      sigmaPass 1 (sigmaPass 2 (sigmaPass 4 (8 + t))) = 2 * t + 1 := by decide
  show ((butterflyWord 16 16 v >>> 8) &&& ((1 <<< 8) - 1)).testBit j = _
  rw [Nat.one_shiftLeft, Nat.testBit_and, Nat.testBit_two_pow_sub_one,
    Nat.testBit_shiftRight, butterflyWord_bit16 v (8 + j) (by omega),
    hchain j hj]
  simp [hj]

theorem splitLo_bit8 (v j : Nat) (hj : j < 4) :
    (splitLoVal 8 v).testBit j = v.testBit (2 * j) := by
  have hchain : ∀ t, t < 4 → sigmaPass 1 (sigmaPass 2 t) = 2 * t := by decide
  show (butterflyWord 8 8 v &&& ((1 <<< 4) - 1)).testBit j = _
  rw [Nat.one_shiftLeft, Nat.testBit_and, Nat.testBit_two_pow_sub_one,
    butterflyWord_bit8 v j (by omega), hchain j hj]
  simp [hj]

theorem splitHi_bit8 (v j : Nat) (hj : j < 4) :
    (splitHiVal 8 v).testBit j = v.testBit (2 * j + 1) := by
  have hchain : ∀ t, t < 4 →
      sigmaPass 1 (sigmaPass 2 (4 + t)) = 2 * t + 1 := by decide
  show ((butterflyWord 8 8 v >>> 4) &&& ((1 <<< 4) - 1)).testBit j = _
  rw [Nat.one_shiftLeft, Nat.testBit_and, Nat.testBit_two_pow_sub_one,
    Nat.testBit_shiftRight, butterflyWord_bit8 v (4 + j) (by omega),
    hchain j hj]
  simp [hj]

theorem splitLo_bit4 (v j : Nat) (hj : j < 2) :
    (splitLoVal 4 v).testBit j = v.testBit (2 * j) := by
  have hchain : ∀ t, t < 2 → sigmaPass 1 t = 2 * t := by decide
  show (butterflyWord 8 4 v &&& ((1 <<< 2) - 1)).testBit j = _
  rw [Nat.one_shiftLeft, Nat.testBit_and, Nat.testBit_two_pow_sub_one,
    butterflyWord_bit4 v j (by omega), hchain j hj]
  simp [hj]

theorem splitHi_bit4 (v j : Nat) (hj : j < 2) :
    (splitHiVal 4 v).testBit j = v.testBit (2 * j + 1) := by
  have hchain : ∀ t, t < 2 → sigmaPass 1 (2 + t) = 2 * t + 1 := by decide
  show ((butterflyWord 8 4 v >>> 2) &&& ((1 <<< 2) - 1)).testBit j = _
  rw [Nat.one_shiftLeft, Nat.testBit_and, Nat.testBit_two_pow_sub_one,
    Nat.testBit_shiftRight, butterflyWord_bit4 v (2 + j) (by omega),
    hchain j hj]
  simp [hj]

theorem splitLo_bit2 (v j : Nat) (hj : j < 1) :
    (splitLoVal 2 v).testBit j = v.testBit (2 * j) := by
  obtain rfl : j = 0 := by omega
  show (v &&& ((1 <<< 1) - 1)).testBit 0 = _
  rw [Nat.one_shiftLeft, Nat.testBit_and, Nat.testBit_two_pow_sub_one]
  simp

theorem splitHi_bit2 (v j : Nat) (hj : j < 1) :
    (splitHiVal 2 v).testBit j = v.testBit (2 * j + 1) := by
  obtain rfl : j = 0 := by omega
  show ((v >>> 1) &&& ((1 <<< 1) - 1)).testBit 0 = _
  rw [Nat.one_shiftLeft, Nat.testBit_and, Nat.testBit_two_pow_sub_one,
    Nat.testBit_shiftRight]
  simp

/-! ## C1 support: the four 4-ary substreams of one round -/

theorem blkVal64_bit (r v j : Nat) (hr : r < 4) (hj : j < 16) :
    (blkVal 64 r v).testBit j = v.testBit (4 * j + r) := by
  interval_cases r
  · show (splitLoVal 32 (splitLoVal 64 v)).testBit j = _
    rw [splitLo_bit32 _ j hj, splitLo_bit64 v (2 * j) (by omega),
      show 2 * (2 * j) = 4 * j + 0 by ring]
  · show (splitLoVal 32 (splitHiVal 64 v)).testBit j = _
    rw [splitLo_bit32 _ j hj, splitHi_bit64 v (2 * j) (by omega),
      show 2 * (2 * j) + 1 = 4 * j + 1 by ring]
  · show (splitHiVal 32 (splitLoVal 64 v)).testBit j = _
    rw [splitHi_bit32 _ j hj, splitLo_bit64 v (2 * j + 1) (by omega),
      show 2 * (2 * j + 1) = 4 * j + 2 by ring]
  · show (splitHiVal 32 (splitHiVal 64 v)).testBit j = _
    rw [splitHi_bit32 _ j hj, splitHi_bit64 v (2 * j + 1) (by omega),
      show 2 * (2 * j + 1) + 1 = 4 * j + 3 by ring]

theorem blkVal16_bit (r v j : Nat) (hr : r < 4) (hj : j < 4) :
    (blkVal 16 r v).testBit j = v.testBit (4 * j + r) := by
  interval_cases r
  · show (splitLoVal 8 (splitLoVal 16 v)).testBit j = _
    rw [splitLo_bit8 _ j hj, splitLo_bit16 v (2 * j) (by omega),
      show 2 * (2 * j) = 4 * j + 0 by ring]
  · show (splitLoVal 8 (splitHiVal 16 v)).testBit j = _
    rw [splitLo_bit8 _ j hj, splitHi_bit16 v (2 * j) (by omega),
      show 2 * (2 * j) + 1 = 4 * j + 1 by ring]
  · show (splitHiVal 8 (splitLoVal 16 v)).testBit j = _
    rw [splitHi_bit8 _ j hj, splitLo_bit16 v (2 * j + 1) (by omega),
      show 2 * (2 * j + 1) = 4 * j + 2 by ring]
  · show (splitHiVal 8 (splitHiVal 16 v)).testBit j = _
    rw [splitHi_bit8 _ j hj, splitHi_bit16 v (2 * j + 1) (by omega),
      show 2 * (2 * j + 1) + 1 = 4 * j + 3 by ring]

theorem blkVal4_bit (r v j : Nat) (hr : r < 4) (hj : j < 1) :
    (blkVal 4 r v).testBit j = v.testBit (4 * j + r) := by
  interval_cases r
  · show (splitLoVal 2 (splitLoVal 4 v)).testBit j = _
    rw [splitLo_bit2 _ j hj, splitLo_bit4 v (2 * j) (by omega),
      show 2 * (2 * j) = 4 * j + 0 by ring]
  · show (splitLoVal 2 (splitHiVal 4 v)).testBit j = _
    rw [splitLo_bit2 _ j hj, splitHi_bit4 v (2 * j) (by omega),
      show 2 * (2 * j) + 1 = 4 * j + 1 by ring]
  · show (splitHiVal 2 (splitLoVal 4 v)).testBit j = _
    rw [splitHi_bit2 _ j hj, splitLo_bit4 v (2 * j + 1) (by omega),
      show 2 * (2 * j + 1) = 4 * j + 2 by ring]
  · show (splitHiVal 2 (splitHiVal 4 v)).testBit j = _
    rw [splitHi_bit2 _ j hj, splitHi_bit4 v (2 * j + 1) (by omega),
      show 2 * (2 * j + 1) + 1 = 4 * j + 3 by ring]

/-! ## C1 support: one loop round refines the carry segments -/

theorem pRound_bits64 (pv L : Nat) (P : Nat → Bool)
    (hp : ∀ t, t < 64 → pv.testBit t = propSeg P (L * t) L) :
    ∀ j, j < 16 → (pRoundVal 64 pv).testBit j =
      propSeg P (L * (4 * j)) (4 * L) := by
  intro j hj
  simp only [pRoundVal, Nat.testBit_and]
  rw [blkVal64_bit 0 pv j (by norm_num) hj, blkVal64_bit 1 pv j (by norm_num) hj,
    blkVal64_bit 2 pv j (by norm_num) hj, blkVal64_bit 3 pv j (by norm_num) hj,
    hp (4 * j + 0) (by omega), hp (4 * j + 1) (by omega),
    hp (4 * j + 2) (by omega), hp (4 * j + 3) (by omega), propSeg_combine4,
    show L * (4 * j + 0) = L * (4 * j) by ring,
    show L * (4 * j + 1) = L * (4 * j) + L by ring,
    show L * (4 * j + 2) = L * (4 * j) + 2 * L by ring,
    show L * (4 * j + 3) = L * (4 * j) + 3 * L by ring]

theorem gRound_bits64 (gv pv L : Nat) (P G : Nat → Bool)
    (hg : ∀ t, t < 64 → gv.testBit t = genSeg P G (L * t) L)
    (hp : ∀ t, t < 64 → pv.testBit t = propSeg P (L * t) L) :
    ∀ j, j < 16 → (gRoundVal 64 gv pv).testBit j =
      genSeg P G (L * (4 * j)) (4 * L) := by
  intro j hj
  simp only [gRoundVal, Nat.testBit_xor, Nat.testBit_and]
  rw [blkVal64_bit 0 gv j (by norm_num) hj, blkVal64_bit 1 gv j (by norm_num) hj,
    blkVal64_bit 2 gv j (by norm_num) hj, blkVal64_bit 3 gv j (by norm_num) hj,
    blkVal64_bit 1 pv j (by norm_num) hj, blkVal64_bit 2 pv j (by norm_num) hj,
    blkVal64_bit 3 pv j (by norm_num) hj,
    hg (4 * j + 0) (by omega), hg (4 * j + 1) (by omega),
    hg (4 * j + 2) (by omega), hg (4 * j + 3) (by omega),
    hp (4 * j + 1) (by omega), hp (4 * j + 2) (by omega),
    hp (4 * j + 3) (by omega), genSeg_combine4,
    show L * (4 * j + 0) = L * (4 * j) by ring,
    show L * (4 * j + 1) = L * (4 * j) + L by ring,
    show L * (4 * j + 2) = L * (4 * j) + 2 * L by ring,
    show L * (4 * j + 3) = L * (4 * j) + 3 * L by ring]

theorem pRound_bits16 (pv L : Nat) (P : Nat → Bool)
    (hp : ∀ t, t < 16 → pv.testBit t = propSeg P (L * t) L) :
    ∀ j, j < 4 → (pRoundVal 16 pv).testBit j =
      propSeg P (L * (4 * j)) (4 * L) := by
  intro j hj
  simp only [pRoundVal, Nat.testBit_and]
  rw [blkVal16_bit 0 pv j (by norm_num) hj, blkVal16_bit 1 pv j (by norm_num) hj,
    blkVal16_bit 2 pv j (by norm_num) hj, blkVal16_bit 3 pv j (by norm_num) hj,
    hp (4 * j + 0) (by omega), hp (4 * j + 1) (by omega),
    hp (4 * j + 2) (by omega), hp (4 * j + 3) (by omega), propSeg_combine4,
    show L * (4 * j + 0) = L * (4 * j) by ring,
    show L * (4 * j + 1) = L * (4 * j) + L by ring,
    show L * (4 * j + 2) = L * (4 * j) + 2 * L by ring,
    show L * (4 * j + 3) = L * (4 * j) + 3 * L by ring]

theorem gRound_bits16 (gv pv L : Nat) (P G : Nat → Bool)
    (hg : ∀ t, t < 16 → gv.testBit t = genSeg P G (L * t) L)
    (hp : ∀ t, t < 16 → pv.testBit t = propSeg P (L * t) L) :
    ∀ j, j < 4 → (gRoundVal 16 gv pv).testBit j =
      genSeg P G (L * (4 * j)) (4 * L) := by
  intro j hj
  simp only [gRoundVal, Nat.testBit_xor, Nat.testBit_and]
  rw [blkVal16_bit 0 gv j (by norm_num) hj, blkVal16_bit 1 gv j (by norm_num) hj,
    blkVal16_bit 2 gv j (by norm_num) hj, blkVal16_bit 3 gv j (by norm_num) hj,
    blkVal16_bit 1 pv j (by norm_num) hj, blkVal16_bit 2 pv j (by norm_num) hj,
    blkVal16_bit 3 pv j (by norm_num) hj,
    hg (4 * j + 0) (by omega), hg (4 * j + 1) (by omega),
    hg (4 * j + 2) (by omega), hg (4 * j + 3) (by omega),
    hp (4 * j + 1) (by omega), hp (4 * j + 2) (by omega),
    hp (4 * j + 3) (by omega), genSeg_combine4,
    show L * (4 * j + 0) = L * (4 * j) by ring,
    show L * (4 * j + 1) = L * (4 * j) + L by ring,
    show L * (4 * j + 2) = L * (4 * j) + 2 * L by ring,
    show L * (4 * j + 3) = L * (4 * j) + 3 * L by ring]

theorem gRound_bits4 (gv pv L : Nat) (P G : Nat → Bool)
    (hg : ∀ t, t < 4 → gv.testBit t = genSeg P G (L * t) L)
    (hp : ∀ t, t < 4 → pv.testBit t = propSeg P (L * t) L) :
    ∀ j, j < 1 → (gRoundVal 4 gv pv).testBit j =
      genSeg P G (L * (4 * j)) (4 * L) := by
  intro j hj
  simp only [gRoundVal, Nat.testBit_xor, Nat.testBit_and]
  rw [blkVal4_bit 0 gv j (by norm_num) hj, blkVal4_bit 1 gv j (by norm_num) hj,
    blkVal4_bit 2 gv j (by norm_num) hj, blkVal4_bit 3 gv j (by norm_num) hj,
    blkVal4_bit 1 pv j (by norm_num) hj, blkVal4_bit 2 pv j (by norm_num) hj,
    blkVal4_bit 3 pv j (by norm_num) hj,
    hg (4 * j + 0) (by omega), hg (4 * j + 1) (by omega),
    hg (4 * j + 2) (by omega), hg (4 * j + 3) (by omega),
    hp (4 * j + 1) (by omega), hp (4 * j + 2) (by omega),
    hp (4 * j + 3) (by omega), genSeg_combine4,
    show L * (4 * j + 0) = L * (4 * j) by ring,
    show L * (4 * j + 1) = L * (4 * j) + L by ring,
    show L * (4 * j + 2) = L * (4 * j) + 2 * L by ring,
    show L * (4 * j + 3) = L * (4 * j) + 3 * L by ring]

theorem degM_fst (v : Nat) (i : Party) : (degM v i).1 = v := rfl

theorem degM_snd1 (v : Nat) (i : Party) : (degM v i).2.1 = 0 := rfl

theorem degM_snd2 (v : Nat) (i : Party) : (degM v i).2.2 = 0 := rfl

theorem degR_fst (v : Nat) (i : Party) : (degR v i).1 = v := rfl

theorem degR_snd (v : Nat) (i : Party) : (degR v i).2 = v := rfl

theorem degM_eta (v : Nat) : (fun _ : Party => (v, 0, 0)) = degM v := rfl

theorem eq_of_lt_two_of_bit0 (u w : Nat) (hu : u < 2) (hw : w < 2)
    (h : u.testBit 0 = w.testBit 0) : u = w := by
  interval_cases u <;> interval_cases w <;> simp_all

theorem msbFinal_bit (a b : Nat) :
    (gRoundVal 4
        (gRoundVal 16 (gRoundVal 64 (((1 <<< 63) - 1) &&& (a &&& b))
            ((1 <<< 63) ||| (a ^^^ b)))
          (pRoundVal 64 ((1 <<< 63) ||| (a ^^^ b))))
        (pRoundVal 16 (pRoundVal 64 ((1 <<< 63) ||| (a ^^^ b))))).testBit 0 =
      carryOut a b 63 := by
  have hbase_g : ∀ t, t < 64 →
      ((((1 <<< 63) - 1) &&& (a &&& b))).testBit t =
        genSeg (fun u => ((1 <<< 63) ||| (a ^^^ b)).testBit u)
          (fun u => (((1 <<< 63) - 1) &&& (a &&& b)).testBit u) (1 * t) 1 := by
    intro t ht
    rw [genSeg_one, one_mul]
  have hbase_p : ∀ t, t < 64 →
      (((1 <<< 63) ||| (a ^^^ b))).testBit t =
        propSeg (fun u => ((1 <<< 63) ||| (a ^^^ b)).testBit u) (1 * t) 1 := by
    intro t ht
    rw [propSeg_one, one_mul]
  have r1g := gRound_bits64 _ _ 1 _ _ hbase_g hbase_p
  have r1p := pRound_bits64 _ 1 _ hbase_p
  have h1g : ∀ t, t < 16 →
      (gRoundVal 64 (((1 <<< 63) - 1) &&& (a &&& b))
          ((1 <<< 63) ||| (a ^^^ b))).testBit t =
        genSeg (fun u => ((1 <<< 63) ||| (a ^^^ b)).testBit u)
          (fun u => (((1 <<< 63) - 1) &&& (a &&& b)).testBit u) (4 * t) 4 := by
    intro t ht
    have := r1g t ht
    rw [one_mul, mul_one] at this
    exact this
  have h1p : ∀ t, t < 16 →
      (pRoundVal 64 ((1 <<< 63) ||| (a ^^^ b))).testBit t =
        propSeg (fun u => ((1 <<< 63) ||| (a ^^^ b)).testBit u) (4 * t) 4 := by
    intro t ht
    have := r1p t ht
    rw [one_mul, mul_one] at this
    exact this
  have r2g := gRound_bits16 _ _ 4 _ _ h1g h1p
  have r2p := pRound_bits16 _ 4 _ h1p
  have h2g : ∀ t, t < 4 →
      (gRoundVal 16 (gRoundVal 64 (((1 <<< 63) - 1) &&& (a &&& b))
            ((1 <<< 63) ||| (a ^^^ b)))
          (pRoundVal 64 ((1 <<< 63) ||| (a ^^^ b)))).testBit t =
        genSeg (fun u => ((1 <<< 63) ||| (a ^^^ b)).testBit u)
          (fun u => (((1 <<< 63) - 1) &&& (a &&& b)).testBit u) (16 * t) 16 := by
    intro t ht
    have := r2g t ht
    rw [show (4:Nat) * (4 * t) = 16 * t by ring, show (4:Nat) * 4 = 16 from rfl]
      at this
    exact this
  have h2p : ∀ t, t < 4 →
      (pRoundVal 16 (pRoundVal 64 ((1 <<< 63) ||| (a ^^^ b)))).testBit t =
        propSeg (fun u => ((1 <<< 63) ||| (a ^^^ b)).testBit u) (16 * t) 16 := by
    intro t ht
    have := r2p t ht
    rw [show (4:Nat) * (4 * t) = 16 * t by ring, show (4:Nat) * 4 = 16 from rfl]
      at this
    exact this
  have r3g := gRound_bits4 _ _ 16 _ _ h2g h2p 0 (by norm_num)
  rw [show (16:Nat) * (4 * 0) = 0 from rfl, show (4:Nat) * 16 = 64 from rfl]
    at r3g
  rw [r3g]
  -- peel the forced top bit, then transfer to the raw carry signals
  have hP63 : ((1 <<< 63) ||| (a ^^^ b)).testBit 63 = true := by
    rw [Nat.testBit_or, Nat.one_shiftLeft, Nat.testBit_two_pow]
    simp
  have hG63 : (((1 <<< 63) - 1) &&& (a &&& b)).testBit 63 = false := by
    rw [Nat.testBit_and, Nat.one_shiftLeft, Nat.testBit_two_pow_sub_one]
    simp
  have e64 : genSeg (fun u => ((1 <<< 63) ||| (a ^^^ b)).testBit u)
      (fun u => (((1 <<< 63) - 1) &&& (a &&& b)).testBit u) 0 64 =
      Bool.xor ((((1 <<< 63) - 1) &&& (a &&& b)).testBit (0 + 63))
        (((1 <<< 63) ||| (a ^^^ b)).testBit (0 + 63) &&
          genSeg (fun u => ((1 <<< 63) ||| (a ^^^ b)).testBit u)
            (fun u => (((1 <<< 63) - 1) &&& (a &&& b)).testBit u) 0 63) := rfl
  rw [e64, Nat.zero_add, hP63, hG63]
  have hcongr : genSeg (fun u => ((1 <<< 63) ||| (a ^^^ b)).testBit u)
      (fun u => (((1 <<< 63) - 1) &&& (a &&& b)).testBit u) 0 63 =
      genSeg (pBit a b) (gBit a b) 0 63 := by
    refine genSeg_congr _ _ _ _ 0 63 ?_ ?_
    · intro t h0 ht
      rw [Nat.testBit_or, Nat.one_shiftLeft, Nat.testBit_two_pow, Nat.testBit_xor]
      have : ¬ (63 = t) := by omega
      simp [this, pBit]
    · intro t h0 ht
      rw [Nat.testBit_and, Nat.one_shiftLeft, Nat.testBit_two_pow_sub_one,
        Nat.testBit_and]
      have : t < 63 := by omega
      simp [this, gBit]
  rw [hcongr]
  show Bool.xor false (true && carryOut a b 63) = carryOut a b 63
  cases carryOut a b 63 <;> rfl


theorem msb_value_eq (a b : Nat) (ha : a < 2 ^ 64) (hb : b < 2 ^ 64) :
    ((a ^^^ b) >>> 63) ^^^
      gRoundVal 4
        (gRoundVal 16 (gRoundVal 64 (((1 <<< 63) - 1) &&& (a &&& b))
            ((1 <<< 63) ||| (a ^^^ b)))
          (pRoundVal 64 ((1 <<< 63) ||| (a ^^^ b))))
        (pRoundVal 16 (pRoundVal 64 ((1 <<< 63) ||| (a ^^^ b)))) =
      ((a + b) % 2 ^ 64) >>> 63 := by
  have hpow : (2:Nat) ^ 64 = 2 * 2 ^ 63 := by norm_num
  have hxab : a ^^^ b < 2 ^ 64 := Nat.xor_lt_two_pow ha hb
  have hL1 : (a ^^^ b) >>> 63 < 2 := by
    rw [Nat.shiftRight_eq_div_pow]
    exact Nat.div_lt_of_lt_mul (by omega)
  have hF : gRoundVal 4
      (gRoundVal 16 (gRoundVal 64 (((1 <<< 63) - 1) &&& (a &&& b))
          ((1 <<< 63) ||| (a ^^^ b)))
        (pRoundVal 64 ((1 <<< 63) ||| (a ^^^ b))))
      (pRoundVal 16 (pRoundVal 64 ((1 <<< 63) ||| (a ^^^ b)))) < 2 :=
    gRoundVal_lt 4 _ _
  have hR1 : ((a + b) % 2 ^ 64) >>> 63 < 2 := by
    rw [Nat.shiftRight_eq_div_pow]
    have hm : (a + b) % 2 ^ 64 < 2 ^ 64 := Nat.mod_lt _ (by norm_num)
    exact Nat.div_lt_of_lt_mul (by omega)
  have hLt : ((a ^^^ b) >>> 63) ^^^
      gRoundVal 4
        (gRoundVal 16 (gRoundVal 64 (((1 <<< 63) - 1) &&& (a &&& b))
            ((1 <<< 63) ||| (a ^^^ b)))
          (pRoundVal 64 ((1 <<< 63) ||| (a ^^^ b))))
        (pRoundVal 16 (pRoundVal 64 ((1 <<< 63) ||| (a ^^^ b)))) < 2 :=
    Nat.xor_lt_two_pow (show _ < 2 ^ 1 from hL1) (show _ < 2 ^ 1 from hF)
  refine eq_of_lt_two_of_bit0 _ _ hLt hR1 ?_
  rw [Nat.testBit_xor, msbFinal_bit a b, Nat.testBit_shiftRight,
    Nat.testBit_shiftRight, Nat.testBit_mod_two_pow, Nat.testBit_xor,
    add_testBit a b 63]
  simp only [pBit]
  cases Bool.xor (a.testBit 63) (b.testBit 63) <;> cases carryOut a b 63 <;> rfl


/-- C1 (corrected to the `FM64` field): for every well-formed, slot-bounded
arithmetic RSS sharing over the 64-bit ring, reconstructing (XOR of first
slots) the Boolean RSS output of `MsbA2B` yields the top bit
`x >> 63` of the reconstructed secret `x`.  (At width 32 the kernel is
wrong: see the counterexample below.) -/
theorem MsbA2B_msb_correct_FM64 (x : RssShare) (hwf : wfRss x)
    (hb : ∀ i : Party, (x i).1 < 2 ^ 64 ∧ (x i).2 < 2 ^ 64) :
    recB (MsbA2B_proc 64 x) = recA 64 x >>> 63 := by
  have h2 : (x 2).1 = (x 1).2 := (hwf 1).symm
  have hmn : constructMN 64 x =
      (degM (((x 0).1 + (x 0).2) % 2 ^ 64), degM ((x 1).2)) := by
    unfold constructMN
    refine Prod.ext ?_ ?_ <;> funext i <;> fin_cases i <;>
      simp [degM, h2]
  simp only [MsbA2B_proc, MsbA2BMultiFanIn, hmn, MssXor2_deg, MssAnd2_deg,
    Rss2Ass_deg, Ass2Mss_deg, Nat.reduceSub, degM_fst, degM_snd1, degM_snd2,
    Nat.and_zero, Nat.xor_zero, degM_eta, msbLoop_deg64, degR_fst, degR_snd,
    recB, xor3, Nat.xor_self, Nat.zero_xor]
  rw [msb_value_eq _ _ (Nat.mod_lt _ (by norm_num)) (hb 1).2]
  congr 1
  simp only [recA]
  rw [Nat.mod_add_mod]
  have h1 : (x 0).2 = (x 1).1 := hwf 0
  rw [h1, h2]


/-- Witness for the FM64 MSB theorem at the concrete sharing
`(5, 7), (7, 11), (11, 5)` of the secret `23`. -/
theorem MsbA2B_msb_correct_FM64_witness :
    wfRss (fun i : Party => if i = 0 then ((5:Nat), (7:Nat))
      else if i = 1 then (7, 11) else (11, 5)) ∧
    recB (MsbA2B_proc 64 (fun i : Party => if i = 0 then ((5:Nat), (7:Nat))
      else if i = 1 then (7, 11) else (11, 5))) =
      recA 64 (fun i : Party => if i = 0 then ((5:Nat), (7:Nat))
        else if i = 1 then (7, 11) else (11, 5)) >>> 63 :=
  ⟨by decide, MsbA2B_msb_correct_FM64
    (fun i : Party => if i = 0 then ((5:Nat), (7:Nat))
      else if i = 1 then (7, 11) else (11, 5)) (by decide) (by decide)⟩

/-- C1 counterexample at `FM32`: the well-formed bounded sharing
`(0xFFFF, 0), (0, 1), (1, 0xFFFF)` reconstructs to the secret `0x10000`,
whose top bit `x >> 31` is `0`, yet the simulated `MsbA2B` output
reconstructs to `1` (the loop exits after `k = 31 → 7 → 1` with a
2-bit-wide carry word whose stray second bit corrupts the result). -/
theorem MsbA2B_msb_FM32_false :
    wfRss (fun i : Party => if i = 0 then ((0xFFFF:Nat), (0:Nat))
      else if i = 1 then (0, 1) else (1, 0xFFFF)) ∧
    (∀ i : Party,
      ((fun i : Party => if i = 0 then ((0xFFFF:Nat), (0:Nat))
        else if i = 1 then (0, 1) else (1, 0xFFFF)) i).1 < 2 ^ 32 ∧
      ((fun i : Party => if i = 0 then ((0xFFFF:Nat), (0:Nat))
        else if i = 1 then (0, 1) else (1, 0xFFFF)) i).2 < 2 ^ 32) ∧
    recA 32 (fun i : Party => if i = 0 then ((0xFFFF:Nat), (0:Nat))
      else if i = 1 then (0, 1) else (1, 0xFFFF)) >>> 31 = 0 ∧
    recB (MsbA2B_proc 32 (fun i : Party => if i = 0 then ((0xFFFF:Nat), (0:Nat))
      else if i = 1 then (0, 1) else (1, 0xFFFF))) = 1 := by
  refine ⟨by decide, by decide, by decide, ?_⟩
  rfl


theorem xor_mod_pow (a b p : Nat) :
    (a ^^^ b) % 2 ^ p = (a % 2 ^ p) ^^^ (b % 2 ^ p) := by
  apply Nat.eq_of_testBit_eq
  intro i
  simp only [Nat.testBit_mod_two_pow, Nat.testBit_xor]
  cases Nat.decLt i p with
  | isTrue h => simp [h]
  | isFalse h => simp [h]

theorem xor_shiftRight (a b n : Nat) :
    (a ^^^ b) >>> n = (a >>> n) ^^^ (b >>> n) := by
  apply Nat.eq_of_testBit_eq
  intro i
  simp only [Nat.testBit_shiftRight, Nat.testBit_xor]

theorem andRound_wf (χm : Party → Nat) (l r : RssShare) :
    wfRss (andRoundRss χm l r) := by
  intro i
  rfl

theorem andRound_recB (χm : Party → Nat) (l r : RssShare)
    (hl : wfRss l) (hr : wfRss r) :
    recB (andRoundRss χm l r) = recB l &&& recB r := by
  have h0 := hl 0
  have h1 := hl 1
  have h2 := hl 2
  have g0 := hr 0
  have g1 := hr 1
  have g2 := hr 2
  simp only [show ((0:Party) + 1) = 1 from rfl, show ((1:Party) + 1) = 2 from rfl,
    show ((2:Party) + 1) = 0 from rfl] at h0 h1 h2 g0 g1 g2
  simp only [andRoundRss, recB, xor3, rotate]
  rw [h0, h1, h2, g0, g1, g2]
  exact and_xor_nine (l 0).1 (l 1).1 (l 2).1 (r 0).1 (r 1).1 (r 2).1
    (χm 0) (χm 1) (χm 2)

theorem eqzFold_join (χ : Nat → Party → Nat) :
    ∀ f round bits s, wfRss s → bits ≤ f →
      recB (eqzFoldTreeFuel χ f round bits s) = foldValFuel f bits (recB s) := by
  intro f
  induction f with
  | zero => intro round bits s hwf hb; rfl
  | succ f ih =>
    intro round bits s hwf hb
    by_cases h1 : bits ≤ 1
    · simp [eqzFoldTreeFuel, foldValFuel, h1]
    · simp only [eqzFoldTreeFuel, foldValFuel, if_neg h1]
      by_cases h8 : 8 < bits
      · simp only [if_pos h8]
        have hxwf : wfRss (fun i =>
            ((s i).1 % 2 ^ (bits / 2), (s i).2 % 2 ^ (bits / 2))) := by
          intro i
          simp [hwf i]
        have hywf : wfRss (fun i =>
            ((s i).1 >>> (bits / 2), (s i).2 >>> (bits / 2))) := by
          intro i
          simp [hwf i]
        rw [ih (round + 1) (bits / 2) _ (andRound_wf _ _ _) (by omega),
          andRound_recB _ _ _ hxwf hywf]
        congr 1 <;> simp [recB, xor3, xor_mod_pow, xor_shiftRight]
      · simp only [if_neg h8]
        have hywf : wfRss (fun i =>
            ((s i).1 >>> (bits / 2), (s i).2 >>> (bits / 2))) := by
          intro i
          simp [hwf i]
        rw [ih (round + 1) (bits / 2) _ (andRound_wf _ _ _) (by omega),
          andRound_recB _ _ _ hywf hwf]
        congr 1 <;> simp [recB, xor3, xor_shiftRight]


theorem shift_and_eq_mod_and (h v : Nat) (hv : v < 2 ^ (2 * h)) :
    (v >>> h) &&& v = (v % 2 ^ h) &&& (v >>> h) := by
  apply Nat.eq_of_testBit_eq
  intro i
  simp only [Nat.testBit_and, Nat.testBit_shiftRight, Nat.testBit_mod_two_pow]
  by_cases hi : i < h
  · simp [hi, Bool.and_comm]
  · have hv1 : v.testBit (h + i) = false :=
      testBit_ge_of_lt v (2 * h) (h + i) hv (by omega)
    simp [hi, hv1]

theorem foldRound_ones_iff (h v : Nat) (hh : 0 < h) (hv : v < 2 ^ (2 * h)) :
    ((v % 2 ^ h) &&& (v >>> h) = 2 ^ h - 1) ↔ (v = 2 ^ (2 * h) - 1) := by
  have hfact : (2:Nat) ^ (2 * h) - 1 = 2 ^ h * (2 ^ h - 1) + (2 ^ h - 1) := by
    have h2 : (2:Nat) ^ (2 * h) = 2 ^ h * 2 ^ h := by rw [two_mul, pow_add]
    obtain ⟨a, ha⟩ : ∃ a, (2:Nat) ^ h = a + 1 :=
      ⟨2 ^ h - 1, by have := Nat.pos_pow_of_pos h (show 0 < 2 by norm_num); omega⟩
    rw [h2, ha]
    have he : (a + 1) * (a + 1) = ((a + 1) * a + a) + 1 := by ring
    rw [he]
    simp
  have hp : (0:Nat) < 2 ^ h := Nat.pos_pow_of_pos h (by norm_num)
  constructor
  · intro hA
    have hbit : ∀ j, j < h → v.testBit j = true ∧ v.testBit (h + j) = true := by
      intro j hj
      have hc := congrArg (fun t => t.testBit j) hA
      simp [Nat.testBit_and, Nat.testBit_mod_two_pow, Nat.testBit_shiftRight,
        Nat.testBit_two_pow_sub_one, hj] at hc
      exact hc
    apply Nat.eq_of_testBit_eq
    intro i
    rw [Nat.testBit_two_pow_sub_one]
    by_cases hi : i < 2 * h
    · by_cases hih : i < h
      · simp [hi, (hbit i hih).1]
      · have hb2 : v.testBit (h + (i - h)) = true := (hbit (i - h) (by omega)).2
        rw [show h + (i - h) = i by omega] at hb2
        simp [hi, hb2]
    · simp [hi, testBit_ge_of_lt v (2 * h) i hv (by omega)]
  · intro hV
    subst hV
    have hmod : (2 ^ (2 * h) - 1) % 2 ^ h = 2 ^ h - 1 := by
      rw [hfact, Nat.mul_add_mod, Nat.mod_eq_of_lt (by omega)]
    have hshift : (2 ^ (2 * h) - 1) >>> h = 2 ^ h - 1 := by
      rw [Nat.shiftRight_eq_div_pow, hfact, Nat.mul_add_div hp,
        Nat.div_eq_of_lt (by omega)]
      omega
    rw [hmod, hshift, Nat.and_self]

theorem foldVal_pow_ones :
    ∀ e f v, 2 ^ e ≤ f → v < 2 ^ 2 ^ e →
      foldValFuel f (2 ^ e) v = if v = 2 ^ 2 ^ e - 1 then 1 else 0 := by
  intro e
  induction e with
  | zero =>
    intro f v hf hv
    norm_num at hv ⊢
    have hfold : foldValFuel f 1 v = v := by
      cases f with
      | zero => rfl
      | succ f => simp [foldValFuel]
    rw [hfold]
    interval_cases v <;> simp
  | succ e ih =>
    intro f v hf hv
    have h2e : (2:Nat) ^ (e + 1) = 2 * 2 ^ e := by ring
    obtain ⟨f1, rfl⟩ : ∃ f1, f = f1 + 1 :=
      ⟨f - 1, by have := Nat.pos_pow_of_pos (e + 1) (show 0 < 2 by norm_num); omega⟩
    have hh : 2 ^ (e + 1) / 2 = 2 ^ e := by
      rw [h2e, Nat.mul_div_cancel_left _ (by norm_num)]
    have hvv : v < 2 ^ (2 * 2 ^ e) := by
      rw [← h2e]
      exact hv
    have hu : (v % 2 ^ 2 ^ e) &&& (v >>> 2 ^ e) < 2 ^ 2 ^ e :=
      lt_of_le_of_lt Nat.and_le_left
        (Nat.mod_lt _ (Nat.pos_pow_of_pos _ (by norm_num)))
    have step : foldValFuel (f1 + 1) (2 ^ (e + 1)) v =
        foldValFuel f1 (2 ^ e) ((v % 2 ^ 2 ^ e) &&& (v >>> 2 ^ e)) := by
      have hn1 : ¬ 2 ^ (e + 1) ≤ 1 := by
        have h2le : (2:Nat) ^ 1 ≤ 2 ^ (e + 1) :=
          Nat.pow_le_pow_right (by norm_num) (by omega)
        omega
      simp only [foldValFuel, if_neg hn1, hh]
      by_cases h8 : 8 < 2 ^ (e + 1)
      · rw [if_pos h8]
      · rw [if_neg h8, shift_and_eq_mod_and (2 ^ e) v hvv]
    have hf1 : 2 ^ e ≤ f1 := by
      have h2e2 : (2:Nat) ^ e < 2 ^ (e + 1) :=
        Nat.pow_lt_pow_right (by norm_num) (by omega)
      omega
    rw [step, ih f1 _ hf1 hu]
    have hep : (0:Nat) < 2 ^ e := Nat.pos_pow_of_pos e (by norm_num)
    have hiff := foldRound_ones_iff (2 ^ e) v hep hvv
    have h22 : (2:Nat) ^ 2 ^ (e + 1) = 2 ^ (2 * 2 ^ e) := by rw [h2e]
    by_cases hcase : v = 2 ^ 2 ^ (e + 1) - 1
    · rw [if_pos hcase, if_pos]
      rw [hiff, ← h22]
      exact hcase
    · rw [if_neg hcase, if_neg]
      intro hcon
      exact hcase (by rw [h22]; exact hiff.mp hcon)


theorem recB_zf (p : Party) (A B C : Nat) :
    recB (fun i => if i = p then (A, B) else if i = p + 1 then (B, C)
      else (C, A)) = A ^^^ B ^^^ C := by
  fin_cases p <;>
    simp [recB, xor3, Nat.xor_assoc, Nat.xor_comm, xor_left_commN]

theorem wf_zf (p : Party) (A B C : Nat) :
    wfRss (fun i => if i = p then (A, B) else if i = p + 1 then (B, C)
      else (C, A)) := by
  fin_cases p <;> intro i <;> fin_cases i <;> simp

theorem recB_modMap (t : RssShare) (m : Nat) :
    recB (fun i => ((t i).1 % 2 ^ m, (t i).2 % 2 ^ m)) = recB t % 2 ^ m := by
  simp [recB, xor3, xor_mod_pow]

theorem negMod_add_self (k b : Nat) : (negMod k b + b) % 2 ^ k = 0 := by
  have hm : (0:Nat) < 2 ^ k := Nat.pos_pow_of_pos k (by norm_num)
  have hr : b % 2 ^ k < 2 ^ k := Nat.mod_lt _ hm
  simp only [negMod]
  by_cases h0 : b % 2 ^ k = 0
  · simp [h0]
  · have hX : (2 ^ k - b % 2 ^ k) % 2 ^ k = 2 ^ k - b % 2 ^ k :=
      Nat.mod_eq_of_lt (by omega)
    rw [hX, Nat.add_mod, hX,
      show 2 ^ k - b % 2 ^ k + b % 2 ^ k = 2 ^ k by omega, Nat.mod_self]

theorem add_mod_eq_self_iff (m rr S : Nat) (hm : 0 < m) (hrr : rr < m) :
    ((rr + S) % m = rr) ↔ S % m = 0 := by
  have hs : S % m < m := Nat.mod_lt _ hm
  rw [Nat.add_mod, Nat.mod_eq_of_lt hrr]
  constructor
  · intro h
    by_cases hlt : rr + S % m < m
    · rw [Nat.mod_eq_of_lt hlt] at h
      omega
    · have h2 : (rr + S % m) % m = rr + S % m - m := by
        rw [Nat.mod_eq_sub_mod (by omega), Nat.mod_eq_of_lt (by omega)]
      omega
  · intro h
    rw [h, Nat.add_zero, Nat.mod_eq_of_lt hrr]

theorem xor_eq_left_iff (x y : Nat) : (x ^^^ y = x) ↔ y = 0 := by
  constructor
  · intro h
    have hc := congrArg (fun t => x ^^^ t) h
    simp only at hc
    rw [xor_cancelN, Nat.xor_self] at hc
    exact hc
  · intro h
    rw [h, Nat.xor_zero]

theorem flag_algebra (k rr rb rz cp : Nat) :
    (rr ^^^ rb) ^^^ rz ^^^ (notK k (cp ^^^ rb) ^^^ rz) =
      (2 ^ k - 1) ^^^ (rr ^^^ cp) := by
  simp only [notK]
  simp [Nat.xor_assoc, Nat.xor_comm, xor_left_commN, Nat.xor_self, Nat.xor_zero,
    xor_cancelN]


theorem cp_eq (k : Nat) (pivot : Party) (rr ra : Nat) (x : RssShare)
    (hwf : wfRss x) :
    ((subMod k rr ra + (x (pivot + 2)).2) % 2 ^ k +
        (ra + ((x (pivot + 1)).1 + (x (pivot + 1)).2) % 2 ^ k) % 2 ^ k) %
      2 ^ k =
      (rr + ((x 0).1 + (x 1).1 + (x 2).1)) % 2 ^ k := by
  have hw1 : (x (pivot + 1)).2 = (x (pivot + 2)).1 := by
    have h := hwf (pivot + 1)
    rwa [add_assoc] at h
  have hw2 : (x (pivot + 2)).2 = (x pivot).1 := by
    have h := hwf (pivot + 2)
    rw [add_assoc] at h
    simpa using h
  have hsum : (x pivot).1 + ((x (pivot + 1)).1 + (x (pivot + 2)).1) =
      (x 0).1 + ((x 1).1 + (x 2).1) := by
    fin_cases pivot <;> simp <;> try omega
  have hneg : Nat.ModEq (2 ^ k) (negMod k ra + ra) 0 := by
    show (negMod k ra + ra) % 2 ^ k = 0 % 2 ^ k
    rw [negMod_add_self, Nat.zero_mod]
  simp only [subMod]
  rw [hw1, hw2]
  show Nat.ModEq (2 ^ k) _ _
  calc ((rr + negMod k ra) % 2 ^ k + (x pivot).1) % 2 ^ k +
        (ra + ((x (pivot + 1)).1 + (x (pivot + 2)).1) % 2 ^ k) % 2 ^ k
      ≡ ((rr + negMod k ra) % 2 ^ k + (x pivot).1) +
        (ra + ((x (pivot + 1)).1 + (x (pivot + 2)).1) % 2 ^ k) [MOD 2 ^ k] :=
        Nat.ModEq.add (Nat.mod_modEq _ _) (Nat.mod_modEq _ _)
    _ ≡ ((rr + negMod k ra) + (x pivot).1) +
        (ra + ((x (pivot + 1)).1 + (x (pivot + 2)).1) % 2 ^ k) [MOD 2 ^ k] :=
        Nat.ModEq.add_right _ (Nat.ModEq.add_right _ (Nat.mod_modEq _ _))
    _ ≡ ((rr + negMod k ra) + (x pivot).1) +
        (ra + ((x (pivot + 1)).1 + (x (pivot + 2)).1)) [MOD 2 ^ k] :=
        Nat.ModEq.add_left _ (Nat.ModEq.add_left _ (Nat.mod_modEq _ _))
    _ = (negMod k ra + ra) +
        (rr + ((x pivot).1 + ((x (pivot + 1)).1 + (x (pivot + 2)).1))) := by
        ring
    _ ≡ 0 + (rr + ((x pivot).1 + ((x (pivot + 1)).1 + (x (pivot + 2)).1)))
        [MOD 2 ^ k] := Nat.ModEq.add_right _ hneg
    _ = rr + ((x pivot).1 + ((x (pivot + 1)).1 + (x (pivot + 2)).1)) := by ring
    _ = rr + ((x 0).1 + ((x 1).1 + (x 2).1)) := by rw [hsum]
    _ = rr + ((x 0).1 + (x 1).1 + (x 2).1) := by ring

theorem eqz_recB (k : Nat) (pivot : Party) (rr ra rb rz : Nat)
    (χ : Nat → Party → Nat) (x : RssShare) (hwf : wfRss x) :
    recB (eqz k pivot rr ra rb rz χ x) =
      foldValFuel k k ((2 ^ k - 1) ^^^ (rr ^^^
        ((rr + ((x 0).1 + (x 1).1 + (x 2).1)) % 2 ^ k))) % 2 ^ 8 := by
  simp only [eqz]
  rw [recB_modMap]
  simp only [eqzFoldTree]
  rw [eqzFold_join χ k 0 k _ (wf_zf pivot _ _ _) (le_refl k), recB_zf,
    flag_algebra, cp_eq k pivot rr ra x hwf]


theorem subSum3_zero_iff (k a0 a1 a2 b0 b1 b2 : Nat) :
    ((subMod k a0 b0 + subMod k a1 b1 + subMod k a2 b2) % 2 ^ k = 0) ↔
      ((a0 + a1 + a2) % 2 ^ k = (b0 + b1 + b2) % 2 ^ k) := by
  have hm : (0:Nat) < 2 ^ k := Nat.pos_pow_of_pos k (by norm_num)
  have key : (subMod k a0 b0 + subMod k a1 b1 + subMod k a2 b2 +
      (b0 + b1 + b2)) % 2 ^ k = (a0 + a1 + a2) % 2 ^ k := by
    simp only [subMod]
    show Nat.ModEq (2 ^ k) _ _
    calc (a0 + negMod k b0) % 2 ^ k + (a1 + negMod k b1) % 2 ^ k +
          (a2 + negMod k b2) % 2 ^ k + (b0 + b1 + b2)
        ≡ (a0 + negMod k b0) + (a1 + negMod k b1) + (a2 + negMod k b2) +
          (b0 + b1 + b2) [MOD 2 ^ k] :=
          Nat.ModEq.add_right _ (Nat.ModEq.add
            (Nat.ModEq.add (Nat.mod_modEq _ _) (Nat.mod_modEq _ _))
            (Nat.mod_modEq _ _))
      _ = (negMod k b0 + b0) + ((negMod k b1 + b1) + ((negMod k b2 + b2) +
          (a0 + a1 + a2))) := by ring
      _ ≡ 0 + ((negMod k b1 + b1) + ((negMod k b2 + b2) + (a0 + a1 + a2)))
          [MOD 2 ^ k] := by
          refine Nat.ModEq.add_right _ ?_
          show (negMod k b0 + b0) % 2 ^ k = 0 % 2 ^ k
          rw [negMod_add_self, Nat.zero_mod]
      _ ≡ 0 + (0 + ((negMod k b2 + b2) + (a0 + a1 + a2))) [MOD 2 ^ k] := by
          refine Nat.ModEq.add_left _ (Nat.ModEq.add_right _ ?_)
          show (negMod k b1 + b1) % 2 ^ k = 0 % 2 ^ k
          rw [negMod_add_self, Nat.zero_mod]
      _ ≡ 0 + (0 + (0 + (a0 + a1 + a2))) [MOD 2 ^ k] := by
          refine Nat.ModEq.add_left _ (Nat.ModEq.add_left _
            (Nat.ModEq.add_right _ ?_))
          show (negMod k b2 + b2) % 2 ^ k = 0 % 2 ^ k
          rw [negMod_add_self, Nat.zero_mod]
      _ = a0 + a1 + a2 := by ring
  constructor
  · intro h
    rw [← key, Nat.add_mod, h, Nat.zero_add, Nat.mod_mod_of_dvd _ dvd_rfl]
  · intro h
    have h2 : ((b0 + b1 + b2) % 2 ^ k +
        (subMod k a0 b0 + subMod k a1 b1 + subMod k a2 b2)) % 2 ^ k =
        (b0 + b1 + b2) % 2 ^ k := by
      rw [Nat.mod_add_mod, Nat.add_comm, key, h]
    exact (add_mod_eq_self_iff (2 ^ k) _ _ hm (Nat.mod_lt _ hm)).mp h2

theorem subSum1_zero_iff (k a0 a1 a2 c : Nat) :
    ((a0 + subMod k a1 c + a2) % 2 ^ k = 0) ↔
      ((a0 + a1 + a2) % 2 ^ k = c % 2 ^ k) := by
  have hm : (0:Nat) < 2 ^ k := Nat.pos_pow_of_pos k (by norm_num)
  have key : (a0 + subMod k a1 c + a2 + c) % 2 ^ k =
      (a0 + a1 + a2) % 2 ^ k := by
    simp only [subMod]
    show Nat.ModEq (2 ^ k) _ _
    calc a0 + (a1 + negMod k c) % 2 ^ k + a2 + c
        ≡ a0 + (a1 + negMod k c) + a2 + c [MOD 2 ^ k] :=
          Nat.ModEq.add_right _ (Nat.ModEq.add_right _
            (Nat.ModEq.add_left _ (Nat.mod_modEq _ _)))
      _ = (negMod k c + c) + (a0 + a1 + a2) := by ring
      _ ≡ 0 + (a0 + a1 + a2) [MOD 2 ^ k] := by
          refine Nat.ModEq.add_right _ ?_
          show (negMod k c + c) % 2 ^ k = 0 % 2 ^ k
          rw [negMod_add_self, Nat.zero_mod]
      _ = a0 + a1 + a2 := by ring
  constructor
  · intro h
    rw [← key, Nat.add_mod, h, Nat.zero_add, Nat.mod_mod_of_dvd _ dvd_rfl]
  · intro h
    have h2 : (c % 2 ^ k + (a0 + subMod k a1 c + a2)) % 2 ^ k = c % 2 ^ k := by
      rw [Nat.mod_add_mod, Nat.add_comm, key, h]
    exact (add_mod_eq_self_iff (2 ^ k) _ _ hm (Nat.mod_lt _ hm)).mp h2


theorem Vlt_helper (k rr cp : Nat) (hrr : rr < 2 ^ k) (hcp : cp < 2 ^ k) :
    (2 ^ k - 1) ^^^ (rr ^^^ cp) < 2 ^ k := by
  have hm : (0:Nat) < 2 ^ k := Nat.pos_pow_of_pos k (by norm_num)
  exact Nat.xor_lt_two_pow (by omega) (Nat.xor_lt_two_pow hrr hcp)

/-- C3: over any power-of-two ring `2^k`, for every pivot, all dealer and
PRSS randomness, and every pair of well-formed A/RSS sharings, `EqualAA`
reconstructs (XOR of first slots) to `1` when the two secrets agree and to
`0` otherwise, and `EqualAP` likewise against a public constant; the result
is the numeric value of the 8-bit Boolean share, so its LSB carries the
flag and all higher bits are zero. -/
theorem Equal_correct (e k : Nat) (hk : k = 2 ^ e) (pivot : Party)
    (rr ra rb rz : Nat) (hrr : rr < 2 ^ k) (χ : Nat → Party → Nat)
    (lhs rhs : RssShare) (c : Nat) (hc : c < 2 ^ k)
    (hl : wfRss lhs) (hr : wfRss rhs) :
    recB (EqualAA_proc k pivot rr ra rb rz χ lhs rhs) =
      (if recA k lhs = recA k rhs then 1 else 0) ∧
    recB (EqualAP_proc k pivot rr ra rb rz χ lhs c) =
      (if recA k lhs = c then 1 else 0) := by
  have hm : (0:Nat) < 2 ^ k := Nat.pos_pow_of_pos k (by norm_num)
  have g0 : (lhs 0).2 = (lhs 1).1 := hl 0
  have g1 : (lhs 1).2 = (lhs 2).1 := hl 1
  have g2 : (lhs 2).2 = (lhs 0).1 := hl 2
  constructor
  · have hwd : wfRss (fun i =>
        (subMod k (lhs i).1 (rhs i).1, subMod k (lhs i).2 (rhs i).2)) := by
      intro i
      simp only
      rw [hl i, hr i]
    simp only [EqualAA_proc]
    rw [eqz_recB k pivot rr ra rb rz χ _ hwd]
    simp only
    subst hk
    rw [foldVal_pow_ones e (2 ^ e) _ (le_refl _)
      (Vlt_helper _ rr _ hrr (Nat.mod_lt _ hm))]
    rw [apply_ite (fun t : Nat => t % 2 ^ 8)]
    norm_num
    have hiff : ((2 ^ 2 ^ e - 1) ^^^ (rr ^^^
        ((rr + (subMod (2 ^ e) (lhs 0).1 (rhs 0).1 +
          subMod (2 ^ e) (lhs 1).1 (rhs 1).1 +
          subMod (2 ^ e) (lhs 2).1 (rhs 2).1)) % 2 ^ 2 ^ e)) = 2 ^ 2 ^ e - 1) ↔
        (recA (2 ^ e) lhs = recA (2 ^ e) rhs) := by
      rw [xor_eq_left_iff, Nat.xor_eq_zero, eq_comm,
        add_mod_eq_self_iff _ _ _ hm hrr, subSum3_zero_iff]
      exact Iff.rfl
    exact if_congr hiff rfl rfl
  · have hwd : wfRss (fun i : Party =>
        if i = 0 then ((lhs i).1, subMod k (lhs i).2 c)
        else if i = 1 then (subMod k (lhs i).1 c, (lhs i).2)
        else ((lhs i).1, (lhs i).2)) := by
      intro i
      fin_cases i <;> simp [g0, g1, g2]
    simp only [EqualAP_proc]
    rw [eqz_recB k pivot rr ra rb rz χ _ hwd]
    rw [show ((fun i : Party =>
        if i = 0 then ((lhs i).1, subMod k (lhs i).2 c)
        else if i = 1 then (subMod k (lhs i).1 c, (lhs i).2)
        else ((lhs i).1, (lhs i).2)) 0).1 +
        ((fun i : Party =>
        if i = 0 then ((lhs i).1, subMod k (lhs i).2 c)
        else if i = 1 then (subMod k (lhs i).1 c, (lhs i).2)
        else ((lhs i).1, (lhs i).2)) 1).1 +
        ((fun i : Party =>
        if i = 0 then ((lhs i).1, subMod k (lhs i).2 c)
        else if i = 1 then (subMod k (lhs i).1 c, (lhs i).2)
        else ((lhs i).1, (lhs i).2)) 2).1 =
        (lhs 0).1 + subMod k (lhs 1).1 c + (lhs 2).1 from rfl]
    subst hk
    rw [foldVal_pow_ones e (2 ^ e) _ (le_refl _)
      (Vlt_helper _ rr _ hrr (Nat.mod_lt _ hm))]
    rw [apply_ite (fun t : Nat => t % 2 ^ 8)]
    norm_num
    have hiff : ((2 ^ 2 ^ e - 1) ^^^ (rr ^^^
        ((rr + ((lhs 0).1 + subMod (2 ^ e) (lhs 1).1 c + (lhs 2).1)) %
          2 ^ 2 ^ e)) = 2 ^ 2 ^ e - 1) ↔
        (recA (2 ^ e) lhs = c) := by
      rw [xor_eq_left_iff, Nat.xor_eq_zero, eq_comm,
        add_mod_eq_self_iff _ _ _ hm hrr, subSum1_zero_iff,
        Nat.mod_eq_of_lt hc]
      exact Iff.rfl
    exact if_congr hiff rfl rfl


/-- Witness for the equality theorem: `FM32`, pivot 1, live randomness
`rr = 7, ra = 3, rb = 5, rz = 9`, sharings of `15` on both sides and the
public constant `15`. -/
theorem Equal_correct_witness :
    (32:Nat) = 2 ^ 5 ∧ (7:Nat) < 2 ^ 32 ∧ (15:Nat) < 2 ^ 32 ∧
    wfRss (fun i : Party => if i = 0 then ((3:Nat), (5:Nat))
      else if i = 1 then (5, 7) else (7, 3)) ∧
    wfRss (fun i : Party => if i = 0 then ((10:Nat), (1:Nat))
      else if i = 1 then (1, 4) else (4, 10)) ∧
    (recB (EqualAA_proc 32 1 7 3 5 9 (fun _ _ => 0)
        (fun i : Party => if i = 0 then ((3:Nat), (5:Nat))
          else if i = 1 then (5, 7) else (7, 3))
        (fun i : Party => if i = 0 then ((10:Nat), (1:Nat))
          else if i = 1 then (1, 4) else (4, 10))) =
      (if recA 32 (fun i : Party => if i = 0 then ((3:Nat), (5:Nat))
          else if i = 1 then (5, 7) else (7, 3)) =
        recA 32 (fun i : Party => if i = 0 then ((10:Nat), (1:Nat))
          else if i = 1 then (1, 4) else (4, 10)) then 1 else 0) ∧
    recB (EqualAP_proc 32 1 7 3 5 9 (fun _ _ => 0)
        (fun i : Party => if i = 0 then ((3:Nat), (5:Nat))
          else if i = 1 then (5, 7) else (7, 3)) 15) =
      (if recA 32 (fun i : Party => if i = 0 then ((3:Nat), (5:Nat))
          else if i = 1 then (5, 7) else (7, 3)) = 15 then 1 else 0)) :=
  ⟨by norm_num, by norm_num, by norm_num, by decide, by decide,
    Equal_correct 5 32 (by norm_num) 1 7 3 5 9 (by norm_num) (fun _ _ => 0)
      (fun i : Party => if i = 0 then ((3:Nat), (5:Nat))
        else if i = 1 then (5, 7) else (7, 3))
      (fun i : Party => if i = 0 then ((10:Nat), (1:Nat))
        else if i = 1 then (1, 4) else (4, 10)) 15 (by norm_num)
      (by decide) (by decide)⟩



theorem select_zero (mask offset idx : Nat) : select 0 mask offset idx = 0 := by
  simp [select]

theorem SelectAndRotate_zero (mask stride : Nat) :
    SelectAndRotate 0 mask stride = 0 := by
  simp [SelectAndRotate]

theorem selectMss_deg (k v mask offset idx : Nat) :
    selectMss k (degM v) mask offset idx =
      degM (select v mask offset idx % 2 ^ k) := by
  funext i
  simp [selectMss, degM, select_zero]

theorem selRotMss_deg (k v mask stride : Nat) :
    selRotMss k (degM v) mask stride =
      degM (SelectAndRotate v mask stride % 2 ^ k) := by
  funext i
  simp [selRotMss, degM, SelectAndRotate_zero]

theorem mergeTop_deg (k u w : Nat) :
    mergeTop k (degM u) (degM w) =
      degM ((u &&& 0x7777777777777777) ^^^ w) := by
  funext i
  simp [mergeTop, degM]

theorem RssXor2_deg (u w : Nat) : RssXor2 (degR u) (degR w) = degR (u ^^^ w) := rfl

theorem degA_app (v : Nat) (i : Party) : degA v i = v := rfl

theorem degA_eta (v : Nat) : (fun _ : Party => v) = degA v := rfl

theorem A2B_deg (k : Nat) (x : RssShare) (hwf : wfRss x) :
    recB (A2B_proc k x) =
      A2BVal k (((x 0).1 + (x 0).2) % 2 ^ k) ((x 1).2) := by
  have h2 : (x 2).1 = (x 1).2 := (hwf 1).symm
  have hmn : constructMN k x =
      (degM (((x 0).1 + (x 0).2) % 2 ^ k), degM ((x 1).2)) := by
    unfold constructMN
    refine Prod.ext ?_ ?_ <;> funext i <;> fin_cases i <;>
      simp [degM, h2]
  simp only [A2B_proc, A2BMultiFanIn, PGCell_4FanIn4Out, PGCell_4FanIn1Out,
    hmn, MssXor2_deg, MssAnd2_deg, Rss2Ass_deg, Ass2Mss_deg, Mss2Rss_deg,
    RssAnd2_deg, RssXor2_deg, AssXor2_deg, selectMss_deg, selRotMss_deg,
    mergeTop_deg, degM_fst, degM_snd1, degM_snd2, degR_fst, degR_snd,
    degA_app, degA_eta, Nat.and_zero, Nat.xor_zero, degM_eta, recB, xor3,
    Nat.xor_self, Nat.zero_xor, SelectAndRotate_zero, Nat.zero_mod,
    A2BVal, cell44gVal, cell44pVal, cell41gVal, cell41pVal, merge7,
    spread3Val, sel7Val, ppaSelVal, srVal]


theorem mask1_bit (w : Nat) :
    (0x1111111111111111 : Nat).testBit w = decide (w < 64 ∧ w % 4 = 0) := by
  by_cases hw : w < 64
  · have h := (by decide : ∀ w', w' < 64 →
      (0x1111111111111111 : Nat).testBit w' = decide (w' % 4 = 0)) w hw
    rw [h]
    simp [hw]
  · rw [testBit_ge_of_lt _ 64 _ (by norm_num) (by omega)]
    simp [hw]

theorem mask8_bit (w : Nat) :
    (0x8888888888888888 : Nat).testBit w = decide (w < 64 ∧ w % 4 = 3) := by
  by_cases hw : w < 64
  · have h := (by decide : ∀ w', w' < 64 →
      (0x8888888888888888 : Nat).testBit w' = decide (w' % 4 = 3)) w hw
    rw [h]
    simp [hw]
  · rw [testBit_ge_of_lt _ 64 _ (by norm_num) (by omega)]
    simp [hw]

theorem mask7_bit (w : Nat) :
    (0x7777777777777777 : Nat).testBit w = decide (w < 64 ∧ ¬ w % 4 = 3) := by
  by_cases hw : w < 64
  · have h := (by decide : ∀ w', w' < 64 →
      (0x7777777777777777 : Nat).testBit w' = decide (¬ w' % 4 = 3)) w hw
    rw [h]
    simp [hw]
  · rw [testBit_ge_of_lt _ 64 _ (by norm_num) (by omega)]
    simp [hw]

theorem rshift_small (x s : Nat) (hx : x < 2 ^ 64) : rshift x s = x >>> s := by
  show (x % 2 ^ 64) >>> s = x >>> s
  rw [Nat.mod_eq_of_lt hx]

theorem ppaSelVal_lt (k v idx : Nat) : ppaSelVal k v idx < 2 ^ k :=
  Nat.mod_lt _ (Nat.pos_pow_of_pos k (by norm_num))

theorem srVal_lt (k v s : Nat) : srVal k v s < 2 ^ k :=
  Nat.mod_lt _ (Nat.pos_pow_of_pos k (by norm_num))

theorem ppaSelVal_bit (k v idx u : Nat) (hv : v < 2 ^ 64) (hidx : idx ≤ 3)
    (hk : k ≤ 64) :
    (ppaSelVal k v idx).testBit u =
      (decide (u < k ∧ u % 4 = 3 ∧ 3 - idx ≤ u) &&
        v.testBit (u - (3 - idx))) := by
  simp only [ppaSelVal, select, Nat.mul_one]
  rw [Nat.mod_eq_of_lt hv,
    Nat.mod_eq_of_lt (show (0x1111111111111111:Nat) < 2 ^ 64 by norm_num)]
  simp only [Nat.testBit_mod_two_pow, Nat.testBit_shiftLeft, Nat.testBit_and,
    mask1_bit]
  by_cases h1 : u < k
  · by_cases h3 : u % 4 = 3
    · by_cases h2 : 3 - idx ≤ u
      · have c0 : u < 64 := by omega
        have c1 : idx ≤ u - (3 - idx) := by omega
        have c2 : u - (3 - idx) - idx < 64 := by omega
        have c3 : (u - (3 - idx) - idx) % 4 = 0 := by omega
        have c4 : u - (3 - idx) < 64 := by omega
        simp [h1, h2, h3, c0, c1, c2, c3, c4]
      · exfalso
        omega
    · rcases Nat.lt_or_ge u 3 with hu3 | hu3
      · by_cases h2 : 3 - idx ≤ u
        · have c1 : ¬ (idx ≤ u - (3 - idx)) := by omega
          simp [h3, c1]
        · simp [h3, h2]
      · have c3 : ¬ ((u - (3 - idx) - idx) % 4 = 0) := by omega
        simp [h3, c3]
  · simp [h1]

theorem srVal_bit (k v s u : Nat) (hv : v < 2 ^ 64) (hk : k ≤ 64) :
    (srVal k v s).testBit u =
      (decide (u < k ∧ s ≤ u ∧ (u - s) % 4 = 3) && v.testBit (u - s)) := by
  simp only [srVal, SelectAndRotate]
  rw [Nat.mod_eq_of_lt hv,
    Nat.mod_eq_of_lt (show (0x8888888888888888:Nat) < 2 ^ 64 by norm_num)]
  simp only [Nat.testBit_mod_two_pow, Nat.testBit_shiftLeft, Nat.testBit_and,
    mask8_bit]
  by_cases h1 : u < k
  · by_cases h2 : s ≤ u
    · by_cases h3 : (u - s) % 4 = 3
      · have c0 : u < 64 := by omega
        have c1 : u - s < 64 := by omega
        simp [h1, h2, h3, c0, c1]
      · simp [h3]
    · simp [h2]
  · simp [h1]

theorem sel7Val_bit (k v u : Nat) (hv : v < 2 ^ 64) (hk : k ≤ 64) :
    (sel7Val k v).testBit u =
      (decide (u < k ∧ ¬ u % 4 = 3) && v.testBit u) := by
  simp only [sel7Val, SelectAndRotate]
  rw [Nat.mod_eq_of_lt hv,
    Nat.mod_eq_of_lt (show (0x7777777777777777:Nat) < 2 ^ 64 by norm_num)]
  simp only [Nat.shiftLeft_zero, Nat.testBit_mod_two_pow, Nat.testBit_and,
    mask7_bit]
  by_cases h1 : u < k
  · by_cases h3 : u % 4 = 3
    · simp [h3]
    · have c0 : u < 64 := by omega
      simp [h1, h3, c0]
  · simp [h1]

theorem spread3Val_bit (k v u : Nat) (hv : v < 2 ^ 64) (hk : k ≤ 64) :
    (spread3Val k v).testBit u =
      (decide (u < k ∧ ¬ u % 4 = 3 ∧ u % 4 + 1 ≤ u) &&
        v.testBit (u - (u % 4 + 1))) := by
  have hm8 : (0x8888888888888888:Nat) < 2 ^ 64 := by norm_num
  simp only [spread3Val, SelectAndRotate]
  rw [Nat.mod_eq_of_lt hv, Nat.mod_eq_of_lt hm8]
  simp only [Nat.testBit_mod_two_pow, Nat.testBit_xor, Nat.testBit_shiftLeft,
    Nat.testBit_and, mask8_bit]
  by_cases h1 : u < k
  · have c0 : u < 64 := by omega
    rcases (by omega : u % 4 = 0 ∨ u % 4 = 1 ∨ u % 4 = 2 ∨ u % 4 = 3)
      with hr | hr | hr | hr
    · by_cases h2 : 1 ≤ u
      · have d1 : (u - 1) % 4 = 3 := by omega
        have d2 : ¬ ((u - 2) % 4 = 3) := by omega
        have d3 : ¬ ((u - 3) % 4 = 3) := by omega
        have d4 : u - 1 < 64 := by omega
        simp [h1, h2, hr, d1, d2, d3, d4, c0]
      · simp [h2, hr, show ¬ (2:Nat) ≤ u by omega, show ¬ (3:Nat) ≤ u by omega,
          show ¬ (u % 4 + 1 ≤ u) by omega]
    · have h2 : 1 ≤ u := by omega
      have d1 : ¬ ((u - 1) % 4 = 3) := by omega
      by_cases h22 : 2 ≤ u
      · have d2 : (u - 2) % 4 = 3 := by omega
        have d3 : ¬ ((u - 3) % 4 = 3) := by omega
        have d4 : u - 2 < 64 := by omega
        simp [h1, h2, h22, hr, d1, d2, d3, d4, c0]
      · simp [h2, h22, hr, d1, show ¬ (3:Nat) ≤ u by omega,
          show ¬ (u % 4 + 1 ≤ u) by omega]
    · have h2 : 1 ≤ u := by omega
      have h22 : 2 ≤ u := by omega
      have d1 : ¬ ((u - 1) % 4 = 3) := by omega
      have d2 : ¬ ((u - 2) % 4 = 3) := by omega
      by_cases h23 : 3 ≤ u
      · have d3 : (u - 3) % 4 = 3 := by omega
        have d4 : u - 3 < 64 := by omega
        simp [h1, h2, h22, h23, hr, d1, d2, d3, d4, c0]
      · simp [h2, h22, h23, hr, d1, d2,
          show ¬ (u % 4 + 1 ≤ u) by omega]
    · have d1 : ¬ ((u - 1) % 4 = 3) := by omega
      have d2 : ¬ ((u - 2) % 4 = 3) := by omega
      have d3 : ¬ ((u - 3) % 4 = 3) := by omega
      simp [hr, d1, d2, d3]
  · simp [h1]


theorem genSeg_two (P G : Nat → Bool) (a : Nat) :
    genSeg P G a 2 = Bool.xor (G (a + 1)) (P (a + 1) && G a) := by
  show Bool.xor (G (a + 1)) (P (a + 1) && genSeg P G a 1) = _
  rw [genSeg_one]

theorem genSeg_three (P G : Nat → Bool) (a : Nat) :
    genSeg P G a 3 = Bool.xor (G (a + 2)) (P (a + 2) &&
      Bool.xor (G (a + 1)) (P (a + 1) && G a)) := by
  show Bool.xor (G (a + 2)) (P (a + 2) && genSeg P G a 2) = _
  rw [genSeg_two]

theorem genSeg_four (P G : Nat → Bool) (a : Nat) :
    genSeg P G a 4 = Bool.xor (G (a + 3)) (P (a + 3) &&
      Bool.xor (G (a + 2)) (P (a + 2) &&
        Bool.xor (G (a + 1)) (P (a + 1) && G a))) := by
  show Bool.xor (G (a + 3)) (P (a + 3) && genSeg P G a 3) = _
  rw [genSeg_three]

theorem propSeg_two (P : Nat → Bool) (a : Nat) :
    propSeg P a 2 = (P (a + 1) && P a) := by
  show (P (a + 1) && propSeg P a 1) = _
  rw [propSeg_one]

theorem propSeg_three (P : Nat → Bool) (a : Nat) :
    propSeg P a 3 = (P (a + 2) && (P (a + 1) && P a)) := by
  show (P (a + 2) && propSeg P a 2) = _
  rw [propSeg_two]

theorem propSeg_four (P : Nat → Bool) (a : Nat) :
    propSeg P a 4 = (P (a + 3) && (P (a + 2) && (P (a + 1) && P a))) := by
  show (P (a + 3) && propSeg P a 3) = _
  rw [propSeg_three]

theorem cell44g_bit (k pv gv t : Nat) (hk : k ≤ 64) (hk4 : k % 4 = 0)
    (hpv : pv < 2 ^ 64) (hgv : gv < 2 ^ 64) :
    (cell44gVal k pv gv).testBit t =
      (decide (t < k) &&
        genSeg (fun u => pv.testBit u) (fun u => gv.testBit u)
          (4 * (t / 4)) (t % 4 + 1)) := by
  by_cases h1 : t < k
  · have sp0 := fun u => ppaSelVal_bit k pv 0 u hpv (by norm_num) hk
    have sp1 := fun u => ppaSelVal_bit k pv 1 u hpv (by norm_num) hk
    have sp2 := fun u => ppaSelVal_bit k pv 2 u hpv (by norm_num) hk
    have sp3 := fun u => ppaSelVal_bit k pv 3 u hpv (by norm_num) hk
    have sg0 := fun u => ppaSelVal_bit k gv 0 u hgv (by norm_num) hk
    have sg1 := fun u => ppaSelVal_bit k gv 1 u hgv (by norm_num) hk
    have sg2 := fun u => ppaSelVal_bit k gv 2 u hgv (by norm_num) hk
    have sg3 := fun u => ppaSelVal_bit k gv 3 u hgv (by norm_num) hk
    simp only [cell44gVal, rshift, Nat.testBit_mod_two_pow, Nat.testBit_xor,
      Nat.testBit_and, Nat.testBit_shiftRight, sp0, sp1, sp2, sp3, sg0, sg1,
      sg2, sg3]
    rcases (by omega : t % 4 = 0 ∨ t % 4 = 1 ∨ t % 4 = 2 ∨ t % 4 = 3)
      with hr | hr | hr | hr
    · have e0 : ¬ t % 4 = 3 := by omega
      have e1 : ¬ (1 + t) % 4 = 3 := by omega
      have e2 : ¬ (2 + t) % 4 = 3 := by omega
      have e3 : (3 + t) % 4 = 3 := by omega
      have l3 : 3 + t < k := by omega
      have l64 : 3 + t < 64 := by omega
      have ht : 4 * (t / 4) = t := by omega
      have hg3 : (3:Nat) ≤ 3 + t := by omega
      simp [hr, e0, e1, e2, e3, l3, l64, h1, hg3, ht, genSeg]
      done
    · have e0 : ¬ t % 4 = 3 := by omega
      have e1 : ¬ (1 + t) % 4 = 3 := by omega
      have e2 : (2 + t) % 4 = 3 := by omega
      have e3 : ¬ (3 + t) % 4 = 3 := by omega
      have l2 : 2 + t < k := by omega
      have l64 : 2 + t < 64 := by omega
      have ht : 4 * (t / 4) = t - 1 := by omega
      have hg2 : (3:Nat) ≤ 2 + t := by omega
      have hg2b : (2:Nat) ≤ 2 + t := by omega
      simp [hr, e0, e1, e2, e3, l2, l64, h1, hg2, hg2b, ht, genSeg]
      rw [show 2 + t - 3 = t - 1 by omega, show t - 1 + 1 = t by omega]
      cases hA : gv.testBit t <;> cases hB : gv.testBit (t - 1) <;>
        cases hC : pv.testBit t <;> rfl
    · have e0 : ¬ t % 4 = 3 := by omega
      have e1 : (1 + t) % 4 = 3 := by omega
      have e2 : ¬ (2 + t) % 4 = 3 := by omega
      have e3 : ¬ (3 + t) % 4 = 3 := by omega
      have l1 : 1 + t < k := by omega
      have l64 : 1 + t < 64 := by omega
      have ht : 4 * (t / 4) = t - 2 := by omega
      have hg1 : (3:Nat) ≤ 1 + t := by omega
      have hg1b : (2:Nat) ≤ 1 + t := by omega
      have hg1c : (1:Nat) ≤ 1 + t := by omega
      simp [hr, e0, e1, e2, e3, l1, l64, h1, hg1, hg1b, hg1c, ht, genSeg]
      rw [show 1 + t - 2 = t - 1 by omega, show 1 + t - 3 = t - 2 by omega,
        show t - 2 + 2 = t by omega, show t - 2 + 1 = t - 1 by omega]
      cases hA : gv.testBit t <;> cases hB : gv.testBit (t - 1) <;>
        cases hC : gv.testBit (t - 2) <;> cases hD : pv.testBit t <;>
        cases hE : pv.testBit (t - 1) <;> rfl
    · have e1 : ¬ (1 + t) % 4 = 3 := by omega
      have e2 : ¬ (2 + t) % 4 = 3 := by omega
      have e3 : ¬ (3 + t) % 4 = 3 := by omega
      have ht : 4 * (t / 4) = t - 3 := by omega
      have hg1 : (1:Nat) ≤ t := by omega
      have hg2 : (2:Nat) ≤ t := by omega
      have hg3 : (3:Nat) ≤ t := by omega
      simp [hr, e1, e2, e3, h1, hg1, hg2, hg3, ht, genSeg]
      rw [show t - 3 + 2 = t - 1 by omega, show t - 3 + 1 = t - 2 by omega]
      cases hA : gv.testBit t <;> cases hB : gv.testBit (t - 1) <;>
        cases hC : gv.testBit (t - 2) <;> cases hD : gv.testBit (t - 3) <;>
        cases hE : pv.testBit t <;> cases hF : pv.testBit (t - 1) <;>
        cases hG : pv.testBit (t - 2) <;> rfl
  · have hlt : cell44gVal k pv gv < 2 ^ k :=
      Nat.mod_lt _ (Nat.pos_pow_of_pos k (by norm_num))
    rw [testBit_ge_of_lt _ k _ hlt (by omega)]
    simp [h1]


theorem cell44p_bit (k pv t : Nat) (hk : k ≤ 64) (hk4 : k % 4 = 0)
    (hpv : pv < 2 ^ 64) :
    (cell44pVal k pv).testBit t =
      (decide (t < k) &&
        propSeg (fun u => pv.testBit u) (4 * (t / 4)) (t % 4 + 1)) := by
  by_cases h1 : t < k
  · have sp0 := fun u => ppaSelVal_bit k pv 0 u hpv (by norm_num) hk
    have sp1 := fun u => ppaSelVal_bit k pv 1 u hpv (by norm_num) hk
    have sp2 := fun u => ppaSelVal_bit k pv 2 u hpv (by norm_num) hk
    have sp3 := fun u => ppaSelVal_bit k pv 3 u hpv (by norm_num) hk
    simp only [cell44pVal, rshift, Nat.testBit_mod_two_pow, Nat.testBit_xor,
      Nat.testBit_and, Nat.testBit_shiftRight, sp0, sp1, sp2, sp3]
    rcases (by omega : t % 4 = 0 ∨ t % 4 = 1 ∨ t % 4 = 2 ∨ t % 4 = 3)
      with hr | hr | hr | hr
    · have e0 : ¬ t % 4 = 3 := by omega
      have e1 : ¬ (1 + t) % 4 = 3 := by omega
      have e2 : ¬ (2 + t) % 4 = 3 := by omega
      have e3 : (3 + t) % 4 = 3 := by omega
      have l3 : 3 + t < k := by omega
      have l64 : 3 + t < 64 := by omega
      have ht : 4 * (t / 4) = t := by omega
      have hg3 : (3:Nat) ≤ 3 + t := by omega
      simp [hr, e0, e1, e2, e3, l3, l64, h1, hg3, ht, propSeg]
    · have e0 : ¬ t % 4 = 3 := by omega
      have e1 : ¬ (1 + t) % 4 = 3 := by omega
      have e2 : (2 + t) % 4 = 3 := by omega
      have e3 : ¬ (3 + t) % 4 = 3 := by omega
      have l2 : 2 + t < k := by omega
      have l64 : 2 + t < 64 := by omega
      have ht : 4 * (t / 4) = t - 1 := by omega
      have hg2 : (3:Nat) ≤ 2 + t := by omega
      have hg2b : (2:Nat) ≤ 2 + t := by omega
      simp [hr, e0, e1, e2, e3, l2, l64, h1, hg2, hg2b, ht, propSeg]
      rw [show 2 + t - 3 = t - 1 by omega, show t - 1 + 1 = t by omega]
      cases hA : pv.testBit t <;> cases hB : pv.testBit (t - 1) <;> rfl
    · have e0 : ¬ t % 4 = 3 := by omega
      have e1 : (1 + t) % 4 = 3 := by omega
      have e2 : ¬ (2 + t) % 4 = 3 := by omega
      have e3 : ¬ (3 + t) % 4 = 3 := by omega
      have l1 : 1 + t < k := by omega
      have l64 : 1 + t < 64 := by omega
      have ht : 4 * (t / 4) = t - 2 := by omega
      have hg1 : (3:Nat) ≤ 1 + t := by omega
      have hg1b : (2:Nat) ≤ 1 + t := by omega
      have hg1c : (1:Nat) ≤ 1 + t := by omega
      simp [hr, e0, e1, e2, e3, l1, l64, h1, hg1, hg1b, hg1c, ht, propSeg]
      rw [show 1 + t - 2 = t - 1 by omega, show 1 + t - 3 = t - 2 by omega,
        show t - 2 + 2 = t by omega, show t - 2 + 1 = t - 1 by omega]
      cases hA : pv.testBit t <;> cases hB : pv.testBit (t - 1) <;>
        cases hC : pv.testBit (t - 2) <;> rfl
    · have e1 : ¬ (1 + t) % 4 = 3 := by omega
      have e2 : ¬ (2 + t) % 4 = 3 := by omega
      have e3 : ¬ (3 + t) % 4 = 3 := by omega
      have ht : 4 * (t / 4) = t - 3 := by omega
      have hg1 : (1:Nat) ≤ t := by omega
      have hg2 : (2:Nat) ≤ t := by omega
      have hg3 : (3:Nat) ≤ t := by omega
      simp [hr, e1, e2, e3, h1, hg1, hg2, hg3, ht, propSeg]
      rw [show t - 3 + 2 = t - 1 by omega, show t - 3 + 1 = t - 2 by omega]
      cases hA : pv.testBit t <;> cases hB : pv.testBit (t - 1) <;>
        cases hC : pv.testBit (t - 2) <;> cases hD : pv.testBit (t - 3) <;> rfl
  · have hlt : cell44pVal k pv < 2 ^ k :=
      Nat.mod_lt _ (Nat.pos_pow_of_pos k (by norm_num))
    rw [testBit_ge_of_lt _ k _ hlt (by omega)]
    simp [h1]


theorem cell41gVal_lt (k s gw pw : Nat) : cell41gVal k s gw pw < 2 ^ k := by
  refine Nat.xor_lt_two_pow (Nat.xor_lt_two_pow (srVal_lt k gw (s * 0)) ?_)
    (Nat.xor_lt_two_pow ?_ ?_)
  · exact lt_of_le_of_lt Nat.and_le_left (srVal_lt k gw (s * 1))
  · exact lt_of_le_of_lt Nat.and_le_left (srVal_lt k gw (s * 2))
  · exact lt_of_le_of_lt Nat.and_le_left
      (lt_of_le_of_lt Nat.and_le_left (srVal_lt k gw (s * 3)))

theorem cell41pVal_lt (k s pw : Nat) : cell41pVal k s pw < 2 ^ k :=
  lt_of_le_of_lt Nat.and_le_left
    (lt_of_le_of_lt Nat.and_le_left (srVal_lt k pw (s * 3)))

theorem merge7_lt (k u w : Nat) (hu : u < 2 ^ k) (hw : w < 2 ^ k) :
    merge7 u w < 2 ^ k :=
  Nat.xor_lt_two_pow (lt_of_le_of_lt Nat.and_le_left hu) hw

theorem merge1g_bit (k g1 p1 : Nat) (P G : Nat → Bool) (t : Nat)
    (hk : k ≤ 64) (hk4 : k % 4 = 0) (hg1k : g1 < 2 ^ k) (hp1k : p1 < 2 ^ k)
    (hg1 : ∀ u, g1.testBit u =
      (decide (u < k) && genSeg P G (4 * (u / 4)) (u % 4 + 1)))
    (hp1 : ∀ u, p1.testBit u =
      (decide (u < k) && propSeg P (4 * (u / 4)) (u % 4 + 1))) :
    (merge7 g1 (cell41gVal k 4 g1 p1)).testBit t =
      (decide (t < k) &&
        if t % 4 = 3 then
          genSeg P G (4 * (t / 4) - 12) (t + 1 - (4 * (t / 4) - 12))
        else genSeg P G (4 * (t / 4)) (t % 4 + 1)) := by
  have hg64 : g1 < 2 ^ 64 :=
    lt_of_lt_of_le hg1k (Nat.pow_le_pow_right (by norm_num) hk)
  have hp64 : p1 < 2 ^ 64 :=
    lt_of_lt_of_le hp1k (Nat.pow_le_pow_right (by norm_num) hk)
  by_cases h1 : t < k
  · have sg := fun s u => srVal_bit k g1 s u hg64 hk
    have sp := fun s u => srVal_bit k p1 s u hp64 hk
    simp only [merge7, cell41gVal, Nat.testBit_xor, Nat.testBit_and, mask7_bit,
      sg, sp]
    by_cases h3 : t % 4 = 3
    · rcases (by omega : t = 3 ∨ t = 7 ∨ t = 11 ∨ 15 ≤ t) with ht | ht | ht | ht
      · subst ht
        simp [h1, hg1, hp1, genSeg]
      · subst ht
        have l3 : 3 < k := by omega
        simp [h1, l3, hg1, hp1]
        rw [show (8:Nat) = 4 + 4 from rfl, genSeg_append P G 0 4 4]
        norm_num
        cases hA : genSeg P G 4 4 <;> cases hB : genSeg P G 0 4 <;>
          cases hC : propSeg P 4 4 <;> simp [hA, hB, hC]
      · subst ht
        have l3 : 3 < k := by omega
        have l7 : 7 < k := by omega
        simp [h1, l3, l7, hg1, hp1]
        rw [show (12:Nat) = 8 + 4 from rfl, genSeg_append P G 0 8 4,
          show (8:Nat) = 4 + 4 from rfl, genSeg_append P G 0 4 4]
        norm_num
        cases hA : genSeg P G 8 4 <;> cases hB : genSeg P G 4 4 <;>
          cases hC : genSeg P G 0 4 <;> cases hD : propSeg P 8 4 <;>
          cases hE : propSeg P 4 4 <;> simp [hA, hB, hC, hD, hE]
      · have e4 : (t - 4) % 4 = 3 := by omega
        have e8 : (t - 8) % 4 = 3 := by omega
        have e12 : (t - 12) % 4 = 3 := by omega
        have l4 : t - 4 < k := by omega
        have l8 : t - 8 < k := by omega
        have l12 : t - 12 < k := by omega
        have g4 : (4:Nat) ≤ t := by omega
        have g8 : (8:Nat) ≤ t := by omega
        have g12 : (12:Nat) ≤ t := by omega
        simp [h1, h3, hg1, hp1, e4, e8, e12, l4, l8, l12, g4, g8, g12]
        rw [show 4 * (t / 4) = t - 3 by omega,
          show 4 * ((t - 4) / 4) = t - 7 by omega,
          show 4 * ((t - 8) / 4) = t - 11 by omega,
          show 4 * ((t - 12) / 4) = t - 15 by omega,
          show t + 1 - (t - 3 - 12) = 16 by omega,
          show t - 3 - 12 = t - 15 by omega,
          show (16:Nat) = 12 + 4 from rfl, genSeg_append P G (t - 15) 12 4,
          show t - 15 + 12 = t - 3 by omega,
          show (12:Nat) = 8 + 4 from rfl, genSeg_append P G (t - 15) 8 4,
          show t - 15 + 8 = t - 7 by omega,
          show (8:Nat) = 4 + 4 from rfl, genSeg_append P G (t - 15) 4 4,
          show t - 15 + 4 = t - 11 by omega]
        cases hA : genSeg P G (t - 3) 4 <;> cases hB : genSeg P G (t - 7) 4 <;>
          cases hC : genSeg P G (t - 11) 4 <;>
          cases hD : genSeg P G (t - 15) 4 <;>
          cases hE : propSeg P (t - 3) 4 <;> cases hF : propSeg P (t - 7) 4 <;>
          cases hG : propSeg P (t - 11) 4 <;> simp [hA, hB, hC, hD, hE, hF, hG]
    · have d0 : ¬ (t < k ∧ 4 * 0 ≤ t ∧ (t - 4 * 0) % 4 = 3) := by omega
      have d1 : ¬ (t < k ∧ 4 * 1 ≤ t ∧ (t - 4 * 1) % 4 = 3) := by omega
      have d2 : ¬ (t < k ∧ 4 * 2 ≤ t ∧ (t - 4 * 2) % 4 = 3) := by omega
      have d3 : ¬ (t < k ∧ 4 * 3 ≤ t ∧ (t - 4 * 3) % 4 = 3) := by omega
      simp [h3, d0, d1, d2, d3, (show t < 64 by omega), h1, hg1 t]
  · have hlt : (merge7 g1 (cell41gVal k 4 g1 p1)) < 2 ^ k :=
      merge7_lt k _ _ hg1k (cell41gVal_lt k 4 g1 p1)
    rw [testBit_ge_of_lt _ k _ hlt (by omega)]
    simp [h1]


theorem merge1p_bit (k p1 : Nat) (P : Nat → Bool) (t : Nat)
    (hk : k ≤ 64) (hk4 : k % 4 = 0) (hp1k : p1 < 2 ^ k)
    (hp1 : ∀ u, p1.testBit u =
      (decide (u < k) && propSeg P (4 * (u / 4)) (u % 4 + 1))) :
    (merge7 p1 (cell41pVal k 4 p1)).testBit t =
      (decide (t < k) &&
        if t % 4 = 3 then (decide (12 ≤ t) && propSeg P (4 * (t / 4) - 12) 16)
        else propSeg P (4 * (t / 4)) (t % 4 + 1)) := by
  have hp64 : p1 < 2 ^ 64 :=
    lt_of_lt_of_le hp1k (Nat.pow_le_pow_right (by norm_num) hk)
  by_cases h1 : t < k
  · have sp := fun s u => srVal_bit k p1 s u hp64 hk
    simp only [merge7, cell41pVal, Nat.testBit_xor, Nat.testBit_and, mask7_bit,
      sp]
    by_cases h3 : t % 4 = 3
    · rcases (by omega : t = 3 ∨ t = 7 ∨ t = 11 ∨ 15 ≤ t) with ht | ht | ht | ht
      · subst ht
        simp [h1, hp1]
      · subst ht
        simp [h1, hp1]
      · subst ht
        simp [h1, hp1]
      · have e4 : (t - 4) % 4 = 3 := by omega
        have e8 : (t - 8) % 4 = 3 := by omega
        have e12 : (t - 12) % 4 = 3 := by omega
        have l4 : t - 4 < k := by omega
        have l8 : t - 8 < k := by omega
        have l12 : t - 12 < k := by omega
        have g4 : (4:Nat) ≤ t := by omega
        have g8 : (8:Nat) ≤ t := by omega
        have g12 : (12:Nat) ≤ t := by omega
        simp [h1, h3, hp1, e4, e8, e12, l4, l8, l12, g4, g8, g12]
        rw [show 4 * (t / 4) = t - 3 by omega,
          show 4 * ((t - 4) / 4) = t - 7 by omega,
          show 4 * ((t - 8) / 4) = t - 11 by omega,
          show 4 * ((t - 12) / 4) = t - 15 by omega,
          show t - 3 - 12 = t - 15 by omega,
          show (16:Nat) = 12 + 4 from rfl, propSeg_append P (t - 15) 12 4,
          show t - 15 + 12 = t - 3 by omega,
          show (12:Nat) = 8 + 4 from rfl, propSeg_append P (t - 15) 8 4,
          show t - 15 + 8 = t - 7 by omega,
          show (8:Nat) = 4 + 4 from rfl, propSeg_append P (t - 15) 4 4,
          show t - 15 + 4 = t - 11 by omega]
        cases hA : propSeg P (t - 3) 4 <;> cases hB : propSeg P (t - 7) 4 <;>
          cases hC : propSeg P (t - 11) 4 <;>
          cases hD : propSeg P (t - 15) 4 <;> simp [hA, hB, hC, hD]
    · have d0 : ¬ (t < k ∧ 4 * 0 ≤ t ∧ (t - 4 * 0) % 4 = 3) := by omega
      have d1 : ¬ (t < k ∧ 4 * 1 ≤ t ∧ (t - 4 * 1) % 4 = 3) := by omega
      have d2 : ¬ (t < k ∧ 4 * 2 ≤ t ∧ (t - 4 * 2) % 4 = 3) := by omega
      have d3 : ¬ (t < k ∧ 4 * 3 ≤ t ∧ (t - 4 * 3) % 4 = 3) := by omega
      simp [h3, d0, d1, d2, d3, (show t < 64 by omega), h1, hp1 t]
  · have hlt : (merge7 p1 (cell41pVal k 4 p1)) < 2 ^ k :=
      merge7_lt k _ _ hp1k (cell41pVal_lt k 4 p1)
    rw [testBit_ge_of_lt _ k _ hlt (by omega)]
    simp [h1]


theorem merge2g_bit (k g2 p2 : Nat) (P G : Nat → Bool) (t : Nat)
    (hk : k ≤ 64) (hk4 : k % 4 = 0) (hg2k : g2 < 2 ^ k) (hp2k : p2 < 2 ^ k)
    (hg2 : ∀ u, g2.testBit u =
      (decide (u < k) &&
        if u % 4 = 3 then
          genSeg P G (4 * (u / 4) - 12) (u + 1 - (4 * (u / 4) - 12))
        else genSeg P G (4 * (u / 4)) (u % 4 + 1)))
    (hp2 : ∀ u, p2.testBit u =
      (decide (u < k) &&
        if u % 4 = 3 then (decide (12 ≤ u) && propSeg P (4 * (u / 4) - 12) 16)
        else propSeg P (4 * (u / 4)) (u % 4 + 1))) :
    (merge7 g2 (cell41gVal k 16 g2 p2)).testBit t =
      (decide (t < k) &&
        if t % 4 = 3 then genSeg P G 0 (t + 1)
        else genSeg P G (4 * (t / 4)) (t % 4 + 1)) := by
  have hg64 : g2 < 2 ^ 64 :=
    lt_of_lt_of_le hg2k (Nat.pow_le_pow_right (by norm_num) hk)
  have hp64 : p2 < 2 ^ 64 :=
    lt_of_lt_of_le hp2k (Nat.pow_le_pow_right (by norm_num) hk)
  by_cases h1 : t < k
  · have sg := fun s u => srVal_bit k g2 s u hg64 hk
    have sp := fun s u => srVal_bit k p2 s u hp64 hk
    simp only [merge7, cell41gVal, Nat.testBit_xor, Nat.testBit_and, mask7_bit,
      sg, sp]
    by_cases h3 : t % 4 = 3
    · rcases (by omega : t < 16 ∨ 16 ≤ t ∧ t < 32 ∨ 32 ≤ t ∧ t < 48 ∨
        48 ≤ t ∧ t < 64) with ht | ht | ht | ht
      · have d16 : ¬ (16 ≤ t) := by omega
        have s0 : 4 * (t / 4) - 12 = 0 := by omega
        simp [h1, h3, hg2, d16, s0]
      · have d32 : ¬ (32 ≤ t) := by omega
        have e16 : (t - 16) % 4 = 3 := by omega
        have l16 : t - 16 < k := by omega
        have g16 : (16:Nat) ≤ t := by omega
        have g12 : (12:Nat) ≤ t := by omega
        have s0 : 4 * (t / 4) - 12 = t - 15 := by omega
        have len0 : t + 1 - (t - 15) = 16 := by omega
        have s1 : 4 * ((t - 16) / 4) - 12 = 0 := by omega
        have len1 : t - 16 + 1 - 0 = t - 15 := by omega
        simp [h1, h3, hg2, hp2, d32, e16, l16, g16, g12, s0, len0, s1, len1]
        rw [show t + 1 = t - 15 + 16 by omega, genSeg_append P G 0 (t - 15) 16,
          show 0 + (t - 15) = t - 15 by omega]
        cases hA : genSeg P G (t - 15) 16 <;>
          cases hB : genSeg P G 0 (t - 15) <;>
          cases hC : propSeg P (t - 15) 16 <;> simp [hA, hB, hC]
      · have d48 : ¬ (48 ≤ t) := by omega
        have e16 : (t - 16) % 4 = 3 := by omega
        have e32 : (t - 32) % 4 = 3 := by omega
        have l16 : t - 16 < k := by omega
        have l32 : t - 32 < k := by omega
        have g16 : (16:Nat) ≤ t := by omega
        have g32 : (32:Nat) ≤ t := by omega
        have g12 : (12:Nat) ≤ t := by omega
        have g12b : (12:Nat) ≤ t - 16 := by omega
        have s0 : 4 * (t / 4) - 12 = t - 15 := by omega
        have len0 : t + 1 - (t - 15) = 16 := by omega
        have s1 : 4 * ((t - 16) / 4) - 12 = t - 31 := by omega
        have len1 : t - 16 + 1 - (t - 31) = 16 := by omega
        have s2 : 4 * ((t - 32) / 4) - 12 = 0 := by omega
        have len2 : t - 32 + 1 - 0 = t - 31 := by omega
        simp [h1, h3, hg2, hp2, d48, e16, e32, l16, l32, g16, g32, g12, g12b,
          s0, len0, s1, len1, s2, len2]
        rw [show t + 1 = t - 31 + 16 + 16 by omega,
          genSeg_append P G 0 (t - 31 + 16) 16,
          show 0 + (t - 31 + 16) = t - 15 by omega,
          genSeg_append P G 0 (t - 31) 16,
          show 0 + (t - 31) = t - 31 by omega]
        cases hA : genSeg P G (t - 15) 16 <;>
          cases hB : genSeg P G (t - 31) 16 <;>
          cases hC : genSeg P G 0 (t - 31) <;>
          cases hD : propSeg P (t - 15) 16 <;>
          cases hE : propSeg P (t - 31) 16 <;> simp [hA, hB, hC, hD, hE]
      · have e16 : (t - 16) % 4 = 3 := by omega
        have e32 : (t - 32) % 4 = 3 := by omega
        have e48 : (t - 48) % 4 = 3 := by omega
        have l16 : t - 16 < k := by omega
        have l32 : t - 32 < k := by omega
        have l48 : t - 48 < k := by omega
        have g16 : (16:Nat) ≤ t := by omega
        have g32 : (32:Nat) ≤ t := by omega
        have g48 : (48:Nat) ≤ t := by omega
        have g12 : (12:Nat) ≤ t := by omega
        have g12b : (12:Nat) ≤ t - 16 := by omega
        have g12c : (12:Nat) ≤ t - 32 := by omega
        have s0 : 4 * (t / 4) - 12 = t - 15 := by omega
        have len0 : t + 1 - (t - 15) = 16 := by omega
        have s1 : 4 * ((t - 16) / 4) - 12 = t - 31 := by omega
        have len1 : t - 16 + 1 - (t - 31) = 16 := by omega
        have s2 : 4 * ((t - 32) / 4) - 12 = t - 47 := by omega
        have len2 : t - 32 + 1 - (t - 47) = 16 := by omega
        have s3 : 4 * ((t - 48) / 4) - 12 = 0 := by omega
        have len3 : t - 48 + 1 - 0 = t - 47 := by omega
        simp [h1, h3, hg2, hp2, e16, e32, e48, l16, l32, l48, g16, g32, g48,
          g12, g12b, g12c, s0, len0, s1, len1, s2, len2, s3, len3]
        rw [show t + 1 = t - 47 + 16 + 16 + 16 by omega,
          genSeg_append P G 0 (t - 47 + 16 + 16) 16,
          show 0 + (t - 47 + 16 + 16) = t - 15 by omega,
          genSeg_append P G 0 (t - 47 + 16) 16,
          show 0 + (t - 47 + 16) = t - 31 by omega,
          genSeg_append P G 0 (t - 47) 16,
          show 0 + (t - 47) = t - 47 by omega]
        cases hA : genSeg P G (t - 15) 16 <;>
          cases hB : genSeg P G (t - 31) 16 <;>
          cases hC : genSeg P G (t - 47) 16 <;>
          cases hD : genSeg P G 0 (t - 47) <;>
          cases hE : propSeg P (t - 15) 16 <;>
          cases hF : propSeg P (t - 31) 16 <;>
          cases hG : propSeg P (t - 47) 16 <;> simp [hA, hB, hC, hD, hE, hF, hG]
    · have e16n : ¬ ((t - 16) % 4 = 3) := by omega
      have e32n : ¬ ((t - 32) % 4 = 3) := by omega
      have e48n : ¬ ((t - 48) % 4 = 3) := by omega
      simp [h3, e16n, e32n, e48n, (show t < 64 by omega), h1, hg2 t]
  · have hlt : (merge7 g2 (cell41gVal k 16 g2 p2)) < 2 ^ k :=
      merge7_lt k _ _ hg2k (cell41gVal_lt k 16 g2 p2)
    rw [testBit_ge_of_lt _ k _ hlt (by omega)]
    simp [h1]


theorem merge2p_bit (k p2 : Nat) (P : Nat → Bool) (t : Nat)
    (hk : k ≤ 64) (hk4 : k % 4 = 0) (hp2k : p2 < 2 ^ k)
    (hp2 : ∀ u, p2.testBit u =
      (decide (u < k) &&
        if u % 4 = 3 then (decide (12 ≤ u) && propSeg P (4 * (u / 4) - 12) 16)
        else propSeg P (4 * (u / 4)) (u % 4 + 1)))
    (h3 : ¬ t % 4 = 3) :
    (merge7 p2 (cell41pVal k 16 p2)).testBit t =
      (decide (t < k) && propSeg P (4 * (t / 4)) (t % 4 + 1)) := by
  have hp64 : p2 < 2 ^ 64 :=
    lt_of_lt_of_le hp2k (Nat.pow_le_pow_right (by norm_num) hk)
  by_cases h1 : t < k
  · have sp := fun s u => srVal_bit k p2 s u hp64 hk
    simp only [merge7, cell41pVal, Nat.testBit_xor, Nat.testBit_and, mask7_bit,
      sp]
    have e16n : ¬ ((t - 16) % 4 = 3) := by omega
    have e32n : ¬ ((t - 32) % 4 = 3) := by omega
    have e48n : ¬ ((t - 48) % 4 = 3) := by omega
    simp [h3, e16n, e32n, e48n, (show t < 64 by omega), h1, hp2 t]
  · have hlt : (merge7 p2 (cell41pVal k 16 p2)) < 2 ^ k :=
      merge7_lt k _ _ hp2k (cell41pVal_lt k 16 p2)
    rw [testBit_ge_of_lt _ k _ hlt (by omega)]
    simp [h1]

theorem finalCarry_bit (k g3 p3 : Nat) (P G : Nat → Bool) (t : Nat)
    (hk : k ≤ 64) (hk4 : k % 4 = 0) (hg3k : g3 < 2 ^ k) (hp3k : p3 < 2 ^ k)
    (hg3 : ∀ u, g3.testBit u =
      (decide (u < k) &&
        if u % 4 = 3 then genSeg P G 0 (u + 1)
        else genSeg P G (4 * (u / 4)) (u % 4 + 1)))
    (hp3 : ∀ u, ¬ u % 4 = 3 → p3.testBit u =
      (decide (u < k) && propSeg P (4 * (u / 4)) (u % 4 + 1))) :
    (g3 ^^^ (spread3Val k g3 &&& sel7Val k p3)).testBit t =
      (decide (t < k) && genSeg P G 0 (t + 1)) := by
  have hg64 : g3 < 2 ^ 64 :=
    lt_of_lt_of_le hg3k (Nat.pow_le_pow_right (by norm_num) hk)
  have hp64 : p3 < 2 ^ 64 :=
    lt_of_lt_of_le hp3k (Nat.pow_le_pow_right (by norm_num) hk)
  rw [Nat.testBit_xor, Nat.testBit_and, spread3Val_bit k g3 t hg64 hk,
    sel7Val_bit k p3 t hp64 hk, hg3 t]
  by_cases h3 : t % 4 = 3
  · simp [h3]
  · by_cases h1 : t < k
    · by_cases h4 : 4 ≤ t
      · have e3 : (t - (t % 4 + 1)) % 4 = 3 := by omega
        have lm : t - (t % 4 + 1) < k := by omega
        have hm1 : t - (t % 4 + 1) + 1 = 4 * (t / 4) := by omega
        have hle : t % 4 + 1 ≤ t := by omega
        rw [hg3 (t - (t % 4 + 1)), hp3 t h3]
        simp [h3, h1, e3, lm, hm1, hle]
        rw [show t + 1 = 4 * (t / 4) + (t % 4 + 1) by omega,
          genSeg_append P G 0 (4 * (t / 4)) (t % 4 + 1),
          show 0 + 4 * (t / 4) = 4 * (t / 4) by omega]
        cases hA : genSeg P G (4 * (t / 4)) (t % 4 + 1) <;>
          cases hB : genSeg P G 0 (4 * (t / 4)) <;>
          cases hC : propSeg P (4 * (t / 4)) (t % 4 + 1) <;> simp [hA, hB, hC]
      · have h40 : 4 * (t / 4) = 0 := by omega
        have hmu : t % 4 = t := by omega
        have hnle : ¬ (t % 4 + 1 ≤ t) := by omega
        simp [h3, h1, h40, hmu, hnle]
    · simp [h1]

theorem A2BVal_eq (k a b : Nat) (hk : k ≤ 64) (hk4 : k % 4 = 0)
    (ha : a < 2 ^ k) (hb : b < 2 ^ k) :
    A2BVal k a b = (a + b) % 2 ^ k := by
  have hkpos : (0:Nat) < 2 ^ k := Nat.pos_pow_of_pos k (by norm_num)
  have h64 : (2:Nat) ^ k ≤ 2 ^ 64 := Nat.pow_le_pow_right (by norm_num) hk
  apply Nat.eq_of_testBit_eq
  intro t
  simp only [A2BVal]
  set pv := a ^^^ b with hpvdef
  set gv := a &&& b with hgvdef
  set g1 := cell44gVal k pv gv with hg1def
  set p1 := cell44pVal k pv with hp1def
  set g2 := merge7 g1 (cell41gVal k 4 g1 p1) with hg2def
  set p2 := merge7 p1 (cell41pVal k 4 p1) with hp2def
  set g3 := merge7 g2 (cell41gVal k 16 g2 p2) with hg3def
  set p3 := merge7 p2 (cell41pVal k 16 p2) with hp3def
  set c := g3 ^^^ (spread3Val k g3 &&& sel7Val k p3) with hcdef
  have hpvk : pv < 2 ^ k := Nat.xor_lt_two_pow ha hb
  have hgvk : gv < 2 ^ k := lt_of_le_of_lt Nat.and_le_left ha
  have hg1 := fun u => cell44g_bit k pv gv u hk hk4 (lt_of_lt_of_le hpvk h64)
    (lt_of_lt_of_le hgvk h64)
  have hp1 := fun u => cell44p_bit k pv u hk hk4 (lt_of_lt_of_le hpvk h64)
  have hg1k : g1 < 2 ^ k := Nat.mod_lt _ hkpos
  have hp1k : p1 < 2 ^ k := Nat.mod_lt _ hkpos
  have hg2 := fun u => merge1g_bit k g1 p1 _ _ u hk hk4 hg1k hp1k hg1 hp1
  have hp2 := fun u => merge1p_bit k p1 _ u hk hk4 hp1k hp1
  have hg2k : g2 < 2 ^ k := merge7_lt k _ _ hg1k (cell41gVal_lt k 4 g1 p1)
  have hp2k : p2 < 2 ^ k := merge7_lt k _ _ hp1k (cell41pVal_lt k 4 p1)
  have hg3 := fun u => merge2g_bit k g2 p2 _ _ u hk hk4 hg2k hp2k hg2 hp2
  have hp3 := fun u h3 => merge2p_bit k p2 _ u hk hk4 hp2k hp2 h3
  have hg3k : g3 < 2 ^ k := merge7_lt k _ _ hg2k (cell41gVal_lt k 16 g2 p2)
  have hp3k : p3 < 2 ^ k := merge7_lt k _ _ hp2k (cell41pVal_lt k 16 p2)
  have hc := fun u => finalCarry_bit k g3 p3 _ _ u hk hk4 hg3k hp3k hg3 hp3
  have hck : c < 2 ^ k :=
    Nat.xor_lt_two_pow hg3k (lt_of_le_of_lt Nat.and_le_left (Nat.mod_lt _ hkpos))
  have hPc : ∀ w, pv.testBit w = pBit a b w := fun w => by
    rw [hpvdef, pBit, Nat.testBit_xor]
  have hGc : ∀ w, gv.testBit w = gBit a b w := fun w => by
    rw [hgvdef, gBit, Nat.testBit_and]
  rw [Nat.testBit_mod_two_pow, Nat.testBit_mod_two_pow, Nat.testBit_xor]
  by_cases h1 : t < k
  · have hseg : genSeg (fun u => pv.testBit u) (fun u => gv.testBit u) 0 t =
        carryOut a b t := by
      rw [carryOut]
      exact genSeg_congr _ _ _ _ 0 t (fun w _ _ => hPc w) (fun w _ _ => hGc w)
    rw [show lshift c 1 = (c <<< 1) % 2 ^ 64 from by
      rw [lshift, Nat.mod_eq_of_lt (lt_of_lt_of_le hck h64)]]
    rw [Nat.testBit_mod_two_pow, Nat.testBit_shiftLeft, add_testBit]
    by_cases ht0 : t = 0
    · subst ht0
      simp [hPc 0, carryOut, genSeg]
    · have hl1 : (1:Nat) ≤ t := by omega
      have hl64 : t < 64 := by omega
      have hlk : t - 1 < k := by omega
      have hm1 : t - 1 + 1 = t := by omega
      rw [hc (t - 1)]
      simp [h1, hl1, hl64, hlk, hm1, hPc t, hseg]
  · simp [h1]


theorem A2B_correct (k : Nat) (x : RssShare) (hk : k ≤ 64) (hk4 : k % 4 = 0)
    (hwf : wfRss x) (hb : (x 1).2 < 2 ^ k) :
    recB (A2B_proc k x) = recA k x := by
  rw [A2B_deg k x hwf,
    A2BVal_eq k _ _ hk hk4 (Nat.mod_lt _ (Nat.pos_pow_of_pos k (by norm_num)))
      hb]
  rw [Nat.mod_add_mod]
  simp only [recA]
  have h1 : (x 0).2 = (x 1).1 := hwf 0
  have h2 : (x 1).2 = (x 2).1 := hwf 1
  rw [h1, h2]

theorem B2APPA_recA (k nbits : Nat) (α β : Party → Nat) (x : RssShare)
    (h0 : nbits ≠ 0) (hx : recB x < 2 ^ k) :
    recA k ((B2AByPPA_proc k nbits α β x).1) = recB x := by
  have hM : (0:Nat) < 2 ^ k := Nat.pos_pow_of_pos k (by norm_num)
  simp only [B2AByPPA_proc, h0, if_neg h0, recA, recB, xor3, rotate, add_bb,
    negMod]
  norm_num [(by decide : ¬ (2:Party) = 1), (by decide : ¬ (0:Party) = 2),
    (by decide : ¬ (2:Party) = 0)]
  simp only [show (3:Party) = 0 from by decide]
  have hz : (β 0 ^^^ β 1 ^^^ (β 1 ^^^ β 2 ^^^ (α 1 + α 2) % 2 ^ k) ^^^
      (β 2 ^^^ β 0)) = (α 1 + α 2) % 2 ^ k := by
    have hxa : ∀ u v w m : Nat, u ^^^ v ^^^ (v ^^^ w ^^^ m) ^^^ (w ^^^ u) = m := by
      intro u v w m
      apply Nat.eq_of_testBit_eq
      intro i
      simp only [Nat.testBit_xor]
      cases u.testBit i <;> cases v.testBit i <;> cases w.testBit i <;>
        cases m.testBit i <;> rfl
    exact hxa (β 0) (β 1) (β 2) ((α 1 + α 2) % 2 ^ k)
  rw [hz]
  have key : ∀ X a1 a2 M : Nat, 0 < M → X < M →
      ((X + (a1 + a2) % M) % M + (M - a1 % M) % M + (M - a2 % M)) % M =
        X := by
    intro X a1 a2 M hMp hX
    have m1 : a1 % M < M := Nat.mod_lt _ hMp
    have m2 : a2 % M < M := Nat.mod_lt _ hMp
    have step1 : (X + (a1 + a2) % M) % M + (M - a1 % M) % M +
        (M - a2 % M) ≡
        (X + (a1 + a2) % M) + (M - a1 % M) + (M - a2 % M) [MOD M] :=
      Nat.ModEq.add_right _
        (Nat.ModEq.add (Nat.mod_modEq _ _) (Nat.mod_modEq _ _))
    have hsum : (a1 + a2) % M ≡ a1 % M + a2 % M [MOD M] :=
      (Nat.mod_modEq (a1 + a2) M).trans
        (Nat.ModEq.add (Nat.mod_modEq a1 M).symm (Nat.mod_modEq a2 M).symm)
    have step2 : (X + (a1 + a2) % M) + (M - a1 % M) + (M - a2 % M) ≡
        (X + (a1 % M + a2 % M)) + (M - a1 % M) + (M - a2 % M) [MOD M] :=
      Nat.ModEq.add_right _ (Nat.ModEq.add_right _ (Nat.ModEq.add_left X hsum))
    have step3 : (X + (a1 % M + a2 % M)) + (M - a1 % M) + (M - a2 % M) =
        X + 2 * M := by omega
    have step4 : X + 2 * M ≡ X [MOD M] := by
      have : (2 * M) % M = 0 := by
        rw [Nat.mul_mod_left]
      calc X + 2 * M ≡ X + 0 [MOD M] :=
            Nat.ModEq.add_left X (by rw [Nat.ModEq, this, Nat.zero_mod])
        _ = X := by omega
    have final := ((step1.trans step2).trans (step3 ▸ Nat.ModEq.refl _)).trans
      step4
    have final2 : _ % M = X % M := final
    rw [Nat.mod_eq_of_lt hX] at final2
    exact final2
  exact key ((x 0).1 ^^^ (x 1).1 ^^^ (x 2).1) (α 1) (α 2) (2 ^ k) hM hx


theorem B2APPA_wf (k nbits : Nat) (α β : Party → Nat) (x : RssShare) :
    wfRss ((B2AByPPA_proc k nbits α β x).1) := by
  intro i
  by_cases h : nbits = 0 <;> simp [B2AByPPA_proc, h, rotate]

theorem B2APPA_snd_lt (k nbits : Nat) (α β : Party → Nat) (x : RssShare)
    (hk : 0 < k) :
    (((B2AByPPA_proc k nbits α β x).1 1).2) < 2 ^ k := by
  have hM : (0:Nat) < 2 ^ k := Nat.pos_pow_of_pos k (by norm_num)
  by_cases h : nbits = 0
  · simp [B2AByPPA_proc, h]
  · simp [B2AByPPA_proc, h, rotate, (by decide : ¬ (2:Party) = 0),
      (by decide : ¬ (1:Party) = 0), negMod]
    exact Nat.mod_lt _ hM

/-- C2: over the rings the 4-ary parallel-prefix adder supports (`k ≤ 64`,
`k` a multiple of `4`, so in particular FM32 and FM64), A2B reconstructs the
shared arithmetic value, B2A (dispatched through `B2ASelector`, which picks
the PPA variant since the width exceeds 8) after A2B is the identity on the
reconstructed arithmetic value, and A2B after B2A is the identity on the
reconstructed Boolean value of a width-`k` Boolean sharing. -/
theorem A2B_B2A_roundTrip (k : Nat) (hk : k ≤ 64) (hk4 : k % 4 = 0)
    (hk8 : 8 < k) (pivot : Party) (pair : Party → Nat → Nat)
    (μ0 μ1 : Nat → Nat) (α β : Party → Nat) (x y : RssShare)
    (hwf : wfRss x) (hb : (x 1).2 < 2 ^ k) (hy : recB y < 2 ^ k) :
    recB (A2B_proc k x) = recA k x ∧
    recA k ((B2ASelector_proc k k pivot pair μ0 μ1 α β (A2B_proc k x)).1) =
      recA k x ∧
    recB (A2B_proc k ((B2ASelector_proc k k pivot pair μ0 μ1 α β y).1)) =
      recB y := by
  have hM : (0:Nat) < 2 ^ k := Nat.pos_pow_of_pos k (by norm_num)
  have hsel : ∀ z, B2ASelector_proc k k pivot pair μ0 μ1 α β z =
      B2AByPPA_proc k k α β z := fun z => by
    unfold B2ASelector_proc
    rw [if_neg (by omega : ¬ k ≤ 8)]
  refine ⟨A2B_correct k x hk hk4 hwf hb, ?_, ?_⟩
  · rw [hsel, B2APPA_recA k k α β (A2B_proc k x) (by omega)
      (by rw [A2B_correct k x hk hk4 hwf hb]; exact Nat.mod_lt _ hM),
      A2B_correct k x hk hk4 hwf hb]
  · rw [hsel, A2B_correct k _ hk hk4 (B2APPA_wf k k α β y)
      (B2APPA_snd_lt k k α β y (by omega)),
      B2APPA_recA k k α β y (by omega) hy]

theorem A2B_B2A_roundTrip_witness :
    recB (A2B_proc 32 (fun i : Party => if i = 0 then ((5:Nat), (7:Nat))
      else if i = 1 then (7, 11) else (11, 5))) =
      recA 32 (fun i : Party => if i = 0 then ((5:Nat), (7:Nat))
        else if i = 1 then (7, 11) else (11, 5)) ∧
    recA 32 ((B2ASelector_proc 32 32 0 (fun _ _ => 0) (fun _ => 0)
        (fun _ => 0) (fun _ => 3) (fun _ => 9)
        (A2B_proc 32 (fun i : Party => if i = 0 then ((5:Nat), (7:Nat))
          else if i = 1 then (7, 11) else (11, 5)))).1) =
      recA 32 (fun i : Party => if i = 0 then ((5:Nat), (7:Nat))
        else if i = 1 then (7, 11) else (11, 5)) ∧
    recB (A2B_proc 32 ((B2ASelector_proc 32 32 0 (fun _ _ => 0) (fun _ => 0)
        (fun _ => 0) (fun _ => 3) (fun _ => 9)
        (fun i : Party => if i = 0 then ((13:Nat), (6:Nat))
          else if i = 1 then (6, 2) else (2, 13))).1)) =
      recB (fun i : Party => if i = 0 then ((13:Nat), (6:Nat))
        else if i = 1 then (6, 2) else (2, 13)) :=
  A2B_B2A_roundTrip 32 (by norm_num) (by norm_num) (by norm_num) 0
    (fun _ _ => 0) (fun _ => 0) (fun _ => 0) (fun _ => 3) (fun _ => 9)
    (fun i : Party => if i = 0 then ((5:Nat), (7:Nat))
      else if i = 1 then (7, 11) else (11, 5))
    (fun i : Party => if i = 0 then ((13:Nat), (6:Nat))
      else if i = 1 then (6, 2) else (2, 13))
    (by decide) (by decide) (by decide)

/-- C2 fails on FM128: the PPA's 64-bit lane helpers truncate the carry word
at bit 64, so a carry that must cross bit 63 is lost.  With shares of
`2^64` the output reconstructs to `0`. -/
theorem A2B_FM128_false :
    wfRss (fun i : Party => if i = 0 then ((2 ^ 62 : Nat), (2 ^ 62 : Nat))
      else if i = 1 then (2 ^ 62, 2 ^ 63) else (2 ^ 63, 2 ^ 62)) ∧
    ((fun i : Party => if i = 0 then ((2 ^ 62 : Nat), (2 ^ 62 : Nat))
      else if i = 1 then (2 ^ 62, 2 ^ 63) else (2 ^ 63, 2 ^ 62)) 1).2 <
      2 ^ 128 ∧
    recB (A2B_proc 128 (fun i : Party =>
      if i = 0 then ((2 ^ 62 : Nat), (2 ^ 62 : Nat))
      else if i = 1 then (2 ^ 62, 2 ^ 63) else (2 ^ 63, 2 ^ 62))) ≠
      recA 128 (fun i : Party =>
        if i = 0 then ((2 ^ 62 : Nat), (2 ^ 62 : Nat))
        else if i = 1 then (2 ^ 62, 2 ^ 63) else (2 ^ 63, 2 ^ 62)) := by
  refine ⟨by decide, by decide, ?_⟩
  intro h
  have h0 : recB (A2B_proc 128 (fun i : Party =>
      if i = 0 then ((2 ^ 62 : Nat), (2 ^ 62 : Nat))
      else if i = 1 then (2 ^ 62, 2 ^ 63) else (2 ^ 63, 2 ^ 62))) = 0 := by
    rfl
  have h1 : recA 128 (fun i : Party =>
      if i = 0 then ((2 ^ 62 : Nat), (2 ^ 62 : Nat))
      else if i = 1 then (2 ^ 62, 2 ^ 63) else (2 ^ 63, 2 ^ 62)) = 2 ^ 64 := by
    rfl
  rw [h0, h1] at h
  exact absurd h (by norm_num)

end Alkaid
